import Mathlib

/-!
Verification development for the asynchronous file-transfer engine in
`src/core/file_transfer.py` (classes `FileTransferTask`, `DownloadTask`,
`FileTransferManager`, helper `suggest_rename`).

The Python code is shallowly embedded:

* an absolute filesystem path is a list of name components (`Path`);
* the byte stream of a file is kept pre-chunked, exactly as the
  `rf.read(CHUNK_SIZE)` loop of `_copy_file` sees it: a list of chunks,
  each chunk a list of byte values (`Content`);
* the mutable local filesystem that destination writes go to is a finite
  association list from paths to entries (`FS`); `Path.exists`,
  `Path.mkdir`, `Path.unlink`, `shutil.rmtree`, `Path.rename` and
  `Path.replace` become operations on it;
* the read-only source tree handed to a `FileTransferTask` is an
  inductive tree (`SrcTree`); a directory is represented directly by the
  spine of its `iterdir()` listing so that every traversal is
  structurally recursive (hence executable by `decide`);
* the Qt signals `progress_changed`, `file_progress` and `finished`
  become an append-only event trace in the task state; an extra
  `conflictQuery` trace event records each invocation of the
  user-supplied conflict callback (pure instrumentation);
* the worker thread's interaction with the outside world (external
  `cancel()` requests, I/O errors raised by chunk writes or renames, the
  monotonic clock read by the progress throttle, success of the
  post-move source deletion) is an environment of schedules indexed by a
  step counter `tick` that the task increments at each such interaction;
* `raise` / `except` become an `Except Err` result threaded with the
  task state; `RuntimeError('Cancelled')` is `Err.cancelled`, an OSError
  or network error is `Err.ioError` (whose message, a strerror text, is
  modelled by the fixed string "I/O error" - in particular it differs
  from "Cancelled").

Not modelled (out of scope for all claims): Qt object plumbing and
thread spawning, `shutil.copystat` metadata, the `TypeError`
compatibility fallback when invoking the callback (the embedded callback
is a total typed function), regex/URL parsing in
`DownloadTask._derive_filename` (the derived filename and the random
temp-file name of `tempfile.NamedTemporaryFile` are inputs of a download
source), and failure of `Path.unlink` during cleanup (cleanup deletions
succeed).
-/

namespace FileTransfer

/-- An absolute path, as its list of name components. -/
abbrev Path : Type := List String

/-- File bytes, pre-chunked as the 512 KiB read loop of `_copy_file`
delivers them: a list of chunks, each a list of byte values. -/
abbrev Content : Type := List (List Nat)

/-- A filesystem entry: a regular file with its content, or a directory
node. -/
inductive Entry : Type where
  | file (c : Content)
  | dir
deriving DecidableEq, Repr

instance : Inhabited Entry := ⟨Entry.dir⟩
instance : Nonempty Entry := ⟨Entry.dir⟩

/-- The mutable local filesystem: a finite association list from paths
to entries.  Lookup takes the first binding. -/
abbrev FS : Type := List (Path × Entry)

/-- Lookup of a path in the filesystem (first binding wins). -/
def fsLookup (fs : FS) (p : Path) : Option Entry :=
  match fs with
  | [] => none
  | (q, e) :: rest => if q = p then some e else fsLookup rest p

/-- `Path.exists()`. -/
def fsExists (fs : FS) (p : Path) : Bool :=
  (fsLookup fs p).isSome

/-- Remove every binding of exactly the path `p` (`Path.unlink`). -/
def fsErase (fs : FS) (p : Path) : FS :=
  fs.filter (fun pr => pr.1 ≠ p)

/-- Bind path `p` to entry `e`, replacing any previous binding. -/
def fsInsert (fs : FS) (p : Path) (e : Entry) : FS :=
  (p, e) :: fsErase fs p

/-- Remove the subtree rooted at `p`: the path itself and every path it
is a prefix of (`shutil.rmtree`). -/
def fsRemoveTree (fs : FS) (p : Path) : FS :=
  fs.filter (fun pr => !(p.isPrefixOf pr.1))

@[simp] theorem fsLookup_nil (p : Path) : fsLookup [] p = none := rfl

theorem fsLookup_cons (q : Path) (e : Entry) (rest : FS) (p : Path) :
    fsLookup ((q, e) :: rest) p = if q = p then some e else fsLookup rest p := rfl

@[simp] theorem fsLookup_erase (fs : FS) (p q : Path) :
    fsLookup (fsErase fs p) q = if p = q then none else fsLookup fs q := by
  induction fs with
  | nil => simp [fsErase, fsLookup]
  | cons pr rest ih =>
    obtain ⟨r, e⟩ := pr
    simp only [fsErase, List.filter_cons, ne_eq, decide_not] at ih ⊢
    by_cases hrp : r = p <;> by_cases hrq : r = q <;> by_cases hpq : p = q <;>
      simp_all [fsLookup]

@[simp] theorem fsLookup_insert (fs : FS) (p : Path) (e : Entry) (q : Path) :
    fsLookup (fsInsert fs p e) q = if p = q then some e else fsLookup fs q := by
  by_cases h : p = q <;> simp [fsInsert, fsLookup, h]

@[simp] theorem fsLookup_removeTree (fs : FS) (p q : Path) :
    fsLookup (fsRemoveTree fs p) q =
      if p.isPrefixOf q then none else fsLookup fs q := by
  induction fs with
  | nil => simp [fsRemoveTree]
  | cons pr rest ih =>
    obtain ⟨r, e⟩ := pr
    simp only [fsRemoveTree, List.filter] at ih ⊢
    by_cases hpr : p.isPrefixOf r
    · by_cases hrq : r = q
      · subst hrq; simp [hpr, fsLookup, ih]
      · simp [hpr, fsLookup, hrq, ih]
    · by_cases hrq : r = q
      · subst hrq; simp [hpr, fsLookup, ih]
      · simp [hpr, fsLookup, hrq, ih]

theorem fsExists_iff_mem (fs : FS) (p : Path) :
    fsExists fs p = true ↔ p ∈ fs.map Prod.fst := by
  induction fs with
  | nil => simp [fsExists, fsLookup]
  | cons pr rest ih =>
    obtain ⟨q, e⟩ := pr
    by_cases h : q = p
    · subst h; simp [fsExists, fsLookup]
    · simp only [fsExists, fsLookup, h, if_false, List.map_cons, List.mem_cons]
      rw [fsExists] at ih
      rw [ih]
      constructor
      · exact Or.inr
      · rintro (hqp | hm)
        · exact absurd hqp.symm h
        · exact hm

/-! ## Decimal rendering of a natural number

`suggest_rename` builds the candidate name with the f-string
`f"{stem} ({n}){suffix}"`.  The decimal rendering of `n` is embedded as
an executable base-10 digit spine (`natStr`), with a decode function
(`digitsVal`) used only to prove that the rendering is injective. -/

/-- Base-10 digit list of `n`, most significant first.  The first
argument is structural recursion fuel; `natStr` supplies enough. -/
def natDigitsAux : Nat → Nat → List Char
  | 0, _ => []
  | fuel + 1, n =>
    if n < 10 then [Nat.digitChar n]
    else natDigitsAux fuel (n / 10) ++ [Nat.digitChar (n % 10)]

/-- Decimal rendering of `n`, as produced by `str(n)` / `f"{n}"`. -/
def natStr (n : Nat) : String := ⟨natDigitsAux (n + 1) n⟩

/-- Decode a digit list back to the number (proof tool only). -/
def digitsVal (l : List Char) : Nat :=
  l.foldl (fun a c => 10 * a + (c.toNat - 48)) 0

theorem digitChar_toNat {d : Nat} (h : d < 10) :
    (Nat.digitChar d).toNat = 48 + d := by
  interval_cases d <;> decide

theorem digitsVal_append_singleton (l : List Char) (c : Char) :
    digitsVal (l ++ [c]) = 10 * digitsVal l + (c.toNat - 48) := by
  simp [digitsVal, List.foldl_append]

theorem digitsVal_natDigitsAux :
    ∀ (fuel n : Nat), n < fuel → digitsVal (natDigitsAux fuel n) = n := by
  intro fuel
  induction fuel with
  | zero => intro n h; omega
  | succ fuel ih =>
    intro n h
    by_cases h10 : n < 10
    · simp [natDigitsAux, h10, digitsVal, digitChar_toNat h10]
    · have hdiv : n / 10 < fuel := by
        have h1 : n / 10 < n := Nat.div_lt_self (by omega) (by omega)
        omega
      have hmod : n % 10 < 10 := Nat.mod_lt _ (by omega)
      simp only [natDigitsAux, h10, if_false]
      rw [digitsVal_append_singleton, ih _ hdiv, digitChar_toNat hmod]
      omega

theorem digitsVal_natStr (n : Nat) : digitsVal (natStr n).data = n :=
  digitsVal_natDigitsAux (n + 1) n (Nat.lt_succ_self n)

theorem natStr_injective : Function.Injective natStr := by
  intro a b h
  have : digitsVal (natStr a).data = digitsVal (natStr b).data := by rw [h]
  rwa [digitsVal_natStr, digitsVal_natStr] at this

/-! ## Stem/suffix split and rename suggestion

Embedding of the module-level helper `suggest_rename(dest_path)`
(file_transfer.py lines 20-29) together with the `pathlib` accessors it
uses: `dest_path.parent` is `Path.dropLast`, `dest_path.stem` /
`dest_path.suffix` split the final name component at its last dot
(`splitStemSuffix`), and the unbounded `while` search over `n = 2, 3, …`
is run with fuel `fs.length + 1`, which the pigeonhole argument below
proves sufficient. -/

/-- Final name component of a path (`Path.name` in pathlib). -/
def pathName (p : Path) : String := p.getLastD ""

/-- Split a file name into `(stem, suffix)` with `pathlib` semantics:
the suffix starts at the last dot, provided that dot is neither the
first nor the last character; otherwise the suffix is empty. -/
def splitStemSuffix (name : String) : String × String :=
  let cs := name.data
  match cs.reverse.findIdx? (fun c => c = '.') with
  | none => (name, "")
  | some j =>
    let i := cs.length - 1 - j
    if 0 < i ∧ i < cs.length - 1 then (⟨cs.take i⟩, ⟨cs.drop i⟩)
    else (name, "")

/-- The `n`-th rename candidate `parent / f"{stem} ({n}){suffix}"`. -/
def renameCandidate (parent : Path) (stem sfx : String) (n : Nat) : Path :=
  parent ++ [stem ++ " (" ++ natStr n ++ ")" ++ sfx]

/-- The `while` loop of `suggest_rename`: try candidates from index `n`
upwards, returning the first whose path does not exist. -/
def suggest_rename_from (fs : FS) (parent : Path) (stem sfx : String) :
    Nat → Nat → Path
  | 0, n => renameCandidate parent stem sfx n
  | fuel + 1, n =>
    let candidate := renameCandidate parent stem sfx n
    if fsExists fs candidate then suggest_rename_from fs parent stem sfx fuel (n + 1)
    else candidate

/-- `suggest_rename(dest_path)`: first candidate `stem (n)suffix`,
`n = 2, 3, …`, that does not exist in `fs`. -/
def suggest_rename (fs : FS) (dest_path : Path) : Path :=
  let st := splitStemSuffix (pathName dest_path)
  suggest_rename_from fs dest_path.dropLast st.1 st.2 (fs.length + 1) 2

theorem splitStemSuffix_append (name : String) :
    (splitStemSuffix name).1 ++ (splitStemSuffix name).2 = name := by
  rw [splitStemSuffix]
  cases h : name.data.reverse.findIdx? (fun c => c = '.') with
  | none => simp
  | some j =>
    simp only []
    split
    · apply String.ext
      simp [List.take_append_drop]
    · simp

theorem splitStemSuffix_isSuffix (name : String) :
    (splitStemSuffix name).2.data <:+ name.data := by
  conv_rhs => rw [← splitStemSuffix_append name]
  rw [String.data_append]
  exact List.suffix_append _ _

theorem renameCandidate_inj (parent : Path) (stem sfx : String) {a b : Nat}
    (h : renameCandidate parent stem sfx a = renameCandidate parent stem sfx b) :
    a = b := by
  have h2 := List.append_cancel_left h
  have h1 : stem ++ " (" ++ natStr a ++ ")" ++ sfx
      = stem ++ " (" ++ natStr b ++ ")" ++ sfx := by
    simpa using h2
  have hd := congrArg String.data h1
  simp only [String.data_append, List.append_assoc] at hd
  have h3 := List.append_cancel_left (List.append_cancel_left hd)
  rw [← List.append_assoc, ← List.append_assoc] at h3
  have h4 := List.append_cancel_right h3
  exact natStr_injective (String.ext (List.append_cancel_right h4))

theorem renameCandidate_free_exists (fs : FS) (parent : Path) (stem sfx : String) :
    ∃ k, 2 ≤ k ∧ k < fs.length + 3 ∧
      fsExists fs (renameCandidate parent stem sfx k) = false := by
  by_contra hall
  push_neg at hall
  have hmem : ∀ k ∈ Finset.Ico 2 (fs.length + 3),
      renameCandidate parent stem sfx k ∈ (fs.map Prod.fst).toFinset := by
    intro k hk
    rw [Finset.mem_Ico] at hk
    have hne := hall k hk.1 hk.2
    rw [List.mem_toFinset]
    refine (fsExists_iff_mem fs _).mp ?_
    revert hne
    cases fsExists fs (renameCandidate parent stem sfx k) <;> simp
  have hinj : Set.InjOn (renameCandidate parent stem sfx)
      (Finset.Ico 2 (fs.length + 3)) := by
    intro a _ b _ hab
    exact renameCandidate_inj parent stem sfx hab
  have hcard := Finset.card_le_card_of_injOn _ hmem hinj
  rw [Nat.card_Ico] at hcard
  have hcard2 : (fs.map Prod.fst).toFinset.card ≤ fs.length := by
    refine le_trans (List.toFinset_card_le _) ?_
    simp
  omega

theorem suggest_rename_from_spec (fs : FS) (parent : Path) (stem sfx : String) :
    ∀ (fuel n : Nat),
      (∃ k, n ≤ k ∧ k < n + fuel ∧
        fsExists fs (renameCandidate parent stem sfx k) = false) →
      ∃ m, n ≤ m ∧
        suggest_rename_from fs parent stem sfx fuel n
          = renameCandidate parent stem sfx m ∧
        fsExists fs (renameCandidate parent stem sfx m) = false ∧
        ∀ k, n ≤ k → k < m →
          fsExists fs (renameCandidate parent stem sfx k) = true := by
  intro fuel
  induction fuel with
  | zero =>
    rintro n ⟨k, h1, h2, _⟩
    omega
  | succ fuel ih =>
    intro n hex
    by_cases hc : fsExists fs (renameCandidate parent stem sfx n) = true
    · have hex' : ∃ k, n + 1 ≤ k ∧ k < (n + 1) + fuel ∧
          fsExists fs (renameCandidate parent stem sfx k) = false := by
        obtain ⟨k, hk1, hk2, hk3⟩ := hex
        have hkn : k ≠ n := by
          intro he; rw [he, hc] at hk3; simp at hk3
        exact ⟨k, by omega, by omega, hk3⟩
      obtain ⟨m, hm1, hm2, hm3, hm4⟩ := ih (n + 1) hex'
      refine ⟨m, by omega, ?_, hm3, ?_⟩
      · rw [suggest_rename_from]
        simp only [hc, if_true]
        exact hm2
      · intro k hk1 hk2
        rcases Nat.eq_or_lt_of_le hk1 with he | hl
        · rw [← he]; exact hc
        · exact hm4 k hl hk2
    · have hcf : fsExists fs (renameCandidate parent stem sfx n) = false := by
        revert hc; cases fsExists fs (renameCandidate parent stem sfx n) <;> simp
      refine ⟨n, Nat.le_refl n, ?_, hcf, fun k hk1 hk2 => absurd (Nat.lt_of_le_of_lt hk1 hk2) (Nat.lt_irrefl n)⟩
      rw [suggest_rename_from]
      simp [hcf]

theorem suggest_rename_spec (fs : FS) (p : Path) :
    ∃ m, 2 ≤ m ∧
      suggest_rename fs p = renameCandidate p.dropLast
        (splitStemSuffix (pathName p)).1 (splitStemSuffix (pathName p)).2 m ∧
      fsExists fs (suggest_rename fs p) = false ∧
      ∀ k, 2 ≤ k → k < m →
        fsExists fs (renameCandidate p.dropLast
          (splitStemSuffix (pathName p)).1 (splitStemSuffix (pathName p)).2 k) = true := by
  obtain ⟨k, hk1, hk2, hk3⟩ := renameCandidate_free_exists fs p.dropLast
    (splitStemSuffix (pathName p)).1 (splitStemSuffix (pathName p)).2
  obtain ⟨m, hm1, hm2, hm3, hm4⟩ := suggest_rename_from_spec fs p.dropLast
    (splitStemSuffix (pathName p)).1 (splitStemSuffix (pathName p)).2
    (fs.length + 1) 2 ⟨k, hk1, by omega, hk3⟩
  have heq : suggest_rename fs p = renameCandidate p.dropLast
      (splitStemSuffix (pathName p)).1 (splitStemSuffix (pathName p)).2 m := by
    rw [suggest_rename]
    exact hm2
  exact ⟨m, hm1, heq, by rw [heq]; exact hm3, hm4⟩

theorem suggest_rename_not_exists (fs : FS) (p : Path) :
    fsExists fs (suggest_rename fs p) = false := by
  obtain ⟨m, _, _, h3, _⟩ := suggest_rename_spec fs p
  exact h3


/-! ## Task data model

`FileTransferTask` state, events and environment.  The read-only source
side handed to the task is an inductive tree whose directories are
represented by the spine of their `iterdir()` listing (`dnil`/`dcons`),
so that the recursive walk of `_copy_dir_with_conflicts` is structural.
External interactions (cancel requests, I/O failures, the monotonic
clock) are schedules indexed by a `tick` counter. -/

/-- A source tree: a regular file with its chunked bytes, or a
directory given as the spine of its entry listing.  `dnil` is an empty
directory listing and `dcons name child rest` lists the entry `name`
(bound to `child`) followed by the remaining entries `rest`. -/
inductive SrcTree : Type where
  | file (c : Content)
  | dnil
  | dcons (name : String) (child : SrcTree) (rest : SrcTree)
deriving DecidableEq, Repr

/-- `p.is_dir()` for a source tree node. -/
def SrcTree.isDirNode : SrcTree → Bool
  | .file _ => false
  | _ => true

/-- Total file bytes below a node: what `_compute_total` accumulates by
walking directories and `stat`-ing files (stat calls succeed here; a
failing stat merely drops that file's contribution in the source). -/
def treeSize : SrcTree → Nat
  | .file c => (c.map List.length).sum
  | .dnil => 0
  | .dcons _ child rest => treeSize child + treeSize rest

/-- The decision dataclass `ConflictDecision(action, apply_all,
new_path)`; `action` is one of the strings "overwrite", "rename",
"skip", "cancel" (anything else falls through the dispatch). -/
structure ConflictDecision where
  action : String
  apply_all : Bool := false
  new_path : Option Path := none
deriving DecidableEq, Repr

/-- Trace events: the Qt signals of the task plus one instrumentation
event recording each invocation of the conflict callback. -/
inductive Ev : Type where
  | progress (done total : Nat)
  | fileProg (path : Path)
  | finished (success : Bool) (error : String)
  | conflictQuery (dest src : Path)
deriving DecidableEq, Repr

/-- Exceptions: the `RuntimeError('Cancelled')` sentinel, and any
OSError/network error raised by chunk I/O, rename or mkdir.  The str()
of an I/O error is a strerror text, never the word "Cancelled"; it is
modelled by the one message "I/O error". -/
inductive Err : Type where
  | cancelled
  | ioError
deriving DecidableEq, Repr

/-- `str(e)` of a caught exception, as compared/emitted by `_run`. -/
def errMsg : Err → String
  | .cancelled => "Cancelled"
  | .ioError => "I/O error"

/-- The task's environment: the optional conflict callback of the
request, and schedules (indexed by the interaction counter `tick`)
telling whether an external `cancel()` has been requested by the time
of a given flag read, whether a given chunk write / rename raises, and
what the monotonic clock returns (in milliseconds).  `move` and
`srcDelOk` configure move semantics and whether the post-move source
deletion succeeds. -/
structure Env where
  callback : Option (Path → Path → Option ConflictDecision)
  cancelReq : Nat → Bool
  ioFail : Nat → Bool
  clock : Nat → Nat
  move : Bool
  srcDelOk : Bool

/-- Mutable task state: the destination-side filesystem, the flags and
counters of `FileTransferTask.__init__`, the interaction counter, the
emitted event trace, and the set of top-level source paths removed by
move semantics (the source tree itself is read-only input). -/
structure St where
  fs : FS
  apply_all_overwrite : Bool
  cancelFlag : Bool
  done : Nat
  total : Nat
  last_emit : Nat
  tick : Nat
  events : List Ev
  removedSrcs : List Path

/-- Fresh task state over an initial destination filesystem
(`FileTransferTask.__init__`: `_total = 0`, `_done = 0`,
`_apply_all_overwrite = False`, `_last_emit_monotonic = 0.0`). -/
def initSt (fs : FS) : St :=
  { fs := fs, apply_all_overwrite := false, cancelFlag := false,
    done := 0, total := 0, last_emit := 0, tick := 0, events := [],
    removedSrcs := [] }

/-- `self._emit_interval = 0.2` seconds, in clock milliseconds. -/
def emitInterval : Nat := 200

/-- A read of `self._cancel.is_set()` at a point where the code raises
`RuntimeError('Cancelled')` when it is set.  The external request
schedule is folded into the flag at each read. -/
def cancelCheck (env : Env) (s : St) : Except Err Unit × St :=
  let flag := s.cancelFlag || env.cancelReq s.tick
  let s := { s with cancelFlag := flag, tick := s.tick + 1 }
  if flag then (.error .cancelled, s) else (.ok (), s)

/-- Explicit form of `cancelCheck`. -/
theorem cancelCheck_eq (env : Env) (s : St) :
    cancelCheck env s =
      ((if s.cancelFlag || env.cancelReq s.tick then Except.error Err.cancelled
        else Except.ok ()),
       { s with cancelFlag := s.cancelFlag || env.cancelReq s.tick,
                tick := s.tick + 1 }) := by
  rw [cancelCheck]
  split <;> simp_all

/-- The state after one cancel-flag read: flag folded with the external
request schedule, tick bumped. -/
def cancelBump (env : Env) (s : St) : St :=
  { s with cancelFlag := s.cancelFlag || env.cancelReq s.tick,
           tick := s.tick + 1 }

/-- `dest.with_suffix(dest.suffix + '.part')`: since the new suffix is
the old one with `".part"` appended, this is the same path with
`".part"` appended to its final name component. -/
def tempPath (dest : Path) : Path :=
  dest.dropLast ++ [pathName dest ++ ".part"]

theorem tempPath_ne (dest : Path) : tempPath dest ≠ dest := by
  intro h
  cases hd : dest with
  | nil => rw [hd] at h; simp [tempPath] at h
  | cons a rest =>
    have hne : dest ≠ [] := by rw [hd]; simp
    have hsplit : dest.dropLast ++ [dest.getLast hne] = dest :=
      List.dropLast_append_getLast hne
    rw [tempPath] at h
    nth_rewrite 3 [← hsplit] at h
    have h2 := List.append_cancel_left h
    have h3 : pathName dest ++ ".part" = dest.getLast hne := by simpa using h2
    have h4 : pathName dest = dest.getLast hne := by
      rw [pathName, List.getLastD_eq_getLast? ]
      rw [List.getLast?_eq_getLast dest hne]
      simp
    rw [← h4] at h3
    have h5 := congrArg (fun str => str.data.length) h3
    simp [String.data_append] at h5

/-! ### Control-flow combinators

Python's statement sequencing inside `try` blocks and its conflict
dispatch become explicit combinators, so that every task function below
is a composition of named pieces. -/

/-- Sequencing of two steps: an exception short-circuits, otherwise the
continuation runs on the updated state. -/
def andThen (x : Except Err Unit × St) (k : St → Except Err Unit × St) :
    Except Err Unit × St :=
  match x with
  | (.error e, s) => (.error e, s)
  | (.ok _, s) => k s

/-- `try: ... except Exception: cleanup; raise`: on an exception the
cleanup runs on the state before the error propagates. -/
def tryCleanup (x : Except Err Unit × St) (cleanup : St → St)
    (k : St → Except Err Unit × St) : Except Err Unit × St :=
  match x with
  | (.error e, s) => (.error e, cleanup s)
  | (.ok _, s) => k s

/-- Dispatch on the result of conflict resolution: `none` (skip or
cancel) runs `knone`, `some d` proceeds at path `d`. -/
def resolveCase (x : Option Path × St) (knone : St → Except Err Unit × St)
    (ksome : Path → St → Except Err Unit × St) : Except Err Unit × St :=
  match x with
  | (none, s) => knone s
  | (some d, s) => ksome d s

/-- `FileTransferTask._handle_conflict(src, dest)` (lines 128-154).
Returns the path to proceed at (`some`) or `None` (skip / cancel),
together with the updated task state; invoking the callback is recorded
as a `conflictQuery` trace event. -/
def handle_conflict (env : Env) (src dest : Path) (s : St) :
    Option Path × St :=
  if fsExists s.fs dest = false then (some dest, s)
  else if s.apply_all_overwrite then (some dest, s)
  else
    let qr : Option ConflictDecision × St :=
      match env.callback with
      | some cb => (cb dest src,
          { s with events := s.events ++ [Ev.conflictQuery dest src] })
      | none => (none, s)
    let decision := qr.1.getD { action := "rename" }
    let s := qr.2
    if decision.action = "overwrite" then
      (some dest,
        if decision.apply_all then { s with apply_all_overwrite := true } else s)
    else if decision.action = "rename" then
      (some (decision.new_path.getD (suggest_rename s.fs dest)), s)
    else if decision.action = "skip" then (none, s)
    else if decision.action = "cancel" then
      (none, { s with cancelFlag := true })
    else (some dest, s)

/-- The state effect of writing one chunk (lines 198-206): write to the
temp file, bump `_done`, emit `progress_changed(done, total)`, read the
clock, and emit a throttled `file_progress`. -/
def chunkStep (env : Env) (dest temp : Path) (written : List (List Nat))
    (c : List Nat) (s : St) : St :=
  let s := { s with
      tick := s.tick + 1
      fs := fsInsert s.fs temp (.file (written ++ [c]))
      done := s.done + c.length }
  let s := { s with events := s.events ++ [Ev.progress s.done s.total] }
  let now := env.clock s.tick
  let s := { s with tick := s.tick + 1 }
  if emitInterval ≤ now - s.last_emit then
    { s with last_emit := now, events := s.events ++ [Ev.fileProg dest] }
  else s

/-- Explicit form of `chunkStep` for the chunk `c`. -/
theorem chunkStep_eq (env : Env) (dest temp : Path)
    (written : List (List Nat)) (c : List Nat) (s : St) :
    chunkStep env dest temp written c s =
      if emitInterval ≤ env.clock (s.tick + 1) - s.last_emit then
        { s with
            tick := s.tick + 2
            fs := fsInsert s.fs temp (.file (written ++ [c]))
            done := s.done + c.length
            last_emit := env.clock (s.tick + 1)
            events := s.events ++
              [Ev.progress (s.done + c.length) s.total, Ev.fileProg dest] }
      else
        { s with
            tick := s.tick + 2
            fs := fsInsert s.fs temp (.file (written ++ [c]))
            done := s.done + c.length
            events := s.events ++ [Ev.progress (s.done + c.length) s.total] } := by
  by_cases h : emitInterval ≤ env.clock (s.tick + 1) - s.last_emit
  · simp [chunkStep, h]
  · simp [chunkStep, h]

/-- The `while True` chunk loop of `_copy_file` (lines 192-206):
check the cancel flag, read a chunk (loop ends at EOF), write and
account it via `chunkStep`.  `written` accumulates the chunks already
in the temp file. -/
def writeChunks (env : Env) (dest temp : Path) :
    List (List Nat) → List (List Nat) → St → Except Err Unit × St
  | _, [], s => andThen (cancelCheck env s) (fun s => (.ok (), s))
  | written, c :: rest, s =>
    andThen (cancelCheck env s) (fun s =>
      if env.ioFail s.tick then (.error .ioError, { s with tick := s.tick + 1 })
      else writeChunks env dest temp (written ++ [c]) rest
        (chunkStep env dest temp written c s))

/-- The body of `_copy_file` after conflict resolution (lines 189-220):
open the temp file, stream the chunks, copy metadata (not modelled),
atomically rename the temp file onto `dest`, emit the final
`file_progress`; on any exception delete the temp file and re-raise. -/
def copy_file_stream (env : Env) (content : Content) (dest : Path) (s : St) :
    Except Err Unit × St :=
  let temp := tempPath dest
  if fsLookup s.fs temp = some .dir then
    -- open(temp, 'wb') raises IsADirectoryError; the cleanup unlink of a
    -- directory raises OSError which is swallowed, so the state is unchanged
    (.error .ioError, s)
  else
    let s := { s with fs := fsInsert s.fs temp (.file []) }
    tryCleanup (writeChunks env dest temp [] content s)
      (fun s => { s with fs := fsErase s.fs temp })
      (fun s =>
        if env.ioFail s.tick then
          (.error .ioError, { s with tick := s.tick + 1, fs := fsErase s.fs temp })
        else
          let s := { s with tick := s.tick + 1 }
          if fsLookup s.fs dest = some .dir then
            -- temp.rename(dest) onto an existing directory raises
            (.error .ioError, { s with fs := fsErase s.fs temp })
          else
            let s := { s with fs := fsInsert (fsErase s.fs temp) dest (.file content) }
            (.ok (), { s with events := s.events ++ [Ev.fileProg dest] }))

/-- `FileTransferTask._copy_file(src, dest)` (lines 182-220): per-file
conflict check, then the streaming copy. -/
def copy_file (env : Env) (srcPath : Path) (content : Content) (dest : Path)
    (s : St) : Except Err Unit × St :=
  if fsExists s.fs dest && !s.apply_all_overwrite then
    resolveCase (handle_conflict env srcPath dest s)
      (fun s => (.ok (), s))
      (fun newDest s => copy_file_stream env content newDest s)
  else copy_file_stream env content dest s

/-- `dest.mkdir(parents=True, exist_ok=True)` (line 168), which raises
on an existing regular file, then the walk of the entries. -/
def mkdirThen (d : Path) (walk : Path → St → Except Err Unit × St) (s : St) :
    Except Err Unit × St :=
  match fsLookup s.fs d with
  | some (.file _) => (.error .ioError, s)
  | some .dir => walk d s
  | none => walk d { s with fs := fsInsert s.fs d .dir }

/-- The head of `_copy_dir_with_conflicts` (lines 162-168): resolve the
directory's own conflict unless it is the root call, then mkdir and
walk the entries via the continuation `walk`. -/
def dir_step (env : Env) (srcPath dest : Path) (isRoot : Bool)
    (walk : Path → St → Except Err Unit × St) (s : St) :
    Except Err Unit × St :=
  resolveCase
    (if isRoot then (some dest, s)
     else if fsExists s.fs dest then handle_conflict env srcPath dest s
     else (some dest, s))
    (fun s => (.ok (), s))
    (fun d s => mkdirThen d walk s)

/-- The per-entry dispatch of the loop body (lines 176-180): `if
entry.is_dir()` recurse with `is_root=False` (the walk of the child's
own entries is the continuation `walkChild`), else copy the file. -/
def copy_entry_child (env : Env) (entrySrc entryDest : Path) (child : SrcTree)
    (walkChild : Path → St → Except Err Unit × St) (s : St) :
    Except Err Unit × St :=
  match child with
  | .file c => copy_file env entrySrc c entryDest s
  | _ => dir_step env entrySrc entryDest false walkChild s

/-- The entry loop of `_copy_dir_with_conflicts` (lines 169-180) over a
directory spine: per entry, check cancellation, then recurse
(directories re-enter conflict handling with `is_root=False`) or copy
the file. -/
def copy_entries (env : Env) (srcPath : Path) (d : SrcTree) (dest : Path)
    (s : St) : Except Err Unit × St :=
  match d with
  | .file _ => (.ok (), s)
  | .dnil => (.ok (), s)
  | .dcons name child rest =>
    andThen (cancelCheck env s) (fun s =>
      andThen
        (copy_entry_child env (srcPath ++ [name]) (dest ++ [name]) child
          (fun dd ss => copy_entries env (srcPath ++ [name]) child dd ss) s)
        (fun s => copy_entries env srcPath rest dest s))

/-- `FileTransferTask._copy_dir_with_conflicts(src, dest, is_root)`
(lines 156-180) for a directory whose listing spine is `d`. -/
def copy_dir_with_conflicts (env : Env) (srcPath : Path) (d : SrcTree)
    (dest : Path) (isRoot : Bool) (s : St) : Except Err Unit × St :=
  dir_step env srcPath dest isRoot
    (fun dd ss => copy_entries env srcPath d dd ss) s

/-! ## Top-level transfer run -/

/-- One requested top-level source: its absolute path and, when the
path exists at enumeration time, its tree. -/
structure Source where
  path : Path
  tree : Option SrcTree

/-- `FileTransferTask._enumerate` (lines 67-73): keep the sources that
exist, paired with their tree; the destination of a source is the
destination directory (the root `[]` here) joined with its final name
component, computed in `runPairs` below. -/
def enumerate (sources : List Source) : List (Path × SrcTree) :=
  sources.filterMap (fun so => so.tree.map (fun t => (so.path, t)))

/-- `FileTransferTask._compute_total` (lines 75-91): sum of file sizes
over all enumerated sources, floored at 1. -/
def compute_total (pairs : List (Path × SrcTree)) : Nat :=
  max 1 (pairs.map (fun pr => treeSize pr.2)).sum

/-- The post-copy move step of `_run` (lines 112-120): if this is a
move and the source still exists, delete it, tolerating failure. -/
def moveCleanup (env : Env) (srcPath : Path) (s : St) : St :=
  if env.move && !(s.removedSrcs.contains srcPath) then
    if env.srcDelOk then { s with removedSrcs := s.removedSrcs ++ [srcPath] }
    else s  -- shutil.rmtree / unlink raised OSError: pass
  else s

/-- The `for src, dest, is_dir in pairs` loop of `_run` (lines
98-120): cancel check, top-level conflict resolution, recursive copy or
file copy, then move semantics. -/
def runPairs (env : Env) : List (Path × SrcTree) → St → Except Err Unit × St
  | [], s => (.ok (), s)
  | (srcPath, t) :: rest, s =>
    andThen (cancelCheck env s) (fun s =>
      resolveCase (handle_conflict env srcPath [pathName srcPath] s)
        (fun s =>
          -- final_dest is None: skip, but first re-read the cancel flag
          andThen (cancelCheck env s) (fun s => runPairs env rest s))
        (fun finalDest s =>
          andThen
            (match t with
             | .file c => copy_file env srcPath c finalDest s
             | t => copy_dir_with_conflicts env srcPath t finalDest true s)
            (fun s => runPairs env rest (moveCleanup env srcPath s))))

/-- `FileTransferTask._run` (lines 93-126): enumerate, compute the
total, emit the initial progress event, process the pairs, and emit
`finished` exactly once - `(True, '')` on success, `(False, str(e))` on
an exception, where an exception message "Cancelled" marks
cancellation. -/
def runInit (sources : List Source) (s : St) : St :=
  { s with
      total := compute_total (enumerate sources)
      events := s.events ++ [Ev.progress 0 (compute_total (enumerate sources))] }

def run (env : Env) (sources : List Source) (s : St) : St :=
  match runPairs env (enumerate sources) (runInit sources s) with
  | (.ok _, s) => { s with events := s.events ++ [Ev.finished true ""] }
  | (.error e, s) => { s with events := s.events ++ [Ev.finished false (errMsg e)] }

/-! ## Download task

`DownloadTask` (lines 223-379).  The network is part of the input: a
download source carries the optional `Content-Length` answered by the
HEAD request (`headLen`, `none` when the request fails or the header is
unusable), the body chunks answered by the streaming GET (`none` when
the GET raises), the filename derived by `_derive_filename` (regex and
URL parsing are not modelled; the derived name is an input), and the
random name chosen by `tempfile.NamedTemporaryFile`.  The task state
reuses `St` (with `last_emit` and `removedSrcs` unused) and starts with
`_total = 1`. -/

structure DlSource where
  headLen : Option Nat
  body : Option Content
  filename : String
  tempName : String

/-- Fresh download state (`DownloadTask.__init__`: `_total = 1`). -/
def initDlSt (fs : FS) : St :=
  { initSt fs with total := 1 }

/-- `DownloadTask._compute_total_estimate` (lines 248-259): sum the
usable `Content-Length` values, failures contributing nothing, floored
at 1. -/
def compute_total_estimate (srcs : List DlSource) : Nat :=
  max ((srcs.map (fun d => d.headLen.getD 0)).sum) 1

/-- `DownloadTask._request_conflict(existing, temp_source)` (lines
368-379): invoke the callback (recorded as a `conflictQuery` event),
default to rename, and fill in a missing rename target with
`suggest_rename(existing)`. -/
def request_conflict (env : Env) (existing tempSource : Path) (s : St) :
    ConflictDecision × St :=
  let qr : Option ConflictDecision × St :=
    match env.callback with
    | some cb => (cb existing tempSource,
        { s with events := s.events ++ [Ev.conflictQuery existing tempSource] })
    | none => (none, s)
  let decision := qr.1.getD { action := "rename" }
  let s := qr.2
  if decision.action = "rename" && decision.new_path = none then
    ({ action := "rename", new_path := some (suggest_rename s.fs existing) }, s)
  else (decision, s)

/-- `DownloadTask._overwrite_existing(dest)` (lines 359-366): rmtree a
directory, unlink a file, tolerate OSError. -/
def overwrite_existing (fs : FS) (dest : Path) : FS :=
  match fsLookup fs dest with
  | some .dir => fsRemoveTree fs dest
  | some (.file _) => fsErase fs dest
  | none => fs

/-- The tail of `_finalize_download` (lines 347-357):
`dest.parent.mkdir(parents=True, exist_ok=True)` (a no-op here:
filenames are single components under the destination root), then
`temp_path.replace(dest)` - which fails onto an existing directory -
with the temp file unlinked and the error re-raised on failure, and the
final `file_progress` emission. -/
def replace_step (env : Env) (tempP dest : Path) (s : St) :
    Except Err Unit × St :=
  if env.ioFail s.tick then
    (.error .ioError, { s with tick := s.tick + 1, fs := fsErase s.fs tempP })
  else
    let s := { s with tick := s.tick + 1 }
    if fsLookup s.fs dest = some .dir then
      (.error .ioError, { s with fs := fsErase s.fs tempP })
    else
      match fsLookup s.fs tempP with
      | some (.file c) =>
        (.ok (), { s with
            fs := fsInsert (fsErase s.fs tempP) dest (.file c)
            events := s.events ++ [Ev.fileProg dest] })
      | _ =>
        -- replace on a missing/mangled temp raises
        (.error .ioError, { s with fs := fsErase s.fs tempP })

/-- Dispatch on the decision returned by `_request_conflict` (lines
331-346): overwrite (optionally latching apply-all) deletes the
occupant and replaces, rename redirects the replace, skip and an
unrecognized action discard the temp file, cancel discards it, sets the
flag and raises. -/
def finalize_decision (env : Env) (tempP dest : Path)
    (decision : ConflictDecision) (s : St) : Except Err Unit × St :=
  if decision.action = "overwrite" then
    let s := if decision.apply_all then { s with apply_all_overwrite := true } else s
    replace_step env tempP dest { s with fs := overwrite_existing s.fs dest }
  else if decision.action = "rename" then
    replace_step env tempP (decision.new_path.getD (suggest_rename s.fs dest)) s
  else if decision.action = "skip" then
    (.ok (), { s with fs := fsErase s.fs tempP })
  else if decision.action = "cancel" then
    (.error .cancelled, { s with fs := fsErase s.fs tempP, cancelFlag := true })
  else
    (.ok (), { s with fs := fsErase s.fs tempP })

/-- `DownloadTask._finalize_download(temp_path, final_dest)` (lines
324-357): resolve the conflict once at finalize time (honouring
apply-all overwrite), delete whatever occupies an overwritten
destination, then atomically move the temp file into place. -/
def finalize_download (env : Env) (tempP finalDest : Path) (s : St) :
    Except Err Unit × St :=
  let dest := finalDest
  if fsExists s.fs dest then
    if s.apply_all_overwrite then
      replace_step env tempP dest { s with fs := overwrite_existing s.fs dest }
    else
      let rc := request_conflict env dest tempP s
      finalize_decision env tempP dest rc.1 rc.2
  else replace_step env tempP dest s

/-- The streaming loop of `_download_single` (lines 284-295): per
chunk, check cancellation, write, bump `_done`, raise `_total` to
`max(_total, _done)`, emit `progress_changed(done, max(total, 1))` and
an (unthrottled) `file_progress(final_dest)`. -/
def download_chunks (env : Env) (finalDest tempP : Path) :
    List (List Nat) → List (List Nat) → St → Except Err Unit × St
  | _, [], s => andThen (cancelCheck env s) (fun s => (.ok (), s))
  | written, c :: rest, s =>
    andThen (cancelCheck env s) (fun s =>
      if env.ioFail s.tick then (.error .ioError, { s with tick := s.tick + 1 })
      else
        let s := { s with
            tick := s.tick + 1
            fs := fsInsert s.fs tempP (.file (written ++ [c]))
            done := s.done + c.length }
        let s := { s with total := max s.total s.done }
        let s := { s with events := s.events ++
            [Ev.progress s.done (max s.total 1), Ev.fileProg finalDest] }
        download_chunks env finalDest tempP (written ++ [c]) rest s)

/-- `DownloadTask._download_single(index, url)` (lines 276-303): open
the GET (failure aborts the task), create the named temp file in the
destination directory, stream the chunks (deleting the temp file on
any exception), then finalize. -/
def download_single (env : Env) (src : DlSource) (s : St) :
    Except Err Unit × St :=
  match src.body with
  | none => (.error .ioError, s)
  | some content =>
    let finalDest : Path := [src.filename]
    let tempP : Path := [src.tempName]
    let s := { s with fs := fsInsert s.fs tempP (.file []) }
    tryCleanup (download_chunks env finalDest tempP [] content s)
      (fun s => { s with fs := fsErase s.fs tempP })
      (fun s => finalize_download env tempP finalDest s)

/-- The URL loop of `DownloadTask._run` (lines 265-268). -/
def runDlList (env : Env) : List DlSource → St → Except Err Unit × St
  | [], s => (.ok (), s)
  | d :: rest, s =>
    andThen (cancelCheck env s) (fun s =>
      andThen (download_single env d s) (fun s => runDlList env rest s))

/-- `DownloadTask._run` (lines 261-274): estimate the total, emit the
initial progress event, process the URLs, emit `finished` exactly
once. -/
def dlInit (srcs : List DlSource) (s : St) : St :=
  { s with
      total := compute_total_estimate srcs
      events := s.events ++ [Ev.progress 0 (compute_total_estimate srcs)] }

def runDownload (env : Env) (srcs : List DlSource) (s : St) : St :=
  match runDlList env srcs (dlInit srcs s) with
  | (.ok _, s) => { s with events := s.events ++ [Ev.finished true ""] }
  | (.error e, s) => { s with events := s.events ++ [Ev.finished false (errMsg e)] }


/-! ## Trace observables -/

/-- Number of `conflictQuery` events: how often the user callback was
invoked. -/
def queryCount (evs : List Ev) : Nat :=
  (evs.filter fun e => match e with | .conflictQuery _ _ => true | _ => false).length

/-- Number of `finished` emissions. -/
def finishedCount (evs : List Ev) : Nat :=
  (evs.filter fun e => match e with | .finished _ _ => true | _ => false).length

/-- Number of `progress_changed` emissions. -/
def progressCount (evs : List Ev) : Nat :=
  (evs.filter fun e => match e with | .progress _ _ => true | _ => false).length

/-- Number of `file_progress` emissions. -/
def fileProgCount (evs : List Ev) : Nat :=
  (evs.filter fun e => match e with | .fileProg _ => true | _ => false).length

/-- The `total` arguments of the `progress_changed` emissions, in
order. -/
def progressTotals (evs : List Ev) : List Nat :=
  evs.filterMap fun e => match e with | .progress _ t => some t | _ => none

/-- Do all `progress_changed` emissions carry one and the same
`total`? -/
def allTotalsEq (evs : List Ev) : Bool :=
  match progressTotals evs with
  | [] => true
  | t :: rest => rest.all (fun x => x = t)

@[simp] theorem queryCount_append (a b : List Ev) :
    queryCount (a ++ b) = queryCount a + queryCount b := by
  simp [queryCount, List.filter_append]

@[simp] theorem finishedCount_append (a b : List Ev) :
    finishedCount (a ++ b) = finishedCount a + finishedCount b := by
  simp [finishedCount, List.filter_append]

@[simp] theorem progressCount_append (a b : List Ev) :
    progressCount (a ++ b) = progressCount a + progressCount b := by
  simp [progressCount, List.filter_append]

@[simp] theorem fileProgCount_append (a b : List Ev) :
    fileProgCount (a ++ b) = fileProgCount a + fileProgCount b := by
  simp [fileProgCount, List.filter_append]

@[simp] theorem progressTotals_append (a b : List Ev) :
    progressTotals (a ++ b) = progressTotals a ++ progressTotals b := by
  simp [progressTotals]

/-! ## Frame property of transfer-task steps

Every internal step of a `FileTransferTask` only appends events, never
emits `finished`, never changes `_total`, and stamps every `progress`
emission with the current `_total`. -/

def frame (s s' : St) : Prop :=
  s'.total = s.total ∧
  ∃ Δ, s'.events = s.events ++ Δ ∧
    (∀ e ∈ Δ, ∀ b m, e ≠ Ev.finished b m) ∧
    (∀ dn t, Ev.progress dn t ∈ Δ → t = s.total)

theorem frame_rfl (s : St) : frame s s :=
  ⟨rfl, [], by simp, by simp, by simp⟩

theorem frame_of_eq {s s' : St} (he : s'.events = s.events)
    (ht : s'.total = s.total) : frame s s' :=
  ⟨ht, [], by simp [he], by simp, by simp⟩

theorem frame_trans {s₁ s₂ s₃ : St} (h₁ : frame s₁ s₂) (h₂ : frame s₂ s₃) :
    frame s₁ s₃ := by
  obtain ⟨ht₁, Δ₁, he₁, hf₁, hp₁⟩ := h₁
  obtain ⟨ht₂, Δ₂, he₂, hf₂, hp₂⟩ := h₂
  refine ⟨ht₂.trans ht₁, Δ₁ ++ Δ₂, ?_, ?_, ?_⟩
  · rw [he₂, he₁, List.append_assoc]
  · intro e he b m
    rcases List.mem_append.mp he with h | h
    · exact hf₁ e h b m
    · exact hf₂ e h b m
  · intro dn t hmem
    rcases List.mem_append.mp hmem with h | h
    · exact hp₁ dn t h
    · exact ht₁ ▸ hp₂ dn t h

theorem frame_mk {s s' : St} (Δ : List Ev) (ht : s'.total = s.total)
    (he : s'.events = s.events ++ Δ)
    (hnf : ∀ e ∈ Δ, ∀ b m, e ≠ Ev.finished b m)
    (hpr : ∀ dn t, Ev.progress dn t ∈ Δ → t = s.total) : frame s s' :=
  ⟨ht, Δ, he, hnf, hpr⟩

theorem andThen_frame {s : St} {x : Except Err Unit × St}
    {k : St → Except Err Unit × St} (hx : frame s x.2)
    (hk : ∀ ss, frame ss (k ss).2) : frame s (andThen x k).2 := by
  obtain ⟨r, s₂⟩ := x
  cases r with
  | error e => exact hx
  | ok _ => exact frame_trans hx (hk s₂)

theorem tryCleanup_frame {s : St} {x : Except Err Unit × St}
    {cleanup : St → St} {k : St → Except Err Unit × St} (hx : frame s x.2)
    (hclean : ∀ ss, frame ss (cleanup ss))
    (hk : ∀ ss, frame ss (k ss).2) : frame s (tryCleanup x cleanup k).2 := by
  obtain ⟨r, s₂⟩ := x
  cases r with
  | error e => exact frame_trans hx (hclean s₂)
  | ok _ => exact frame_trans hx (hk s₂)

theorem resolveCase_frame {s : St} {x : Option Path × St}
    {knone : St → Except Err Unit × St}
    {ksome : Path → St → Except Err Unit × St} (hx : frame s x.2)
    (hn : ∀ ss, frame ss (knone ss).2)
    (hs : ∀ d ss, frame ss (ksome d ss).2) :
    frame s (resolveCase x knone ksome).2 := by
  obtain ⟨r, s₂⟩ := x
  cases r with
  | none => exact frame_trans hx (hn s₂)
  | some d => exact frame_trans hx (hs d s₂)

theorem cancelCheck_frame (env : Env) (s : St) :
    frame s (cancelCheck env s).2 := by
  rw [cancelCheck]
  split <;> exact frame_of_eq rfl rfl

theorem handle_conflict_frame (env : Env) (src dest : Path) (s : St) :
    frame s (handle_conflict env src dest s).2 := by
  rw [handle_conflict]
  split
  · exact frame_rfl s
  split
  · exact frame_rfl s
  cases env.callback with
  | none =>
    simp only []
    split
    · exact frame_rfl s
    split
    · exact frame_rfl s
    split
    · exact frame_rfl s
    split
    · exact frame_of_eq rfl rfl
    · exact frame_rfl s
  | some cb =>
    simp only []
    have hq : frame s { s with events := s.events ++ [Ev.conflictQuery dest src] } := by
      refine frame_mk [Ev.conflictQuery dest src] rfl rfl ?_ ?_
      · intro e he b m
        simp at he; subst he; intro hcon; cases hcon
      · intro dn t hmem
        simp at hmem
    split
    · split
      · exact hq
      · exact hq
    split
    · exact hq
    split
    · exact hq
    split
    · exact frame_trans hq (frame_of_eq rfl rfl)
    · exact hq

theorem writeChunks_frame (env : Env) (dest temp : Path) :
    ∀ (chunks written : List (List Nat)) (s : St),
      frame s (writeChunks env dest temp written chunks s).2 := by
  intro chunks
  induction chunks with
  | nil =>
    intro written s
    exact andThen_frame (cancelCheck_frame env s) (fun ss => frame_rfl ss)
  | cons c rest ih =>
    intro written s
    refine andThen_frame (cancelCheck_frame env s) (fun ss => ?_)
    by_cases hio : env.ioFail ss.tick = true
    · rw [if_pos hio]
      exact frame_of_eq rfl rfl
    · rw [if_neg hio]
      refine frame_trans ?_ (ih (written ++ [c]) _)
      rw [chunkStep_eq]
      by_cases h3 : emitInterval ≤ env.clock (ss.tick + 1) - ss.last_emit
      · rw [if_pos h3]
        refine frame_mk [Ev.progress (ss.done + c.length) ss.total,
          Ev.fileProg dest] rfl (by simp) ?_ ?_
        · intro e he b m
          rcases List.mem_cons.mp he with h | h
          · subst h; intro hcon; cases hcon
          · simp at h; subst h; intro hcon; cases hcon
        · intro dn t hmem
          simp at hmem
          omega
      · rw [if_neg h3]
        refine frame_mk [Ev.progress (ss.done + c.length) ss.total] rfl (by simp) ?_ ?_
        · intro e he b m
          simp at he; subst he; intro hcon; cases hcon
        · intro dn t hmem
          simp at hmem
          omega

theorem copy_file_stream_frame (env : Env) (content : Content) (dest : Path)
    (s : St) : frame s (copy_file_stream env content dest s).2 := by
  rw [copy_file_stream]
  by_cases h1 : fsLookup s.fs (tempPath dest) = some .dir
  · rw [if_pos h1]
    exact frame_rfl s
  · rw [if_neg h1]
    refine frame_trans (frame_of_eq rfl rfl)
      (tryCleanup_frame (writeChunks_frame env dest (tempPath dest) content [] _)
        (fun ss => frame_of_eq rfl rfl) (fun ss => ?_))
    by_cases hio : env.ioFail ss.tick = true
    · rw [if_pos hio]
      exact frame_of_eq rfl rfl
    · rw [if_neg hio]
      by_cases hd : fsLookup ss.fs dest = some .dir
      · rw [if_pos hd]
        exact frame_of_eq rfl rfl
      · rw [if_neg hd]
        refine frame_mk [Ev.fileProg dest] rfl (by simp) ?_ ?_
        · intro e he b m
          simp at he; subst he; intro hcon; cases hcon
        · intro dn t hmem
          simp at hmem

theorem copy_file_frame (env : Env) (srcPath : Path) (content : Content)
    (dest : Path) (s : St) :
    frame s (copy_file env srcPath content dest s).2 := by
  rw [copy_file]
  by_cases hc : (fsExists s.fs dest && !s.apply_all_overwrite) = true
  · rw [if_pos hc]
    exact resolveCase_frame (handle_conflict_frame env srcPath dest s)
      (fun ss => frame_rfl ss)
      (fun d ss => copy_file_stream_frame env content d ss)
  · rw [if_neg hc]
    exact copy_file_stream_frame env content dest s

theorem mkdirThen_frame {walk : Path → St → Except Err Unit × St}
    (hwalk : ∀ d ss, frame ss (walk d ss).2) (d : Path) (s : St) :
    frame s (mkdirThen d walk s).2 := by
  rw [mkdirThen]
  rcases hl : fsLookup s.fs d with _ | e
  · exact frame_trans (frame_of_eq rfl rfl) (hwalk d _)
  · cases e with
    | file c => exact frame_rfl s
    | dir => exact hwalk d s

theorem dir_step_frame (env : Env) (srcPath dest : Path) (isRoot : Bool)
    (walk : Path → St → Except Err Unit × St)
    (hwalk : ∀ d ss, frame ss (walk d ss).2) (s : St) :
    frame s (dir_step env srcPath dest isRoot walk s).2 := by
  rw [dir_step]
  refine resolveCase_frame ?_ (fun ss => frame_rfl ss)
    (fun d ss => mkdirThen_frame hwalk d ss)
  by_cases hroot : isRoot = true
  · rw [if_pos hroot]
    exact frame_rfl s
  · rw [if_neg hroot]
    by_cases hex : fsExists s.fs dest = true
    · rw [if_pos hex]
      exact handle_conflict_frame env srcPath dest s
    · rw [if_neg hex]
      exact frame_rfl s

theorem copy_entries_frame (env : Env) :
    ∀ (d : SrcTree) (srcPath dest : Path) (s : St),
      frame s (copy_entries env srcPath d dest s).2 := by
  intro d
  induction d with
  | file c => intro srcPath dest s; exact frame_rfl s
  | dnil => intro srcPath dest s; exact frame_rfl s
  | dcons name child rest ihc ihr =>
    intro srcPath dest s
    rw [copy_entries]
    refine andThen_frame (cancelCheck_frame env s) (fun s₁ => ?_)
    refine andThen_frame ?_ (fun s₂ => ihr srcPath dest s₂)
    cases child with
    | file c =>
      simp only [copy_entry_child]
      exact copy_file_frame env (srcPath ++ [name]) c (dest ++ [name]) s₁
    | dnil =>
      simp only [copy_entry_child]
      exact dir_step_frame env (srcPath ++ [name]) (dest ++ [name]) false _
        (fun dd ss => ihc (srcPath ++ [name]) dd ss) s₁
    | dcons n2 c2 r2 =>
      simp only [copy_entry_child]
      exact dir_step_frame env (srcPath ++ [name]) (dest ++ [name]) false _
        (fun dd ss => ihc (srcPath ++ [name]) dd ss) s₁

theorem copy_dir_with_conflicts_frame (env : Env) (srcPath : Path) (d : SrcTree)
    (dest : Path) (isRoot : Bool) (s : St) :
    frame s (copy_dir_with_conflicts env srcPath d dest isRoot s).2 := by
  rw [copy_dir_with_conflicts]
  exact dir_step_frame env srcPath dest isRoot _
    (fun dd ss => copy_entries_frame env d srcPath dd ss) s

theorem moveCleanup_frame (env : Env) (srcPath : Path) (s : St) :
    frame s (moveCleanup env srcPath s) := by
  rw [moveCleanup]
  split
  · split
    · exact frame_of_eq rfl rfl
    · exact frame_rfl s
  · exact frame_rfl s

theorem runPairs_frame (env : Env) :
    ∀ (pairs : List (Path × SrcTree)) (s : St),
      frame s (runPairs env pairs s).2 := by
  intro pairs
  induction pairs with
  | nil => intro s; exact frame_rfl s
  | cons pr rest ih =>
    obtain ⟨srcPath, t⟩ := pr
    intro s
    rw [runPairs]
    refine andThen_frame (cancelCheck_frame env s) (fun s₁ => ?_)
    refine resolveCase_frame (handle_conflict_frame env srcPath [pathName srcPath] s₁)
      (fun s₂ => andThen_frame (cancelCheck_frame env s₂) (fun s₃ => ih s₃))
      (fun finalDest s₂ => ?_)
    refine andThen_frame ?_
      (fun s₃ => frame_trans (moveCleanup_frame env srcPath s₃) (ih _))
    cases t with
    | file c => exact copy_file_frame env srcPath c finalDest s₂
    | dnil => exact copy_dir_with_conflicts_frame env srcPath .dnil finalDest true s₂
    | dcons n2 c2 r2 =>
      exact copy_dir_with_conflicts_frame env srcPath (.dcons n2 c2 r2) finalDest true s₂


/-- Event structure of a whole `FileTransferTask._run`: the trace gains
the initial progress event (carrying the computed total), inner events
none of which is `finished` and all of whose progress events carry that
same total, and one final `finished` event. -/
theorem run_events (env : Env) (sources : List Source) (s0 : St) :
    ∃ Δ b m,
      (run env sources s0).events =
        s0.events ++ [Ev.progress 0 (compute_total (enumerate sources))]
          ++ Δ ++ [Ev.finished b m] ∧
      (∀ e ∈ Δ, ∀ b2 m2, e ≠ Ev.finished b2 m2) ∧
      (∀ dn t, Ev.progress dn t ∈ Δ → t = compute_total (enumerate sources)) ∧
      (b = true → m = "") := by
  rw [run]
  rcases hr : runPairs env (enumerate sources) (runInit sources s0) with ⟨r, s₂⟩
  have hf := runPairs_frame env (enumerate sources) (runInit sources s0)
  rw [hr] at hf
  obtain ⟨ht, Δ, he, hnf, hp⟩ := hf
  have hinit_ev : (runInit sources s0).events =
      s0.events ++ [Ev.progress 0 (compute_total (enumerate sources))] := rfl
  have hinit_t : (runInit sources s0).total =
      compute_total (enumerate sources) := rfl
  cases r with
  | ok _ =>
    refine ⟨Δ, true, "", ?_, hnf, ?_, fun _ => rfl⟩
    · show s₂.events ++ [Ev.finished true ""] = _
      rw [he, hinit_ev]
    · intro dn t hm
      rw [hinit_t] at hp
      exact hp dn t hm
  | error e =>
    refine ⟨Δ, false, errMsg e, ?_, hnf, ?_, by intro h; cases h⟩
    · show s₂.events ++ [Ev.finished false (errMsg e)] = _
      rw [he, hinit_ev]
    · intro dn t hm
      rw [hinit_t] at hp
      exact hp dn t hm

/-- Unfolding of a cancel check followed by a continuation. -/
theorem andThen_cancelCheck (env : Env) (s : St) (k : St → Except Err Unit × St) :
    andThen (cancelCheck env s) k =
      if s.cancelFlag || env.cancelReq s.tick then
        (Except.error Err.cancelled, cancelBump env s)
      else k (cancelBump env s) := by
  rw [cancelCheck, cancelBump]
  split <;> simp_all [andThen]

/-! ## Frame property of download-task steps

A `DownloadTask` may raise `_total` mid-run (`_total = max(_total,
_done)`), so its frame property is weaker: events are append-only with
no `finished`, the total never decreases, and the emitted progress
totals form a non-decreasing chain bounded by the totals at entry and
exit.  The chunk-loop lemma assumes `1 ≤ total`, which `__init__` and
the estimate establish. -/

def dlFrame (s s2 : St) : Prop :=
  s.total ≤ s2.total ∧
  ∃ Δ, s2.events = s.events ++ Δ ∧
    (∀ e ∈ Δ, ∀ b m, e ≠ Ev.finished b m) ∧
    List.Chain' (· ≤ ·) (progressTotals Δ) ∧
    (∀ t ∈ progressTotals Δ, s.total ≤ t ∧ t ≤ s2.total)

theorem dlFrame_rfl (s : St) : dlFrame s s := by
  refine ⟨Nat.le_refl _, [], by simp, by simp, ?_, ?_⟩ <;> simp [progressTotals]

theorem dlFrame_of_eq {s s2 : St} (he : s2.events = s.events)
    (ht : s.total ≤ s2.total) : dlFrame s s2 := by
  refine ⟨ht, [], by simp [he], by simp, ?_, ?_⟩ <;> simp [progressTotals]

theorem dlFrame_trans {s₁ s₂ s₃ : St} (h₁ : dlFrame s₁ s₂) (h₂ : dlFrame s₂ s₃) :
    dlFrame s₁ s₃ := by
  obtain ⟨ht₁, Δ₁, he₁, hf₁, hc₁, hb₁⟩ := h₁
  obtain ⟨ht₂, Δ₂, he₂, hf₂, hc₂, hb₂⟩ := h₂
  refine ⟨ht₁.trans ht₂, Δ₁ ++ Δ₂, ?_, ?_, ?_, ?_⟩
  · rw [he₂, he₁, List.append_assoc]
  · intro e he b m
    rcases List.mem_append.mp he with h | h
    · exact hf₁ e h b m
    · exact hf₂ e h b m
  · rw [progressTotals_append]
    refine List.Chain'.append hc₁ hc₂ ?_
    intro x hx y hy
    have hx2 := (hb₁ x (List.mem_of_mem_getLast? hx)).2
    have hy2 := (hb₂ y (List.mem_of_mem_head? hy)).1
    exact hx2.trans hy2
  · rw [progressTotals_append]
    intro t hmem
    rcases List.mem_append.mp hmem with h | h
    · exact ⟨(hb₁ t h).1, ((hb₁ t h).2).trans ht₂⟩
    · exact ⟨ht₁.trans (hb₂ t h).1, (hb₂ t h).2⟩

theorem dlFrame_append_nonprogress {s : St} {e : Ev}
    (hnf : ∀ b m, e ≠ Ev.finished b m)
    (hpr : ∀ dn t, e ≠ Ev.progress dn t) :
    dlFrame s { s with events := s.events ++ [e] } := by
  have hpt : progressTotals [e] = [] := by
    cases e with
    | progress dn t => exact absurd rfl (hpr dn t)
    | fileProg p => simp [progressTotals]
    | finished b m => simp [progressTotals]
    | conflictQuery a b => simp [progressTotals]
  refine ⟨Nat.le_refl _, [e], rfl, ?_, ?_, ?_⟩
  · intro e2 he2; simp at he2; subst he2; exact hnf
  · rw [hpt]; exact List.chain'_nil
  · rw [hpt]; simp

theorem andThen_dlFrame {s : St} {x : Except Err Unit × St}
    {k : St → Except Err Unit × St} (hx : dlFrame s x.2)
    (hk : ∀ ss, dlFrame ss (k ss).2) : dlFrame s (andThen x k).2 := by
  obtain ⟨r, s₂⟩ := x
  cases r with
  | error e => exact hx
  | ok _ => exact dlFrame_trans hx (hk s₂)

theorem tryCleanup_dlFrame {s : St} {x : Except Err Unit × St}
    {cleanup : St → St} {k : St → Except Err Unit × St} (hx : dlFrame s x.2)
    (hclean : ∀ ss, dlFrame ss (cleanup ss))
    (hk : ∀ ss, dlFrame ss (k ss).2) : dlFrame s (tryCleanup x cleanup k).2 := by
  obtain ⟨r, s₂⟩ := x
  cases r with
  | error e => exact dlFrame_trans hx (hclean s₂)
  | ok _ => exact dlFrame_trans hx (hk s₂)

theorem cancelCheck_dlFrame (env : Env) (s : St) :
    dlFrame s (cancelCheck env s).2 := by
  rw [cancelCheck]
  split <;> exact dlFrame_of_eq rfl (Nat.le_refl _)

theorem request_conflict_dlFrame (env : Env) (existing tempSource : Path)
    (s : St) : dlFrame s (request_conflict env existing tempSource s).2 := by
  rw [request_conflict]
  cases env.callback with
  | none =>
    simp only []
    split
    · exact dlFrame_rfl s
    · exact dlFrame_rfl s
  | some cb =>
    simp only []
    have hq : dlFrame s
        { s with events := s.events ++ [Ev.conflictQuery existing tempSource] } :=
      dlFrame_append_nonprogress (by intro b m h; cases h) (by intro dn t h; cases h)
    split
    · exact hq
    · exact hq

theorem replace_step_dlFrame (env : Env) (tempP dest : Path) (s : St) :
    dlFrame s (replace_step env tempP dest s).2 := by
  rw [replace_step]
  by_cases hio : env.ioFail s.tick = true
  · rw [if_pos hio]
    exact dlFrame_of_eq rfl (Nat.le_refl _)
  · rw [if_neg hio]
    by_cases hd : fsLookup ({ s with tick := s.tick + 1 } : St).fs dest = some .dir
    · rw [if_pos hd]
      exact dlFrame_of_eq rfl (Nat.le_refl _)
    · rw [if_neg hd]
      rcases hl : fsLookup ({ s with tick := s.tick + 1 } : St).fs tempP with _ | e
      · simp only [hl]
        exact dlFrame_of_eq rfl (Nat.le_refl _)
      · cases e with
        | file c =>
          simp only [hl]
          exact dlFrame_trans (dlFrame_of_eq rfl (Nat.le_refl _))
            (dlFrame_append_nonprogress (by intro b m h; cases h)
              (by intro dn t h; cases h))
        | dir =>
          simp only [hl]
          exact dlFrame_of_eq rfl (Nat.le_refl _)

theorem finalize_decision_dlFrame (env : Env) (tempP dest : Path)
    (decision : ConflictDecision) (s : St) :
    dlFrame s (finalize_decision env tempP dest decision s).2 := by
  rw [finalize_decision]
  by_cases h1 : decision.action = "overwrite"
  · rw [if_pos h1]
    by_cases ha : decision.apply_all = true
    · simp only [ha, if_true]
      refine dlFrame_trans ?_ (replace_step_dlFrame env tempP dest _)
      exact dlFrame_of_eq rfl (Nat.le_refl _)
    · simp only [ha, Bool.false_eq_true, if_false]
      refine dlFrame_trans ?_ (replace_step_dlFrame env tempP dest _)
      exact dlFrame_of_eq rfl (Nat.le_refl _)
  · rw [if_neg h1]
    by_cases h2 : decision.action = "rename"
    · rw [if_pos h2]
      exact replace_step_dlFrame env tempP _ s
    · rw [if_neg h2]
      by_cases h3 : decision.action = "skip"
      · rw [if_pos h3]
        exact dlFrame_of_eq rfl (Nat.le_refl _)
      · rw [if_neg h3]
        by_cases h4 : decision.action = "cancel"
        · rw [if_pos h4]
          exact dlFrame_of_eq rfl (Nat.le_refl _)
        · rw [if_neg h4]
          exact dlFrame_of_eq rfl (Nat.le_refl _)

theorem finalize_download_dlFrame (env : Env) (tempP finalDest : Path) (s : St) :
    dlFrame s (finalize_download env tempP finalDest s).2 := by
  rw [finalize_download]
  by_cases hex : fsExists s.fs finalDest = true
  · rw [if_pos hex]
    by_cases hall : s.apply_all_overwrite = true
    · rw [if_pos hall]
      refine dlFrame_trans ?_ (replace_step_dlFrame env tempP finalDest _)
      exact dlFrame_of_eq rfl (Nat.le_refl _)
    · rw [if_neg hall]
      exact dlFrame_trans (request_conflict_dlFrame env finalDest tempP s)
        (finalize_decision_dlFrame env tempP finalDest _ _)
  · rw [if_neg hex]
    exact replace_step_dlFrame env tempP finalDest s

theorem download_chunks_dlFrame (env : Env) (finalDest tempP : Path) :
    ∀ (chunks written : List (List Nat)) (s : St), 1 ≤ s.total →
      dlFrame s (download_chunks env finalDest tempP written chunks s).2 := by
  intro chunks
  induction chunks with
  | nil =>
    intro written s h1
    exact andThen_dlFrame (cancelCheck_dlFrame env s) (fun ss => dlFrame_rfl ss)
  | cons c rest ih =>
    intro written s h1
    rw [download_chunks, andThen_cancelCheck]
    by_cases hcf : (s.cancelFlag || env.cancelReq s.tick) = true
    · rw [if_pos hcf]
      exact dlFrame_of_eq rfl (Nat.le_refl _)
    · rw [if_neg hcf]
      by_cases hio : env.ioFail (cancelBump env s).tick = true
      · rw [if_pos hio]
        exact dlFrame_of_eq rfl (Nat.le_refl _)
      · rw [if_neg hio]
        have hbt : (cancelBump env s).total = s.total := rfl
        have htot : s.total ≤ max s.total ((cancelBump env s).done + c.length) :=
          Nat.le_max_left _ _
        have h1e : max (max s.total ((cancelBump env s).done + c.length)) 1
            = max s.total ((cancelBump env s).done + c.length) :=
          Nat.max_eq_left (h1.trans htot)
        refine @dlFrame_trans s { cancelBump env s with
            tick := (cancelBump env s).tick + 1
            fs := fsInsert (cancelBump env s).fs tempP (.file (written ++ [c]))
            done := (cancelBump env s).done + c.length
            total := max s.total ((cancelBump env s).done + c.length)
            events := (cancelBump env s).events ++
              [Ev.progress ((cancelBump env s).done + c.length)
                 (max (max s.total ((cancelBump env s).done + c.length)) 1),
               Ev.fileProg finalDest] } _ ?_ ?_
        · refine ⟨htot, [Ev.progress ((cancelBump env s).done + c.length)
              (max (max s.total ((cancelBump env s).done + c.length)) 1),
            Ev.fileProg finalDest], rfl, ?_, ?_, ?_⟩
          · intro e he b m
            rcases List.mem_cons.mp he with h | h
            · subst h; intro hcon; cases hcon
            · simp at h; subst h; intro hcon; cases hcon
          · simp [progressTotals]
          · intro t hmem
            simp [progressTotals] at hmem
            subst hmem
            rw [h1e]
            exact ⟨htot, Nat.le_refl _⟩
        · refine ih (written ++ [c]) _ ?_
          show 1 ≤ max s.total ((cancelBump env s).done + c.length)
          exact h1.trans htot

theorem download_single_dlFrame (env : Env) (src : DlSource) (s : St)
    (h1 : 1 ≤ s.total) : dlFrame s (download_single env src s).2 := by
  rw [download_single]
  cases hb : src.body with
  | none => exact dlFrame_rfl s
  | some content =>
    refine @dlFrame_trans s { s with
        fs := fsInsert s.fs [src.tempName] (.file []) } _
      (dlFrame_of_eq rfl (Nat.le_refl _)) ?_
    refine tryCleanup_dlFrame
      (download_chunks_dlFrame env [src.filename] [src.tempName] content [] _ h1)
      (fun ss => dlFrame_of_eq rfl (Nat.le_refl _))
      (fun ss => finalize_download_dlFrame env [src.tempName] [src.filename] ss)

theorem runDlList_dlFrame (env : Env) :
    ∀ (srcs : List DlSource) (s : St), 1 ≤ s.total →
      dlFrame s (runDlList env srcs s).2 := by
  intro srcs
  induction srcs with
  | nil => intro s h1; exact dlFrame_rfl s
  | cons d rest ih =>
    intro s h1
    rw [runDlList, andThen_cancelCheck]
    by_cases hcf : (s.cancelFlag || env.cancelReq s.tick) = true
    · rw [if_pos hcf]
      exact dlFrame_of_eq rfl (Nat.le_refl _)
    · rw [if_neg hcf]
      have hb : (cancelBump env s).total = s.total := rfl
      rcases hd : download_single env d (cancelBump env s) with ⟨r, s₂⟩
      have hf := download_single_dlFrame env d (cancelBump env s) (by rw [hb]; exact h1)
      rw [hd] at hf
      have hf0 : dlFrame s s₂ := dlFrame_trans (dlFrame_of_eq rfl (Nat.le_refl _)) hf
      cases r with
      | error e => exact hf0
      | ok _ =>
        refine dlFrame_trans hf0 (ih s₂ ?_)
        have : s.total ≤ s₂.total := hf0.1
        omega

/-- Event structure of a whole `DownloadTask._run`: initial progress
with the HEAD estimate (at least 1), inner events with no `finished`
and non-decreasing progress totals all at least 1, then one final
`finished` event. -/
theorem runDownload_events (env : Env) (srcs : List DlSource) (s0 : St) :
    ∃ Δ b m,
      (runDownload env srcs s0).events =
        s0.events ++ [Ev.progress 0 (compute_total_estimate srcs)]
          ++ Δ ++ [Ev.finished b m] ∧
      (∀ e ∈ Δ, ∀ b2 m2, e ≠ Ev.finished b2 m2) ∧
      List.Chain' (· ≤ ·) (compute_total_estimate srcs :: progressTotals Δ) ∧
      (∀ t ∈ progressTotals Δ, 1 ≤ t) := by
  rw [runDownload]
  have hinit_t : (dlInit srcs s0).total = compute_total_estimate srcs := rfl
  have h1 : 1 ≤ (dlInit srcs s0).total := by
    rw [hinit_t, compute_total_estimate]
    exact Nat.le_max_right _ _
  rcases hr : runDlList env srcs (dlInit srcs s0) with ⟨r, s₂⟩
  have hf := runDlList_dlFrame env srcs (dlInit srcs s0) h1
  rw [hr] at hf
  obtain ⟨ht, Δ, he, hnf, hc, hbd⟩ := hf
  have hinit_ev : (dlInit srcs s0).events =
      s0.events ++ [Ev.progress 0 (compute_total_estimate srcs)] := rfl
  have hchain : List.Chain' (· ≤ ·) (compute_total_estimate srcs :: progressTotals Δ) := by
    cases hpt : progressTotals Δ with
    | nil => simp
    | cons t0 ts =>
      rw [List.chain'_cons]
      constructor
      · have := (hbd t0 (by rw [hpt]; exact List.mem_cons_self t0 ts)).1
        rw [hinit_t] at this
        exact this
      · rw [← hpt]; exact hc
  have hbound : ∀ t ∈ progressTotals Δ, 1 ≤ t := by
    intro t hmem
    have := (hbd t hmem).1
    rw [hinit_t] at this
    calc 1 ≤ compute_total_estimate srcs := Nat.le_max_right _ _
    _ ≤ t := this
  cases r with
  | ok _ =>
    refine ⟨Δ, true, "", ?_, hnf, hchain, hbound⟩
    show s₂.events ++ [Ev.finished true ""] = _
    rw [he, hinit_ev]
  | error e =>
    refine ⟨Δ, false, errMsg e, ?_, hnf, hchain, hbound⟩
    show s₂.events ++ [Ev.finished false (errMsg e)] = _
    rw [he, hinit_ev]


/-! ## Success path of the per-file copy -/

@[simp] theorem cancelBump_fs (env : Env) (s : St) : (cancelBump env s).fs = s.fs := rfl
@[simp] theorem cancelBump_apply_all (env : Env) (s : St) :
    (cancelBump env s).apply_all_overwrite = s.apply_all_overwrite := rfl
@[simp] theorem cancelBump_done (env : Env) (s : St) : (cancelBump env s).done = s.done := rfl
@[simp] theorem cancelBump_total (env : Env) (s : St) : (cancelBump env s).total = s.total := rfl
@[simp] theorem cancelBump_last_emit (env : Env) (s : St) :
    (cancelBump env s).last_emit = s.last_emit := rfl
@[simp] theorem cancelBump_events (env : Env) (s : St) :
    (cancelBump env s).events = s.events := rfl
@[simp] theorem cancelBump_removedSrcs (env : Env) (s : St) :
    (cancelBump env s).removedSrcs = s.removedSrcs := rfl

theorem cancelBump_flag_false {env : Env} {s : St}
    (hnc : ∀ t, env.cancelReq t = false) (hcf : s.cancelFlag = false) :
    (cancelBump env s).cancelFlag = false := by
  show (s.cancelFlag || env.cancelReq s.tick) = false
  rw [hcf, hnc]
  rfl

theorem writeChunks_ok (env : Env) (hnc : ∀ t, env.cancelReq t = false)
    (hnf : ∀ t, env.ioFail t = false) (dest temp : Path) :
    ∀ (chunks written : List (List Nat)) (s : St),
      s.cancelFlag = false →
      fsLookup s.fs temp = some (.file written) →
      ∃ s2, writeChunks env dest temp written chunks s = (.ok (), s2) ∧
        s2.cancelFlag = false ∧
        s2.apply_all_overwrite = s.apply_all_overwrite ∧
        s2.total = s.total ∧
        s2.removedSrcs = s.removedSrcs ∧
        (∀ q, fsLookup s2.fs q =
          if q = temp then some (.file (written ++ chunks)) else fsLookup s.fs q) ∧
        ∃ Δ, s2.events = s.events ++ Δ ∧
          progressCount Δ = chunks.length ∧
          queryCount Δ = 0 ∧ finishedCount Δ = 0 := by
  intro chunks
  induction chunks with
  | nil =>
    intro written s hcf htemp
    rw [writeChunks, andThen_cancelCheck]
    have hflag : (s.cancelFlag || env.cancelReq s.tick) = false := by
      rw [hcf, hnc]; rfl
    rw [hflag]
    refine ⟨cancelBump env s, by rw [if_neg]; simp, cancelBump_flag_false hnc hcf,
      rfl, rfl, rfl, ?_, [], by simp, rfl, rfl, rfl⟩
    intro q
    by_cases hq : q = temp
    · subst hq; simp [htemp]
    · simp [hq]
  | cons c rest ih =>
    intro written s hcf htemp
    rw [writeChunks, andThen_cancelCheck]
    have hflag : (s.cancelFlag || env.cancelReq s.tick) = false := by
      rw [hcf, hnc]; rfl
    rw [hflag, if_neg (by simp)]
    rw [if_neg (by rw [hnf]; simp)]
    rw [chunkStep_eq]
    have hafter : ∀ (s3 : St),
        s3.cancelFlag = false →
        s3.apply_all_overwrite = s.apply_all_overwrite →
        s3.total = s.total →
        s3.removedSrcs = s.removedSrcs →
        s3.fs = fsInsert s.fs temp (.file (written ++ [c])) →
        (∃ Δ0, s3.events = s.events ++ Δ0 ∧ progressCount Δ0 = 1 ∧
          queryCount Δ0 = 0 ∧ finishedCount Δ0 = 0) →
        ∃ s2, writeChunks env dest temp (written ++ [c]) rest s3 = (.ok (), s2) ∧
          s2.cancelFlag = false ∧
          s2.apply_all_overwrite = s.apply_all_overwrite ∧
          s2.total = s.total ∧
          s2.removedSrcs = s.removedSrcs ∧
          (∀ q, fsLookup s2.fs q =
            if q = temp then some (.file (written ++ c :: rest)) else fsLookup s.fs q) ∧
          ∃ Δ, s2.events = s.events ++ Δ ∧
            progressCount Δ = rest.length + 1 ∧
            queryCount Δ = 0 ∧ finishedCount Δ = 0 := by
      rintro s3 h3cf h3aa h3t h3rs h3fs ⟨Δ0, h3ev, hp0, hq0, hf0⟩
      have htemp3 : fsLookup s3.fs temp = some (.file (written ++ [c])) := by
        rw [h3fs]; simp
      obtain ⟨s2, heq, h2cf, h2aa, h2t, h2rs, h2fs, Δ1, h2ev, hp1, hq1, hf1⟩ :=
        ih (written ++ [c]) s3 h3cf htemp3
      refine ⟨s2, heq, h2cf, h2aa.trans h3aa, h2t.trans h3t, h2rs.trans h3rs, ?_,
        Δ0 ++ Δ1, ?_, ?_, ?_, ?_⟩
      · intro q
        rw [h2fs q]
        by_cases hq : q = temp
        · subst hq; simp [List.append_assoc]
        · have hq2 : ¬ temp = q := fun h => hq h.symm
          rw [if_neg hq, if_neg hq, h3fs, fsLookup_insert, if_neg hq2]
      · rw [h2ev, h3ev, List.append_assoc]
      · rw [progressCount_append, hp0, hp1]; omega
      · rw [queryCount_append, hq0, hq1]
      · rw [finishedCount_append, hf0, hf1]
    by_cases hth : emitInterval ≤
        env.clock ((cancelBump env s).tick + 1) - (cancelBump env s).last_emit
    · rw [if_pos hth]
      refine hafter _ (cancelBump_flag_false hnc hcf) rfl rfl rfl rfl ?_
      exact ⟨[Ev.progress ((cancelBump env s).done + c.length) (cancelBump env s).total,
        Ev.fileProg dest], rfl, rfl, rfl, rfl⟩
    · rw [if_neg hth]
      refine hafter _ (cancelBump_flag_false hnc hcf) rfl rfl rfl rfl ?_
      exact ⟨[Ev.progress ((cancelBump env s).done + c.length) (cancelBump env s).total],
        rfl, rfl, rfl, rfl⟩


/-- For any schedule, the chunk loop never touches a path other than
the temp file. -/
theorem writeChunks_fs_other (env : Env) (dest temp : Path) :
    ∀ (chunks written : List (List Nat)) (s : St) (q : Path), q ≠ temp →
      fsLookup (writeChunks env dest temp written chunks s).2.fs q
        = fsLookup s.fs q := by
  intro chunks
  induction chunks with
  | nil =>
    intro written s q hq
    rw [writeChunks, andThen_cancelCheck]
    split <;> rfl
  | cons c rest ih =>
    intro written s q hq
    rw [writeChunks, andThen_cancelCheck]
    by_cases hcf : (s.cancelFlag || env.cancelReq s.tick) = true
    · rw [if_pos hcf]
      rfl
    · rw [if_neg hcf]
      by_cases hio : env.ioFail (cancelBump env s).tick = true
      · rw [if_pos hio]
        rfl
      · rw [if_neg hio]
        rw [chunkStep_eq]
        have hq2 : ¬ temp = q := fun h => hq h.symm
        by_cases hth : emitInterval ≤
            env.clock ((cancelBump env s).tick + 1) - (cancelBump env s).last_emit
        · rw [if_pos hth]
          rw [ih (written ++ [c]) _ q hq]
          show fsLookup (fsInsert (cancelBump env s).fs temp _) q = _
          rw [fsLookup_insert, if_neg hq2]
          rfl
        · rw [if_neg hth]
          rw [ih (written ++ [c]) _ q hq]
          show fsLookup (fsInsert (cancelBump env s).fs temp _) q = _
          rw [fsLookup_insert, if_neg hq2]
          rfl

/-- `_copy_file`'s streaming body on the success path (no I/O failure,
no cancellation, temp path and destination not directories):
the full content ends up at `dest`, the temp file is gone, no other
path changes, and the trace gains one progress event per chunk followed
by the final `file_progress`. -/
theorem copy_file_stream_ok (env : Env) (hnc : ∀ t, env.cancelReq t = false)
    (hnf : ∀ t, env.ioFail t = false) (content : Content) (dest : Path) (s : St)
    (hcf : s.cancelFlag = false)
    (htemp : fsLookup s.fs (tempPath dest) ≠ some .dir)
    (hdest : fsLookup s.fs dest ≠ some .dir) :
    ∃ s2, copy_file_stream env content dest s = (.ok (), s2) ∧
      s2.cancelFlag = false ∧
      s2.apply_all_overwrite = s.apply_all_overwrite ∧
      s2.total = s.total ∧
      s2.removedSrcs = s.removedSrcs ∧
      (∀ q, fsLookup s2.fs q =
        if q = dest then some (.file content)
        else if q = tempPath dest then none
        else fsLookup s.fs q) ∧
      ∃ Δ, s2.events = s.events ++ Δ ++ [Ev.fileProg dest] ∧
        progressCount Δ = content.length ∧
        queryCount Δ = 0 ∧ finishedCount Δ = 0 := by
  rw [copy_file_stream, if_neg htemp]
  simp only []
  have htne : tempPath dest ≠ dest := tempPath_ne dest
  obtain ⟨s2, heq, h2cf, h2aa, h2t, h2rs, h2fs, Δ, h2ev, hp, hq, hf⟩ :=
    writeChunks_ok env hnc hnf dest (tempPath dest) content []
      { s with fs := fsInsert s.fs (tempPath dest) (.file []) }
      hcf (by simp)
  rw [heq]
  simp only [tryCleanup]
  rw [if_neg (by rw [hnf]; simp)]
  have hdl : fsLookup s2.fs dest ≠ some Entry.dir := by
    rw [h2fs dest, if_neg (fun h => htne h.symm)]
    show fsLookup (fsInsert s.fs (tempPath dest) (.file [])) dest ≠ some Entry.dir
    rw [fsLookup_insert, if_neg htne]
    exact hdest
  rw [if_neg hdl]
  refine ⟨_, rfl, h2cf, h2aa, h2t, h2rs, ?_, Δ, ?_, hp, hq, hf⟩
  · intro q
    show fsLookup (fsInsert (fsErase s2.fs (tempPath dest)) dest (.file content)) q = _
    rw [fsLookup_insert]
    by_cases hqd : q = dest
    · subst hqd
      rw [if_pos rfl, if_pos rfl]
    · rw [if_neg (fun h => hqd h.symm), if_neg hqd, fsLookup_erase]
      by_cases hqt : q = tempPath dest
      · subst hqt
        rw [if_pos rfl, if_pos rfl]
      · rw [if_neg (fun h => hqt h.symm), if_neg hqt, h2fs q,
          if_neg hqt]
        show fsLookup (fsInsert s.fs (tempPath dest) (.file [])) q = _
        rw [fsLookup_insert, if_neg (fun h => hqt h.symm)]
  · show s2.events ++ [Ev.fileProg dest] = _
    rw [h2ev]

/-- `_copy_file`'s streaming body on any failing path (given the temp
path is not a directory): the temp file has been deleted before the
error propagates, and no path other than the temp path changed - in
particular the destination is untouched. -/
theorem copy_file_stream_err (env : Env) (content : Content) (dest : Path)
    (s : St) (e : Err)
    (htemp : fsLookup s.fs (tempPath dest) ≠ some .dir)
    (herr : (copy_file_stream env content dest s).1 = .error e) :
    fsLookup (copy_file_stream env content dest s).2.fs (tempPath dest) = none ∧
    ∀ q, q ≠ tempPath dest →
      fsLookup (copy_file_stream env content dest s).2.fs q = fsLookup s.fs q := by
  rw [copy_file_stream, if_neg htemp] at herr ⊢
  simp only [] at herr ⊢
  rcases hw : writeChunks env dest (tempPath dest) [] content
      { s with fs := fsInsert s.fs (tempPath dest) (.file []) } with ⟨r, s₂⟩
  have hother : ∀ q, q ≠ tempPath dest → fsLookup s₂.fs q = fsLookup s.fs q := by
    intro q hq
    have := writeChunks_fs_other env dest (tempPath dest) content []
      { s with fs := fsInsert s.fs (tempPath dest) (.file []) } q hq
    rw [hw] at this
    rw [this]
    show fsLookup (fsInsert s.fs (tempPath dest) (.file [])) q = _
    rw [fsLookup_insert, if_neg (fun h => hq h.symm)]
  rw [hw] at herr
  cases r with
  | error e2 =>
    simp only [tryCleanup] at herr ⊢
    constructor
    · show fsLookup (fsErase s₂.fs (tempPath dest)) (tempPath dest) = none
      rw [fsLookup_erase, if_pos rfl]
    · intro q hq
      show fsLookup (fsErase s₂.fs (tempPath dest)) q = _
      rw [fsLookup_erase, if_neg (fun h => hq h.symm)]
      exact hother q hq
  | ok _ =>
    simp only [tryCleanup] at herr ⊢
    by_cases hio : env.ioFail s₂.tick = true
    · rw [if_pos hio] at herr ⊢
      constructor
      · show fsLookup (fsErase s₂.fs (tempPath dest)) (tempPath dest) = none
        rw [fsLookup_erase, if_pos rfl]
      · intro q hq
        show fsLookup (fsErase s₂.fs (tempPath dest)) q = _
        rw [fsLookup_erase, if_neg (fun h => hq h.symm)]
        exact hother q hq
    · rw [if_neg hio] at herr ⊢
      by_cases hd : fsLookup ({ s₂ with tick := s₂.tick + 1 } : St).fs dest = some .dir
      · rw [if_pos hd] at herr ⊢
        constructor
        · show fsLookup (fsErase s₂.fs (tempPath dest)) (tempPath dest) = none
          rw [fsLookup_erase, if_pos rfl]
        · intro q hq
          show fsLookup (fsErase s₂.fs (tempPath dest)) q = _
          rw [fsLookup_erase, if_neg (fun h => hq h.symm)]
          exact hother q hq
      · rw [if_neg hd] at herr
        cases herr


/-- A benign environment: no callback, no external cancel requests, no
I/O failures, a constant clock, copy semantics. -/
def benignEnv : Env :=
  { callback := none, cancelReq := fun _ => false, ioFail := fun _ => false,
    clock := fun _ => 0, move := false, srcDelOk := true }

/-- Claim C2: every per-file copy streams into the temporary path
(destination plus the reserved `.part` suffix) and renames it onto the
final destination only after the last chunk; on any failure or
cancellation the temp file has been deleted before the error
propagates, so the destination path never holds a truncated file: on
success it holds the full content, on failure its entry is exactly what
it was before the copy. -/
theorem claim_C2_temp_file_atomicity (env : Env) (content : Content)
    (dest : Path) (s : St)
    (htemp : fsLookup s.fs (tempPath dest) ≠ some Entry.dir) :
    ((∀ t, env.cancelReq t = false) → (∀ t, env.ioFail t = false) →
      s.cancelFlag = false → fsLookup s.fs dest ≠ some Entry.dir →
      ∃ s2, copy_file_stream env content dest s = (.ok (), s2) ∧
        fsLookup s2.fs dest = some (.file content) ∧
        fsLookup s2.fs (tempPath dest) = none ∧
        (∀ q, q ≠ dest → q ≠ tempPath dest →
          fsLookup s2.fs q = fsLookup s.fs q)) ∧
    (∀ e, (copy_file_stream env content dest s).1 = .error e →
      fsLookup (copy_file_stream env content dest s).2.fs (tempPath dest) = none ∧
      fsLookup (copy_file_stream env content dest s).2.fs dest = fsLookup s.fs dest ∧
      (∀ q, q ≠ tempPath dest →
        fsLookup (copy_file_stream env content dest s).2.fs q = fsLookup s.fs q)) := by
  constructor
  · intro hnc hnf hcf hdest
    obtain ⟨s2, heq, _, _, _, _, hfs, _⟩ :=
      copy_file_stream_ok env hnc hnf content dest s hcf htemp hdest
    refine ⟨s2, heq, ?_, ?_, ?_⟩
    · rw [hfs dest, if_pos rfl]
    · rw [hfs (tempPath dest), if_neg (tempPath_ne dest), if_pos rfl]
    · intro q hqd hqt
      rw [hfs q, if_neg hqd, if_neg hqt]
  · intro e herr
    obtain ⟨h1, h2⟩ := copy_file_stream_err env content dest s e htemp herr
    exact ⟨h1, h2 dest (fun h => tempPath_ne dest h.symm), h2⟩

theorem claim_C2_witness :
    (fsLookup (initSt []).fs (tempPath ["f"]) ≠ some Entry.dir) ∧
    ∃ s2, copy_file_stream benignEnv [[1, 2]] ["f"] (initSt []) = (.ok (), s2) ∧
      fsLookup s2.fs ["f"] = some (.file [[1, 2]]) ∧
      fsLookup s2.fs (tempPath ["f"]) = none := by
  have hpre : fsLookup (initSt []).fs (tempPath ["f"]) ≠ some Entry.dir := by decide
  refine ⟨hpre, ?_⟩
  obtain ⟨hok, _⟩ :=
    claim_C2_temp_file_atomicity benignEnv [[1, 2]] ["f"] (initSt []) hpre
  obtain ⟨s2, ha, hb, hc, _⟩ :=
    hok (fun t => rfl) (fun t => rfl) rfl (by decide)
  exact ⟨s2, ha, hb, hc⟩

/-- During the chunk loop of `_copy_file`, with every clock reading
inside one throttle window (all readings below the 200 ms interval,
starting from the initial `_last_emit_monotonic = 0`), no in-loop
`file_progress` event is emitted at all, and the throttle timestamp
stays 0. -/
theorem writeChunks_no_fileProg (env : Env) (dest temp : Path)
    (hclock : ∀ t, env.clock t < emitInterval) :
    ∀ (chunks written : List (List Nat)) (s : St), s.last_emit = 0 →
      fileProgCount (writeChunks env dest temp written chunks s).2.events
        = fileProgCount s.events ∧
      (writeChunks env dest temp written chunks s).2.last_emit = 0 := by
  intro chunks
  induction chunks with
  | nil =>
    intro written s hle
    rw [writeChunks, andThen_cancelCheck]
    split <;> exact ⟨rfl, hle⟩
  | cons c rest ih =>
    intro written s hle
    rw [writeChunks, andThen_cancelCheck]
    by_cases hcf : (s.cancelFlag || env.cancelReq s.tick) = true
    · rw [if_pos hcf]
      exact ⟨rfl, hle⟩
    · rw [if_neg hcf]
      by_cases hio : env.ioFail (cancelBump env s).tick = true
      · rw [if_pos hio]
        exact ⟨rfl, hle⟩
      · rw [if_neg hio]
        rw [chunkStep_eq]
        have hlt : ¬ emitInterval ≤
            env.clock ((cancelBump env s).tick + 1) - (cancelBump env s).last_emit := by
          show ¬ emitInterval ≤ env.clock ((cancelBump env s).tick + 1) - s.last_emit
          rw [hle]
          have := hclock ((cancelBump env s).tick + 1)
          omega
        rw [if_neg hlt]
        have := ih (written ++ [c])
          { cancelBump env s with
              tick := (cancelBump env s).tick + 2
              fs := fsInsert (cancelBump env s).fs temp (.file (written ++ [c]))
              done := (cancelBump env s).done + c.length
              events := (cancelBump env s).events ++
                [Ev.progress ((cancelBump env s).done + c.length) (cancelBump env s).total] }
          hle
        rw [this.1]
        refine ⟨?_, this.2⟩
        show fileProgCount (s.events ++ [Ev.progress _ _]) = _
        rw [fileProgCount_append]
        simp [fileProgCount]

/-- Claim C5 counterexample: the claim says `progress(done, total)` is
throttled to at most one emission per 200 ms window (with only the
final chunk's event exempt), so a three-chunk copy whose clock never
leaves the first window could emit at most two progress events; the
code emits one per chunk - three. -/
theorem claim_C5_counterexample :
    ¬ (progressCount
        (copy_file_stream benignEnv [[1], [2], [3]] ["f"] (initSt [])).2.events ≤ 2) := by
  decide

/-- Claim C5 (amended): after each chunk write a `progress(done,
total)` event fires unconditionally (one per chunk - the ~200 ms
throttle does not apply to `progress_changed`); the throttle applies to
the in-loop `file_progress` emissions, which are suppressed entirely
while the clock stays inside one 200 ms window; and once the file
completes, a final `file_progress(final_destination_path)` fires
unconditionally as the last event of the copy. -/
theorem claim_C5_progress_per_chunk_throttled_fileProg (env : Env)
    (content : Content) (dest : Path) (s : St)
    (hnc : ∀ t, env.cancelReq t = false) (hnf : ∀ t, env.ioFail t = false)
    (hcf : s.cancelFlag = false)
    (htemp : fsLookup s.fs (tempPath dest) ≠ some Entry.dir)
    (hdest : fsLookup s.fs dest ≠ some Entry.dir) :
    ∃ s2 Δ, copy_file_stream env content dest s = (.ok (), s2) ∧
      s2.events = s.events ++ Δ ++ [Ev.fileProg dest] ∧
      progressCount Δ = content.length ∧
      ((∀ t, env.clock t < emitInterval) → s.last_emit = 0 →
        fileProgCount Δ = 0) := by
  rw [copy_file_stream, if_neg htemp]
  simp only []
  obtain ⟨s2, heq, h2cf, _, _, _, h2fs, Δ, h2ev, hp, _, _⟩ :=
    writeChunks_ok env hnc hnf dest (tempPath dest) content []
      { s with fs := fsInsert s.fs (tempPath dest) (.file []) }
      hcf (by simp)
  rw [heq]
  simp only [tryCleanup]
  rw [if_neg (by rw [hnf]; simp)]
  have htne : tempPath dest ≠ dest := tempPath_ne dest
  have hdl : fsLookup s2.fs dest ≠ some Entry.dir := by
    rw [h2fs dest, if_neg (fun h => htne h.symm)]
    show fsLookup (fsInsert s.fs (tempPath dest) (.file [])) dest ≠ some Entry.dir
    rw [fsLookup_insert, if_neg htne]
    exact hdest
  rw [if_neg hdl]
  refine ⟨_, Δ, rfl, ?_, hp, ?_⟩
  · show s2.events ++ [Ev.fileProg dest] = _
    rw [h2ev]
  · intro hclock hle
    have hwc := writeChunks_no_fileProg env dest (tempPath dest) hclock content []
      { s with fs := fsInsert s.fs (tempPath dest) (.file []) } hle
    rw [heq] at hwc
    have h1 : fileProgCount s2.events = fileProgCount s.events := hwc.1
    rw [h2ev] at h1
    show fileProgCount Δ = 0
    rw [fileProgCount_append] at h1
    have h1a : fileProgCount s.events + fileProgCount Δ = fileProgCount s.events := h1
    omega

theorem claim_C5_witness :
    (∀ t, benignEnv.cancelReq t = false) ∧
    ∃ s2 Δ,
      copy_file_stream benignEnv [[1], [2], [3]] ["f"] (initSt []) = (.ok (), s2) ∧
      s2.events = (initSt []).events ++ Δ ++ [Ev.fileProg ["f"]] ∧
      progressCount Δ = 3 ∧ fileProgCount Δ = 0 := by
  refine ⟨fun t => rfl, ?_⟩
  obtain ⟨s2, Δ, ha, hb, hc, hd⟩ :=
    claim_C5_progress_per_chunk_throttled_fileProg benignEnv [[1], [2], [3]] ["f"]
      (initSt []) (fun t => rfl) (fun t => rfl) rfl (by decide) (by decide)
  have hcl : ∀ t : Nat, benignEnv.clock t < emitInterval := fun _ => Nat.succ_pos 199
  exact ⟨s2, Δ, ha, hb, hc, hd hcl rfl⟩

/-- Claim C9: source paths that do not exist at task start are silently
skipped by `_enumerate`; a request whose source paths all fail the
existence check runs an empty loop and finishes with
`finished(True, '')`, writing nothing into the destination: the
task emits only the initial `progress(0, 1)` and `finished(True, '')`,
and the destination filesystem is unchanged. -/
theorem claim_C9_missing_sources_skipped (env : Env) (sources : List Source)
    (fs : FS) (h : ∀ so ∈ sources, so.tree = none) :
    (run env sources (initSt fs)).events =
      [Ev.progress 0 1, Ev.finished true ""] ∧
    (run env sources (initSt fs)).fs = fs := by
  have henum : enumerate sources = [] := by
    rw [enumerate, List.filterMap_eq_nil_iff]
    intro so hso
    rw [h so hso]
    rfl
  rw [run, henum]
  constructor
  · show (runInit sources (initSt fs)).events ++ [Ev.finished true ""] = _
    show (initSt fs).events ++ [Ev.progress 0 (compute_total (enumerate sources))]
      ++ [Ev.finished true ""] = _
    rw [henum]
    rfl
  · rfl

theorem claim_C9_witness :
    (∀ so ∈ [({ path := ["s", "x"], tree := none } : Source)], so.tree = none) ∧
    (run benignEnv [{ path := ["s", "x"], tree := none }]
        (initSt [(["d"], Entry.dir)])).events =
      [Ev.progress 0 1, Ev.finished true ""] ∧
    (run benignEnv [{ path := ["s", "x"], tree := none }]
        (initSt [(["d"], Entry.dir)])).fs = [(["d"], Entry.dir)] := by
  refine ⟨by decide, ?_⟩
  exact claim_C9_missing_sources_skipped benignEnv
    [{ path := ["s", "x"], tree := none }] [(["d"], Entry.dir)] (by decide)


/-! ## Temp-file hygiene

`_copy_file` materialises data under `dest + ".part"`.  Call a final
name component carrying that reserved suffix a temp name; a filesystem
is temp-free when no temp-named path is present.  Every complete
transfer operation preserves temp-freeness - the "no leftover temp
files" half of the cancellation contract - because every temp file the
task creates is deleted again on both the success and the failure path,
and every path the task writes to rest (destinations, created
directories, rename candidates) has a clean name. -/

/-- Does a final name component carry the reserved `".part"` suffix? -/
def isTempName (n : String) : Bool := ".part".data.isSuffixOf n.data

/-- No temp-named path is present in the filesystem. -/
def noTemps (fs : FS) : Prop :=
  ∀ p : Path, isTempName (pathName p) = true → fsLookup fs p = none

theorem isTempName_iff (n : String) :
    isTempName n = true ↔ ".part".data <:+ n.data := by
  rw [isTempName]
  exact List.isSuffixOf_iff_suffix

theorem pathName_concat (p : Path) (n : String) : pathName (p ++ [n]) = n := by
  simp [pathName]

theorem isTempName_tempPath (dest : Path) :
    isTempName (pathName (tempPath dest)) = true := by
  rw [tempPath, pathName_concat, isTempName_iff, String.data_append]
  exact List.suffix_append _ _

/-- A rename candidate name ends in the closing parenthesis followed by
the original suffix, so a candidate built from a clean name is clean:
either `".part"` would have to be a suffix of the original suffix
(making the original name itself a temp name), or the candidate's `')'`
would have to occur inside `".part"`. -/
theorem isTempName_candidate (name : String) (n : Nat)
    (h : isTempName name = false) :
    isTempName ((splitStemSuffix name).1 ++ " (" ++ natStr n ++ ")"
      ++ (splitStemSuffix name).2) = false := by
  by_contra hcon
  have htrue : isTempName ((splitStemSuffix name).1 ++ " (" ++ natStr n ++ ")"
      ++ (splitStemSuffix name).2) = true := by
    revert hcon
    cases isTempName ((splitStemSuffix name).1 ++ " (" ++ natStr n ++ ")"
      ++ (splitStemSuffix name).2) <;> simp
  rw [isTempName_iff] at htrue
  have hdata : ((splitStemSuffix name).1 ++ " (" ++ natStr n ++ ")"
      ++ (splitStemSuffix name).2).data
      = ((splitStemSuffix name).1.data ++ " (".data ++ (natStr n).data ++ [')'])
        ++ (splitStemSuffix name).2.data := by
    simp [String.data_append, List.append_assoc]
  rw [hdata] at htrue
  obtain ⟨t, ht⟩ := htrue
  have hsfx : ".part".data <:+ (splitStemSuffix name).2.data := by
    rcases List.append_eq_append_iff.mp ht with ⟨r, hv, hP⟩ | ⟨r, _, hP⟩
    · cases r with
      | nil =>
        rw [List.nil_append] at hP
        rw [hP]
      | cons c cs =>
        exfalso
        have hlast : (c :: cs).getLast? = some ')' := by
          have h1 : (t ++ (c :: cs)).getLast? = (c :: cs).getLast? :=
            List.getLast?_append_of_ne_nil t (by simp)
          rw [← hv] at h1
          rw [← h1]
          exact List.getLast?_concat _
        have hmem : (')' : Char) ∈ (c :: cs) := List.mem_of_mem_getLast? hlast
        have hpre : (c :: cs) <+: ".part".data := ⟨_, hP.symm⟩
        have : (')' : Char) ∈ ".part".data := hpre.subset hmem
        revert this
        decide
    · rw [hP]
      exact ⟨r, rfl⟩
  have hname : ".part".data <:+ name.data :=
    hsfx.trans (splitStemSuffix_isSuffix name)
  rw [← isTempName_iff] at hname
  rw [h] at hname
  cases hname

/-- `suggest_rename_from` always returns some candidate. -/
theorem suggest_rename_from_shape (fs : FS) (parent : Path) (stem sfx : String) :
    ∀ (fuel n : Nat), ∃ m,
      suggest_rename_from fs parent stem sfx fuel n
        = renameCandidate parent stem sfx m := by
  intro fuel
  induction fuel with
  | zero => intro n; exact ⟨n, rfl⟩
  | succ fuel ih =>
    intro n
    rw [suggest_rename_from]
    by_cases h : fsExists fs (renameCandidate parent stem sfx n) = true
    · rw [if_pos h]
      exact ih (n + 1)
    · rw [if_neg h]
      exact ⟨n, rfl⟩

theorem isTempName_suggest_rename (fs : FS) (dest : Path)
    (h : isTempName (pathName dest) = false) :
    isTempName (pathName (suggest_rename fs dest)) = false := by
  rw [suggest_rename]
  obtain ⟨m, hm⟩ := suggest_rename_from_shape fs dest.dropLast
    (splitStemSuffix (pathName dest)).1 (splitStemSuffix (pathName dest)).2
    (fs.length + 1) 2
  rw [hm, renameCandidate, pathName_concat]
  exact isTempName_candidate (pathName dest) m h

/-- A conflict callback is name-clean when every rename target it
supplies has a clean final name component. -/
def cbClean (env : Env) : Prop :=
  ∀ cb, env.callback = some cb → ∀ d t dec, cb d t = some dec →
    ∀ p, dec.new_path = some p → isTempName (pathName p) = false

/-- All entry names of a source tree are clean. -/
def treeClean : SrcTree → Prop
  | .file _ => True
  | .dnil => True
  | .dcons name child rest =>
      isTempName name = false ∧ treeClean child ∧ treeClean rest

/-- `_handle_conflict` never touches the filesystem. -/
theorem handle_conflict_fs (env : Env) (src dest : Path) (s : St) :
    (handle_conflict env src dest s).2.fs = s.fs := by
  rw [handle_conflict]
  split
  · rfl
  split
  · rfl
  cases env.callback with
  | none =>
    simp only []
    split
    · split <;> rfl
    split
    · rfl
    split
    · rfl
    split
    · rfl
    · rfl
  | some cb =>
    simp only []
    split
    · split <;> rfl
    split
    · rfl
    split
    · rfl
    split
    · rfl
    · rfl

/-- Every path `_handle_conflict` tells the task to proceed at has a
clean final name, provided the original destination and the callback
are clean. -/
theorem handle_conflict_some_clean (env : Env) (src dest : Path) (s : St)
    (hd : isTempName (pathName dest) = false) (hcb : cbClean env) :
    ∀ d2 s2, handle_conflict env src dest s = (some d2, s2) →
      isTempName (pathName d2) = false := by
  intro d2 s2 heq
  rw [handle_conflict] at heq
  by_cases h1 : fsExists s.fs dest = false
  · rw [if_pos h1] at heq
    cases heq
    exact hd
  · rw [if_neg h1] at heq
    by_cases h2 : s.apply_all_overwrite = true
    · rw [if_pos h2] at heq
      cases heq
      exact hd
    · rw [if_neg h2] at heq
      cases hcbv : env.callback with
      | none =>
        rw [hcbv] at heq
        simp only [Option.getD_none] at heq
        rw [if_pos trivial] at heq
        cases heq
        exact isTempName_suggest_rename s.fs dest hd
      | some cb =>
        rw [hcbv] at heq
        simp only [] at heq
        cases hdec : cb dest src with
        | none =>
          rw [hdec] at heq
          simp only [Option.getD_none] at heq
          rw [if_pos trivial] at heq
          cases heq
          exact isTempName_suggest_rename _ dest hd
        | some dec =>
          rw [hdec] at heq
          simp only [Option.getD_some] at heq
          by_cases ha1 : dec.action = "overwrite"
          · rw [if_pos ha1] at heq
            cases heq
            exact hd
          · rw [if_neg ha1] at heq
            by_cases ha2 : dec.action = "rename"
            · rw [if_pos ha2] at heq
              cases hnp : dec.new_path with
              | none =>
                rw [hnp] at heq
                simp only [Option.getD_none] at heq
                cases heq
                exact isTempName_suggest_rename _ dest hd
              | some p =>
                rw [hnp] at heq
                simp only [Option.getD_some] at heq
                cases heq
                exact hcb cb hcbv dest src dec hdec _ hnp
            · rw [if_neg ha2] at heq
              by_cases ha3 : dec.action = "skip"
              · rw [if_pos ha3] at heq
                cases heq
              · rw [if_neg ha3] at heq
                by_cases ha4 : dec.action = "cancel"
                · rw [if_pos ha4] at heq
                  cases heq
                · rw [if_neg ha4] at heq
                  cases heq
                  exact hd


/-- A temp-named path's binding is, at the end of a complete operation,
either untouched or gone. -/
def tempsOk (s s2 : St) : Prop :=
  ∀ q : Path, isTempName (pathName q) = true →
    fsLookup s2.fs q = fsLookup s.fs q ∨ fsLookup s2.fs q = none

theorem tempsOk_rfl (s : St) : tempsOk s s := fun _ _ => Or.inl rfl

theorem tempsOk_of_eq {s s2 : St} (h : s2.fs = s.fs) : tempsOk s s2 :=
  fun _ _ => Or.inl (by rw [h])

theorem tempsOk_trans {s₁ s₂ s₃ : St} (h₁ : tempsOk s₁ s₂) (h₂ : tempsOk s₂ s₃) :
    tempsOk s₁ s₃ := by
  intro q hq
  rcases h₂ q hq with h | h
  · rcases h₁ q hq with h2 | h2
    · exact Or.inl (h.trans h2)
    · exact Or.inr (h.trans h2)
  · exact Or.inr h

theorem andThen_tempsOk {s : St} {x : Except Err Unit × St}
    {k : St → Except Err Unit × St} (hx : tempsOk s x.2)
    (hk : ∀ ss, tempsOk ss (k ss).2) : tempsOk s (andThen x k).2 := by
  obtain ⟨r, s₂⟩ := x
  cases r with
  | error e => exact hx
  | ok _ => exact tempsOk_trans hx (hk s₂)

theorem cancelCheck_tempsOk (env : Env) (s : St) :
    tempsOk s (cancelCheck env s).2 := by
  rw [cancelCheck]
  split <;> exact tempsOk_of_eq rfl

theorem copy_file_stream_tempsOk (env : Env) (content : Content) (dest : Path)
    (s : St) (hd : isTempName (pathName dest) = false) :
    tempsOk s (copy_file_stream env content dest s).2 := by
  rw [copy_file_stream]
  by_cases h1 : fsLookup s.fs (tempPath dest) = some .dir
  · rw [if_pos h1]
    exact tempsOk_rfl s
  · rw [if_neg h1]
    simp only []
    rcases hw : writeChunks env dest (tempPath dest) [] content
      { s with fs := fsInsert s.fs (tempPath dest) (.file []) } with ⟨r, s₂⟩
    have hother : ∀ p, p ≠ tempPath dest → fsLookup s₂.fs p = fsLookup s.fs p := by
      intro p hp
      have hwo := writeChunks_fs_other env dest (tempPath dest) content []
        { s with fs := fsInsert s.fs (tempPath dest) (.file []) } p hp
      rw [hw] at hwo
      rw [hwo]
      show fsLookup (fsInsert s.fs (tempPath dest) (.file [])) p = _
      rw [fsLookup_insert, if_neg (fun h => hp h.symm)]
    have herased : ∀ q : Path, isTempName (pathName q) = true →
        fsLookup (fsErase s₂.fs (tempPath dest)) q = fsLookup s.fs q ∨
        fsLookup (fsErase s₂.fs (tempPath dest)) q = none := by
      intro q hq
      by_cases hqt : q = tempPath dest
      · subst hqt
        rw [fsLookup_erase, if_pos rfl]
        exact Or.inr rfl
      · rw [fsLookup_erase, if_neg (fun h => hqt h.symm)]
        exact Or.inl (hother q hqt)
    simp only [tryCleanup]
    cases r with
    | error e =>
      simp only []
      exact herased
    | ok _ =>
      simp only []
      by_cases hio : env.ioFail s₂.tick = true
      · rw [if_pos hio]
        exact herased
      · rw [if_neg hio]
        by_cases hdd : fsLookup s₂.fs dest = some .dir
        · rw [if_pos hdd]
          exact herased
        · rw [if_neg hdd]
          intro q hq
          have hqd : ¬ dest = q := fun h => by rw [← h, hd] at hq; cases hq
          show fsLookup (fsInsert (fsErase s₂.fs (tempPath dest)) dest
            (.file content)) q = _ ∨ fsLookup (fsInsert (fsErase s₂.fs
            (tempPath dest)) dest (.file content)) q = none
          rw [fsLookup_insert, if_neg hqd]
          exact herased q hq

theorem copy_file_tempsOk (env : Env) (srcPath : Path) (content : Content)
    (dest : Path) (s : St) (hcb : cbClean env)
    (hd : isTempName (pathName dest) = false) :
    tempsOk s (copy_file env srcPath content dest s).2 := by
  rw [copy_file]
  by_cases hc : (fsExists s.fs dest && !s.apply_all_overwrite) = true
  · rw [if_pos hc]
    rcases hh : handle_conflict env srcPath dest s with ⟨r, s₂⟩
    have hfs : s₂.fs = s.fs := by
      have h0 := handle_conflict_fs env srcPath dest s
      rw [hh] at h0
      exact h0
    cases r with
    | none =>
      simp only [resolveCase]
      exact tempsOk_of_eq hfs
    | some d2 =>
      simp only [resolveCase]
      have hd2 := handle_conflict_some_clean env srcPath dest s hd hcb d2 s₂ hh
      exact tempsOk_trans (tempsOk_of_eq hfs)
        (copy_file_stream_tempsOk env content d2 s₂ hd2)
  · rw [if_neg hc]
    exact copy_file_stream_tempsOk env content dest s hd

theorem mkdirThen_tempsOk {walk : Path → St → Except Err Unit × St}
    (d : Path) (s : St) (hd : isTempName (pathName d) = false)
    (hwalk : ∀ ss, tempsOk ss (walk d ss).2) :
    tempsOk s (mkdirThen d walk s).2 := by
  rw [mkdirThen]
  rcases hl : fsLookup s.fs d with _ | e
  · refine tempsOk_trans ?_ (hwalk _)
    intro q hq
    refine Or.inl ?_
    show fsLookup (fsInsert s.fs d .dir) q = _
    rw [fsLookup_insert, if_neg (fun h => by rw [← h, hd] at hq; cases hq)]
  · cases e with
    | file c => exact tempsOk_rfl s
    | dir => exact hwalk s

theorem dir_step_tempsOk (env : Env) (srcPath dest : Path) (isRoot : Bool)
    (walk : Path → St → Except Err Unit × St) (s : St)
    (hcb : cbClean env) (hd : isTempName (pathName dest) = false)
    (hwalk : ∀ dd ss, isTempName (pathName dd) = false →
      tempsOk ss (walk dd ss).2) :
    tempsOk s (dir_step env srcPath dest isRoot walk s).2 := by
  rw [dir_step]
  by_cases hroot : isRoot = true
  · rw [if_pos hroot]
    simp only [resolveCase]
    exact mkdirThen_tempsOk dest s hd (fun ss => hwalk dest ss hd)
  · rw [if_neg hroot]
    by_cases hex : fsExists s.fs dest = true
    · rw [if_pos hex]
      rcases hh : handle_conflict env srcPath dest s with ⟨r, s₂⟩
      have hfs : s₂.fs = s.fs := by
        have h0 := handle_conflict_fs env srcPath dest s
        rw [hh] at h0
        exact h0
      cases r with
      | none =>
        simp only [resolveCase]
        exact tempsOk_of_eq hfs
      | some d2 =>
        simp only [resolveCase]
        have hd2 := handle_conflict_some_clean env srcPath dest s hd hcb d2 s₂ hh
        exact tempsOk_trans (tempsOk_of_eq hfs)
          (mkdirThen_tempsOk d2 s₂ hd2 (fun ss => hwalk d2 ss hd2))
    · rw [if_neg hex]
      simp only [resolveCase]
      exact mkdirThen_tempsOk dest s hd (fun ss => hwalk dest ss hd)

theorem copy_entries_tempsOk (env : Env) (hcb : cbClean env) :
    ∀ (d : SrcTree), treeClean d → ∀ (srcPath dest : Path) (s : St),
      tempsOk s (copy_entries env srcPath d dest s).2 := by
  intro d
  induction d with
  | file c => intro _ src dest s; exact tempsOk_rfl s
  | dnil => intro _ src dest s; exact tempsOk_rfl s
  | dcons name child rest ihc ihr =>
    intro ht src dest s
    have ht2 : isTempName name = false ∧ treeClean child ∧ treeClean rest := by
      simp only [treeClean] at ht
      exact ht
    obtain ⟨hn, htc, htr⟩ := ht2
    rw [copy_entries]
    refine andThen_tempsOk (cancelCheck_tempsOk env s) (fun s₁ => ?_)
    refine andThen_tempsOk ?_ (fun s₂ => ihr htr src dest s₂)
    have hnc : isTempName (pathName (dest ++ [name])) = false := by
      rw [pathName_concat]
      exact hn
    cases child with
    | file c =>
      simp only [copy_entry_child]
      exact copy_file_tempsOk env (src ++ [name]) c (dest ++ [name]) s₁ hcb hnc
    | dnil =>
      simp only [copy_entry_child]
      exact dir_step_tempsOk env (src ++ [name]) (dest ++ [name]) false _ s₁
        hcb hnc (fun dd ss _ => ihc htc (src ++ [name]) dd ss)
    | dcons n2 c2 r2 =>
      simp only [copy_entry_child]
      exact dir_step_tempsOk env (src ++ [name]) (dest ++ [name]) false _ s₁
        hcb hnc (fun dd ss _ => ihc htc (src ++ [name]) dd ss)

theorem copy_dir_with_conflicts_tempsOk (env : Env) (srcPath : Path)
    (d : SrcTree) (dest : Path) (isRoot : Bool) (s : St)
    (hcb : cbClean env) (hd : isTempName (pathName dest) = false)
    (ht : treeClean d) :
    tempsOk s (copy_dir_with_conflicts env srcPath d dest isRoot s).2 := by
  rw [copy_dir_with_conflicts]
  exact dir_step_tempsOk env srcPath dest isRoot _ s hcb hd
    (fun dd ss _ => copy_entries_tempsOk env hcb d ht srcPath dd ss)

theorem moveCleanup_fs (env : Env) (srcPath : Path) (s : St) :
    (moveCleanup env srcPath s).fs = s.fs := by
  rw [moveCleanup]
  split
  · split <;> rfl
  · rfl

/-- Cleanliness of an enumerated source pair: the top-level path's
final name and every entry name of the tree are clean. -/
def pairClean (pr : Path × SrcTree) : Prop :=
  isTempName (pathName pr.1) = false ∧ treeClean pr.2

theorem runPairs_tempsOk (env : Env) (hcb : cbClean env) :
    ∀ (pairs : List (Path × SrcTree)), (∀ pr ∈ pairs, pairClean pr) →
      ∀ s, tempsOk s (runPairs env pairs s).2 := by
  intro pairs
  induction pairs with
  | nil => intro _ s; exact tempsOk_rfl s
  | cons pr rest ih =>
    obtain ⟨srcPath, t⟩ := pr
    intro hall s
    obtain ⟨hpn, hpt⟩ := hall _ (List.mem_cons_self _ _)
    have hrest := fun pr hm => hall pr (List.mem_cons_of_mem _ hm)
    rw [runPairs]
    refine andThen_tempsOk (cancelCheck_tempsOk env s) (fun s₁ => ?_)
    have hdest : isTempName (pathName [pathName srcPath]) = false := by
      have hp1 : pathName [pathName srcPath] = pathName srcPath := by
        simp [pathName]
      rw [hp1]
      exact hpn
    rcases hh : handle_conflict env srcPath [pathName srcPath] s₁ with ⟨r, s₂⟩
    have hfs : s₂.fs = s₁.fs := by
      have h0 := handle_conflict_fs env srcPath [pathName srcPath] s₁
      rw [hh] at h0
      exact h0
    cases r with
    | none =>
      simp only [resolveCase]
      refine tempsOk_trans (tempsOk_of_eq hfs) ?_
      exact andThen_tempsOk (cancelCheck_tempsOk env s₂) (fun s₃ => ih hrest s₃)
    | some finalDest =>
      simp only [resolveCase]
      have hfd := handle_conflict_some_clean env srcPath [pathName srcPath] s₁
        hdest hcb finalDest s₂ hh
      refine tempsOk_trans (tempsOk_of_eq hfs) ?_
      refine andThen_tempsOk ?_ (fun s₃ =>
        tempsOk_trans (tempsOk_of_eq (moveCleanup_fs env srcPath s₃))
          (ih hrest _))
      cases t with
      | file c => exact copy_file_tempsOk env srcPath c finalDest s₂ hcb hfd
      | dnil =>
        exact copy_dir_with_conflicts_tempsOk env srcPath .dnil finalDest true s₂
          hcb hfd trivial
      | dcons n2 c2 r2 =>
        exact copy_dir_with_conflicts_tempsOk env srcPath (.dcons n2 c2 r2)
          finalDest true s₂ hcb hfd hpt

/-- Cleanliness of a requested source. -/
def sourceClean (so : Source) : Prop :=
  isTempName (pathName so.path) = false ∧
    ∀ t, so.tree = some t → treeClean t

theorem enumerate_pairClean (sources : List Source)
    (hsrc : ∀ so ∈ sources, sourceClean so) :
    ∀ pr ∈ enumerate sources, pairClean pr := by
  intro pr hm
  rw [enumerate, List.mem_filterMap] at hm
  obtain ⟨so, hso, hmap⟩ := hm
  cases hst : so.tree with
  | none =>
    rw [hst] at hmap
    cases hmap
  | some t =>
    rw [hst] at hmap
    obtain ⟨h1, h2⟩ := hsrc so hso
    cases hmap
    exact ⟨h1, h2 t hst⟩

/-- A whole transfer run leaves a temp-free filesystem temp-free. -/
theorem run_noTemps (env : Env) (sources : List Source) (fs : FS)
    (hcb : cbClean env) (hsrc : ∀ so ∈ sources, sourceClean so)
    (hn : noTemps fs) : noTemps (run env sources (initSt fs)).fs := by
  rw [run]
  rcases hr : runPairs env (enumerate sources) (runInit sources (initSt fs))
    with ⟨r, s₂⟩
  have htk := runPairs_tempsOk env hcb (enumerate sources)
    (enumerate_pairClean sources hsrc) (runInit sources (initSt fs))
  rw [hr] at htk
  have hmain : noTemps s₂.fs := by
    intro q hq
    rcases htk q hq with h | h
    · rw [h]
      exact hn q hq
    · exact h
  cases r with
  | ok _ => exact hmain
  | error e => exact hmain


theorem finishedCount_zero_of {Δ : List Ev}
    (h : ∀ e ∈ Δ, ∀ b m, e ≠ Ev.finished b m) : finishedCount Δ = 0 := by
  rw [finishedCount, List.length_eq_zero, List.filter_eq_nil_iff]
  intro e he
  cases e with
  | progress a b => simp
  | fileProg p => simp
  | finished b m => exact fun _ => h _ he b m rfl
  | conflictQuery a b => simp

/-- Claim C3 (amended): a transfer run emits `finished` exactly once
and as its final event; a successful run carries the empty error
string; a run on which cancellation is requested from the start and
which reaches at least one cancellation checkpoint (its enumeration is
non-empty) finishes with `(False, "Cancelled")`, distinguishable from
other failures; and a run over clean-named sources with a clean-named
callback leaves a temp-free destination filesystem temp-free, so a
cancelled multi-file transfer leaves zero `.part` files behind.  (The
unamended claim is false: a cancellation request that no checkpoint
observes - for example when every source was skipped at enumeration -
ends in `finished(True, "")`.) -/
theorem claim_C3_finished_once_cancel_temps (env : Env)
    (sources : List Source) (fs : FS) (hcb : cbClean env)
    (hsrc : ∀ so ∈ sources, sourceClean so) (hn : noTemps fs) :
    ∃ Δ b m,
      (run env sources (initSt fs)).events =
        [Ev.progress 0 (compute_total (enumerate sources))] ++ Δ
          ++ [Ev.finished b m] ∧
      finishedCount (run env sources (initSt fs)).events = 1 ∧
      (b = true → m = "") ∧
      ((∀ t, env.cancelReq t = true) → enumerate sources ≠ [] →
        b = false ∧ m = "Cancelled") ∧
      noTemps (run env sources (initSt fs)).fs := by
  have hnt := run_noTemps env sources fs hcb hsrc hn
  rw [run] at hnt ⊢
  rcases hr : runPairs env (enumerate sources) (runInit sources (initSt fs))
    with ⟨r, s₂⟩
  rw [hr] at hnt
  have hf := runPairs_frame env (enumerate sources) (runInit sources (initSt fs))
  rw [hr] at hf
  obtain ⟨ht, Δ, he, hnf, hp⟩ := hf
  have hinit_ev : (runInit sources (initSt fs)).events =
      [Ev.progress 0 (compute_total (enumerate sources))] := rfl
  have hcancel : (∀ t, env.cancelReq t = true) → enumerate sources ≠ [] →
      r = Except.error Err.cancelled := by
    intro hreq hne
    cases hpz : enumerate sources with
    | nil => exact absurd hpz hne
    | cons p ps =>
      rw [hpz] at hr
      obtain ⟨srcPath, t⟩ := p
      rw [runPairs, andThen_cancelCheck] at hr
      rw [if_pos (by rw [hreq]; simp)] at hr
      cases hr
      rfl
  cases r with
  | ok _ =>
    refine ⟨Δ, true, "", ?_, ?_, fun _ => rfl, ?_, hnt⟩
    · show s₂.events ++ [Ev.finished true ""] = _
      rw [he, hinit_ev]
    · show finishedCount (s₂.events ++ [Ev.finished true ""]) = 1
      rw [he, hinit_ev, finishedCount_append, finishedCount_append,
        finishedCount_zero_of hnf]
      rfl
    · intro hreq hne
      cases hcancel hreq hne
  | error e =>
    refine ⟨Δ, false, errMsg e, ?_, ?_, ?_, ?_, hnt⟩
    · show s₂.events ++ [Ev.finished false (errMsg e)] = _
      rw [he, hinit_ev]
    · show finishedCount (s₂.events ++ [Ev.finished false (errMsg e)]) = 1
      rw [he, hinit_ev, finishedCount_append, finishedCount_append,
        finishedCount_zero_of hnf]
      rfl
    · intro hcon
      cases hcon
    · intro hreq hne
      have hce := hcancel hreq hne
      injection hce with hce2
      rw [hce2]
      exact ⟨rfl, rfl⟩

/-- Claim C3 counterexample: cancellation is requested from the very
start (`cancelReq` is constantly true), but the single requested source
does not exist, so the enumeration is empty, no cancellation checkpoint
ever runs, and the task reports `finished(True, "")` instead of the
claimed `(False, "Cancelled")`. -/
theorem claim_C3_counterexample :
    (run { benignEnv with cancelReq := fun _ => true }
        [{ path := ["s", "x"], tree := none }] (initSt [])).events
      = [Ev.progress 0 1, Ev.finished true ""] := by
  rfl

theorem claim_C3_witness :
    noTemps ([] : FS) ∧
    ∃ Δ b m,
      (run benignEnv [{ path := ["s", "a"], tree := some (.file [[1]]) }]
          (initSt [])).events =
        [Ev.progress 0 (compute_total (enumerate
          [{ path := ["s", "a"], tree := some (.file [[1]]) }]))] ++ Δ
          ++ [Ev.finished b m] ∧
      finishedCount (run benignEnv
        [{ path := ["s", "a"], tree := some (.file [[1]]) }]
        (initSt [])).events = 1 ∧
      (b = true → m = "") ∧
      ((∀ t, benignEnv.cancelReq t = true) →
        enumerate [{ path := ["s", "a"], tree := some (.file [[1]]) }] ≠ [] →
        b = false ∧ m = "Cancelled") ∧
      noTemps (run benignEnv
        [{ path := ["s", "a"], tree := some (.file [[1]]) }]
        (initSt [])).fs := by
  refine ⟨fun p _ => rfl, ?_⟩
  refine claim_C3_finished_once_cancel_temps benignEnv _ [] ?_ ?_ (fun p _ => rfl)
  · intro cb h
    exact nomatch h
  · intro so hm
    rw [List.mem_singleton] at hm
    subst hm
    exact ⟨rfl, fun t htt => by cases htt; trivial⟩


theorem allTotalsEq_of_const (evs : List Ev) (T : Nat)
    (h : ∀ t ∈ progressTotals evs, t = T) : allTotalsEq evs = true := by
  rw [allTotalsEq]
  cases hpt : progressTotals evs with
  | nil => rfl
  | cons t0 ts =>
    rw [List.all_eq_true]
    intro x hx
    have hx2 : x = T := h x (by rw [hpt]; exact List.mem_cons_of_mem _ hx)
    have ht0 : t0 = T := h t0 (by rw [hpt]; exact List.mem_cons_self _ _)
    rw [hx2, ht0]
    simp

theorem progressTotals_mem {Δ : List Ev} {t : Nat}
    (h : t ∈ progressTotals Δ) : ∃ dn, Ev.progress dn t ∈ Δ := by
  rw [progressTotals, List.mem_filterMap] at h
  obtain ⟨e, he, hmap⟩ := h
  cases e with
  | progress dn tt =>
    refine ⟨dn, ?_⟩
    have htt : tt = t := by simpa using hmap
    rw [← htt]
    exact he
  | fileProg p => cases hmap
  | finished b m => cases hmap
  | conflictQuery a b2 => cases hmap

/-- Claim C4 counterexample: a download whose HEAD request yields no
usable `Content-Length` starts with the floor estimate `total = 1`, and
`_download_single` then raises `_total` to `max(_total, _done)` after
every chunk, so an 8-byte body in two chunks emits progress totals
`[1, 5, 8]` - the total is recomputed mid-transfer, violating the
claimed task-wide constancy. -/
theorem claim_C4_counterexample :
    ¬ (allTotalsEq (runDownload benignEnv
        [{ headLen := none, body := some [[1, 2, 3, 4, 5], [6, 7, 8]],
           filename := "f", tempName := "f.tmp" }]
        (initDlSt [])).events = true) := by
  decide

/-- Claim C4 (amended): a transfer task's total is `compute_total`, at
least 1, fixed before the initial progress event and carried unchanged
by every progress emission of the run; a download task's initial
estimate is also at least 1 and precedes the first progress event, but
the total may be raised mid-transfer to `max(total, done)`: the emitted
totals form a non-decreasing sequence whose every element is at least
1, rather than a constant one. -/
theorem claim_C4_total_transfer_fixed_download_monotone (env : Env)
    (sources : List Source) (srcs : List DlSource) (fs fs2 : FS) :
    (1 ≤ compute_total (enumerate sources) ∧
      allTotalsEq (run env sources (initSt fs)).events = true ∧
      progressTotals (run env sources (initSt fs)).events ≠ []) ∧
    (1 ≤ compute_total_estimate srcs ∧
      List.Chain' (· ≤ ·)
        (progressTotals (runDownload env srcs (initDlSt fs2)).events) ∧
      ∀ t ∈ progressTotals (runDownload env srcs (initDlSt fs2)).events,
        1 ≤ t) := by
  constructor
  · obtain ⟨Δ, b, m, heq, hnf, hp, _⟩ := run_events env sources (initSt fs)
    have h0 : (initSt fs).events = [] := rfl
    rw [h0] at heq
    have hpt : progressTotals (run env sources (initSt fs)).events =
        compute_total (enumerate sources) :: progressTotals Δ := by
      rw [heq]
      simp [progressTotals]
    refine ⟨Nat.le_max_left _ _, ?_, ?_⟩
    · refine allTotalsEq_of_const _ (compute_total (enumerate sources)) ?_
      intro t hmem
      rw [hpt] at hmem
      rcases List.mem_cons.mp hmem with h | h
      · exact h
      · obtain ⟨dn, hdn⟩ := progressTotals_mem h
        exact hp dn t hdn
    · rw [hpt]
      simp
  · obtain ⟨Δ, b, m, heq, hnf, hchain, hone⟩ :=
      runDownload_events env srcs (initDlSt fs2)
    have h0 : (initDlSt fs2).events = [] := rfl
    rw [h0] at heq
    have hpt : progressTotals (runDownload env srcs (initDlSt fs2)).events =
        compute_total_estimate srcs :: progressTotals Δ := by
      rw [heq]
      simp [progressTotals]
    refine ⟨Nat.le_max_right _ _, ?_, ?_⟩
    · rw [hpt]
      exact hchain
    · intro t hmem
      rw [hpt] at hmem
      rcases List.mem_cons.mp hmem with h | h
      · rw [h]
        exact Nat.le_max_right _ _
      · exact hone t h


/-- Claim C6: `suggest_rename` on a path with stem S and suffix X tries
`S (2)X`, `S (3)X`, … in order - numbering starts at 2 - and returns
the first candidate that does not exist; and after creating an entry at
the suggested path, a second call yields a different, still-nonexistent
path. -/
theorem claim_C6_suggest_rename_first_free (fs : FS) (p : Path) (e : Entry) :
    (∃ m, 2 ≤ m ∧
      suggest_rename fs p = renameCandidate p.dropLast
        (splitStemSuffix (pathName p)).1 (splitStemSuffix (pathName p)).2 m ∧
      fsExists fs (suggest_rename fs p) = false ∧
      ∀ k, 2 ≤ k → k < m →
        fsExists fs (renameCandidate p.dropLast
          (splitStemSuffix (pathName p)).1 (splitStemSuffix (pathName p)).2 k)
          = true) ∧
    suggest_rename (fsInsert fs (suggest_rename fs p) e) p
      ≠ suggest_rename fs p ∧
    fsExists (fsInsert fs (suggest_rename fs p) e)
      (suggest_rename (fsInsert fs (suggest_rename fs p) e) p) = false := by
  refine ⟨suggest_rename_spec fs p, ?_, suggest_rename_not_exists _ p⟩
  intro hcon
  have h2 := suggest_rename_not_exists (fsInsert fs (suggest_rename fs p) e) p
  rw [hcon, fsExists, fsLookup_insert, if_pos rfl] at h2
  cases h2

/-- Claim C8 counterexample: a callback decision whose action is the
unrecognized string `"banana"` makes the transfer task fall through
`_handle_conflict` to `return dest`: the task proceeds at the original
destination and overwrites the existing file (content `[[9]]` becomes
`[[7]]`), instead of continuing at a fresh non-existing path. -/
theorem claim_C8_counterexample :
    fsLookup (run { benignEnv with callback := some (fun _ _ =>
        some { action := "banana" }) }
      [{ path := ["s", "f"], tree := some (.file [[7]]) }]
      (initSt [(["f"], Entry.file [[9]])])).fs ["f"]
      = some (Entry.file [[7]]) := by
  rfl

/-- Claim C8 (amended): when no callback is supplied, or the callback
returns no decision, the transfer task defaults to rename: it proceeds
at `suggest_rename`'s fresh non-existing path.  But a decision whose
action is not one of overwrite/rename/skip/cancel is not treated as
rename: the transfer task falls through to the original destination
(overwriting it), and the download task discards the temp file
(skipping). -/
theorem claim_C8_default_rename_unknown_falls_through (env : Env)
    (src dest tempP : Path) (s : St)
    (hex : fsExists s.fs dest = true) (haa : s.apply_all_overwrite = false) :
    (env.callback = none →
      handle_conflict env src dest s = (some (suggest_rename s.fs dest), s) ∧
      fsExists s.fs (suggest_rename s.fs dest) = false) ∧
    (∀ cb, env.callback = some cb → cb dest src = none →
      handle_conflict env src dest s =
        (some (suggest_rename s.fs dest),
         { s with events := s.events ++ [Ev.conflictQuery dest src] }) ∧
      fsExists s.fs (suggest_rename s.fs dest) = false) ∧
    (∀ cb dec, env.callback = some cb → cb dest src = some dec →
      dec.action ≠ "overwrite" → dec.action ≠ "rename" →
      dec.action ≠ "skip" → dec.action ≠ "cancel" →
      handle_conflict env src dest s =
        (some dest,
         { s with events := s.events ++ [Ev.conflictQuery dest src] })) ∧
    (∀ dec : ConflictDecision, dec.action ≠ "overwrite" →
      dec.action ≠ "rename" → dec.action ≠ "skip" → dec.action ≠ "cancel" →
      finalize_decision env tempP dest dec s =
        (.ok (), { s with fs := fsErase s.fs tempP })) := by
  have hex2 : ¬ fsExists s.fs dest = false := by
    rw [hex]
    simp
  have haa2 : ¬ s.apply_all_overwrite = true := by
    rw [haa]
    simp
  refine ⟨?_, ?_, ?_, ?_⟩
  · intro hcbn
    rw [handle_conflict, if_neg hex2, if_neg haa2, hcbn]
    simp only [Option.getD_none]
    exact ⟨by rw [if_neg (by decide), if_pos trivial], suggest_rename_not_exists s.fs dest⟩
  · intro cb hcbv hnone
    rw [handle_conflict, if_neg hex2, if_neg haa2, hcbv]
    simp only [hnone, Option.getD_none]
    exact ⟨by rw [if_neg (by decide), if_pos trivial], suggest_rename_not_exists s.fs dest⟩
  · intro cb dec hcbv hdec h1 h2 h3 h4
    rw [handle_conflict, if_neg hex2, if_neg haa2, hcbv]
    simp only [hdec, Option.getD_some]
    rw [if_neg h1, if_neg h2, if_neg h3, if_neg h4]
  · intro dec h1 h2 h3 h4
    rw [finalize_decision, if_neg h1, if_neg h2, if_neg h3, if_neg h4]

theorem claim_C8_witness :
    fsExists [(["f"], Entry.dir)] ["f"] = true ∧
    finalize_decision benignEnv ["t.part"] ["f"] { action := "banana" }
        (initSt [(["f"], Entry.dir)]) =
      (.ok (), { initSt [(["f"], Entry.dir)] with
                  fs := fsErase [(["f"], Entry.dir)] ["t.part"] }) := by
  refine ⟨by decide, ?_⟩
  exact (claim_C8_default_rename_unknown_falls_through benignEnv ["s", "f"]
      ["f"] ["t.part"] (initSt [(["f"], Entry.dir)]) (by decide) rfl).2.2.2
    { action := "banana" } (by decide) (by decide) (by decide) (by decide)

/-- The shared tail of an overwriting download finalization: once the
occupant of `dest` has been deleted recursively, `replace_step` moves
the temp file onto `dest` and the whole subtree that was rooted there
is gone. -/
theorem replace_step_after_overwrite (env : Env) (tempP dest : Path)
    (s : St) (c : Content)
    (htemp : fsLookup s.fs tempP = some (Entry.file c))
    (hnp : dest.isPrefixOf tempP = false)
    (hnf : ∀ t, env.ioFail t = false) :
    ∀ s1 : St, s1.fs = fsRemoveTree s.fs dest →
      ∃ s2, replace_step env tempP dest s1 = (.ok (), s2) ∧
        fsLookup s2.fs dest = some (.file c) ∧
        (∀ q, dest.isPrefixOf q = true → q ≠ dest → fsLookup s2.fs q = none) := by
  intro s1 hfs1
  have hself : dest.isPrefixOf dest = true :=
    List.isPrefixOf_iff_prefix.mpr (List.prefix_refl dest)
  rw [replace_step]
  rw [if_neg (by rw [hnf]; simp)]
  have hd1 : fsLookup s1.fs dest = none := by
    rw [hfs1, fsLookup_removeTree, if_pos hself]
  rw [if_neg (by rw [hd1]; simp)]
  have ht1 : fsLookup s1.fs tempP = some (Entry.file c) := by
    rw [hfs1, fsLookup_removeTree, if_neg (by rw [hnp]; simp), htemp]
  rw [ht1]
  refine ⟨_, rfl, ?_, ?_⟩
  · show fsLookup (fsInsert (fsErase s1.fs tempP) dest (.file c)) dest = _
    rw [fsLookup_insert, if_pos rfl]
  · intro q hq hqne
    have hqt : q ≠ tempP := by
      intro h
      rw [h, hnp] at hq
      cases hq
    show fsLookup (fsInsert (fsErase s1.fs tempP) dest (.file c)) q = none
    rw [fsLookup_insert, if_neg (fun h => hqne h.symm),
      fsLookup_erase, if_neg (fun h => hqt h.symm), hfs1,
      fsLookup_removeTree, if_pos hq]

/-- Claim C10: when a download's final destination already exists and
the resolution is overwrite - either because apply-all overwrite is
latched or because the callback answers overwrite - the occupant of the
destination is deleted before the temp file is renamed into place,
recursively when it is a directory: afterwards the destination holds
the downloaded file and every path that was strictly below it is
gone. -/
theorem claim_C10_overwrite_removes_tree (env : Env) (tempP dest : Path)
    (s : St) (c : Content)
    (hdir : fsLookup s.fs dest = some Entry.dir)
    (htemp : fsLookup s.fs tempP = some (Entry.file c))
    (hnp : dest.isPrefixOf tempP = false)
    (hnf : ∀ t, env.ioFail t = false) :
    (s.apply_all_overwrite = true →
      ∃ s2, finalize_download env tempP dest s = (.ok (), s2) ∧
        fsLookup s2.fs dest = some (.file c) ∧
        (∀ q, dest.isPrefixOf q = true → q ≠ dest →
          fsLookup s2.fs q = none)) ∧
    (∀ cb dec, s.apply_all_overwrite = false → env.callback = some cb →
      cb dest tempP = some dec → dec.action = "overwrite" →
      ∃ s2, finalize_download env tempP dest s = (.ok (), s2) ∧
        fsLookup s2.fs dest = some (.file c) ∧
        (∀ q, dest.isPrefixOf q = true → q ≠ dest →
          fsLookup s2.fs q = none)) := by
  have hex : fsExists s.fs dest = true := by
    rw [fsExists, hdir]
    rfl
  constructor
  · intro haa
    rw [finalize_download]
    rw [if_pos hex, if_pos haa]
    refine replace_step_after_overwrite env tempP dest s c htemp hnp hnf _ ?_
    show (overwrite_existing s.fs dest) = _
    rw [overwrite_existing, hdir]
  · intro cb dec haa hcbv hdec hact
    rw [finalize_download]
    rw [if_pos hex, if_neg (by rw [haa]; simp)]
    rw [request_conflict, hcbv]
    simp only [hdec, Option.getD_some]
    rw [if_neg (by rw [hact]; simp)]
    rw [finalize_decision, if_pos hact]
    by_cases hap : dec.apply_all = true
    · rw [if_pos hap]
      refine replace_step_after_overwrite env tempP dest _ c htemp hnp hnf _ ?_
      show (overwrite_existing s.fs dest) = fsRemoveTree _ dest
      rw [overwrite_existing, hdir]
    · rw [if_neg hap]
      refine replace_step_after_overwrite env tempP dest _ c htemp hnp hnf _ ?_
      show (overwrite_existing s.fs dest) = fsRemoveTree _ dest
      rw [overwrite_existing, hdir]

theorem claim_C10_witness :
    fsLookup [(["d"], Entry.dir), (["d", "x"], Entry.file [[1]]),
        (["t.tmp"], Entry.file [[5]])] ["d"] = some Entry.dir ∧
    ∃ s2, finalize_download
        { benignEnv with callback := some (fun _ _ =>
            some { action := "overwrite" }) } ["t.tmp"] ["d"]
        (initDlSt [(["d"], Entry.dir), (["d", "x"], Entry.file [[1]]),
          (["t.tmp"], Entry.file [[5]])]) = (.ok (), s2) ∧
      fsLookup s2.fs ["d"] = some (.file [[5]]) ∧
      (∀ q, (["d"] : Path).isPrefixOf q = true → q ≠ ["d"] →
        fsLookup s2.fs q = none) := by
  refine ⟨by decide, ?_⟩
  exact (claim_C10_overwrite_removes_tree
      { benignEnv with callback := some (fun _ _ =>
          some { action := "overwrite" }) } ["t.tmp"] ["d"] _ [[5]]
      (by decide) (by decide) (by decide) (fun t => rfl)).2
    (fun _ _ => some { action := "overwrite" }) { action := "overwrite" }
    rfl rfl rfl rfl


theorem fsLookup_eq_none_of_not_exists {fs : FS} {q : Path}
    (h : fsExists fs q = false) : fsLookup fs q = none := by
  rw [fsExists] at h
  cases hl : fsLookup fs q with
  | none => rfl
  | some e => rw [hl] at h; cases h

/-- The pair loop on a single non-conflicting file: the copy runs, then
the move semantics of `_run` delete the source - or tolerate the
deletion failing - and the loop returns success either way. -/
theorem runPairs_single_file (env : Env) (p : Path) (c : Content) (s : St)
    (hnc : ∀ t, env.cancelReq t = false) (hnf : ∀ t, env.ioFail t = false)
    (hcf : s.cancelFlag = false)
    (hnex : fsExists s.fs [pathName p] = false)
    (htmp : fsLookup s.fs (tempPath [pathName p]) ≠ some Entry.dir)
    (hrs : s.removedSrcs = []) (hmv : env.move = true) :
    ∃ s2, runPairs env [(p, SrcTree.file c)] s = (.ok (), s2) ∧
      fsLookup s2.fs [pathName p] = some (.file c) ∧
      fsLookup s2.fs (tempPath [pathName p]) = none ∧
      (∀ q, q ≠ [pathName p] → q ≠ tempPath [pathName p] →
        fsLookup s2.fs q = fsLookup s.fs q) ∧
      (env.srcDelOk = true → s2.removedSrcs = [p]) ∧
      (env.srcDelOk = false → s2.removedSrcs = []) := by
  rw [runPairs, andThen_cancelCheck, if_neg (by rw [hcf, hnc]; simp)]
  have hex2 : fsExists (cancelBump env s).fs [pathName p] = false := by
    rw [cancelBump_fs]
    exact hnex
  have hhc : handle_conflict env p [pathName p] (cancelBump env s) =
      (some [pathName p], cancelBump env s) := by
    rw [handle_conflict, if_pos hex2]
  rw [hhc]
  simp only [resolveCase]
  have hcp : copy_file env p c [pathName p] (cancelBump env s) =
      copy_file_stream env c [pathName p] (cancelBump env s) := by
    rw [copy_file, if_neg (by rw [hex2]; simp)]
  have htemp2 : fsLookup (cancelBump env s).fs (tempPath [pathName p])
      ≠ some Entry.dir := by
    rw [cancelBump_fs]
    exact htmp
  have hdest2 : fsLookup (cancelBump env s).fs [pathName p]
      ≠ some Entry.dir := by
    rw [cancelBump_fs, fsLookup_eq_none_of_not_exists hnex]
    simp
  obtain ⟨s3, heq3, hcf3, haa3, ht3, hrs3, hfs3, Δ, hev3, hp3, hq3, hf3⟩ :=
    copy_file_stream_ok env hnc hnf c [pathName p] (cancelBump env s)
      (cancelBump_flag_false hnc hcf) htemp2 hdest2
  rw [hcp, heq3]
  simp only [andThen]
  have hcont : s3.removedSrcs.contains p = false := by
    rw [hrs3, cancelBump_removedSrcs, hrs]
    rfl
  rw [moveCleanup, if_pos (by rw [hmv, hcont]; rfl)]
  have hlook : ∀ fsx : FS, fsx = s3.fs →
      fsLookup fsx [pathName p] = some (.file c) ∧
      fsLookup fsx (tempPath [pathName p]) = none ∧
      (∀ q, q ≠ [pathName p] → q ≠ tempPath [pathName p] →
        fsLookup fsx q = fsLookup s.fs q) := by
    intro fsx hx
    subst hx
    refine ⟨?_, ?_, ?_⟩
    · rw [hfs3, if_pos rfl]
    · rw [hfs3, if_neg (tempPath_ne [pathName p]), if_pos rfl]
    · intro q h1 h2
      rw [hfs3, if_neg h1, if_neg h2, cancelBump_fs]
  by_cases hdel : env.srcDelOk = true
  · rw [if_pos hdel]
    rw [runPairs]
    obtain ⟨ha, hb, hc2⟩ := hlook _ rfl
    refine ⟨_, rfl, ha, hb, hc2, fun _ => ?_, fun hcon => ?_⟩
    · show s3.removedSrcs ++ [p] = [p]
      rw [hrs3, cancelBump_removedSrcs, hrs]
      rfl
    · rw [hdel] at hcon
      cases hcon
  · rw [if_neg hdel]
    rw [runPairs]
    obtain ⟨ha, hb, hc2⟩ := hlook _ rfl
    refine ⟨_, rfl, ha, hb, hc2, fun hcon => absurd hcon hdel, fun _ => ?_⟩
    rw [hrs3, cancelBump_removedSrcs, hrs]

/-- Claim C7: a non-conflicting move of one file is copy-then-delete:
after the run the destination holds a byte-identical copy under the
source's basename, no other path changed (and no temp file remains),
the source was removed exactly when deleting it succeeds, and the task
reports `finished(True, "")` even when the source deletion fails. -/
theorem claim_C7_move_copy_then_delete (env : Env) (p : Path) (c : Content)
    (fs : FS) (hmv : env.move = true)
    (hnc : ∀ t, env.cancelReq t = false) (hnf : ∀ t, env.ioFail t = false)
    (hnex : fsExists fs [pathName p] = false)
    (htmp : fsLookup fs (tempPath [pathName p]) ≠ some Entry.dir) :
    ∃ s2, run env [{ path := p, tree := some (.file c) }] (initSt fs) = s2 ∧
      fsLookup s2.fs [pathName p] = some (.file c) ∧
      fsLookup s2.fs (tempPath [pathName p]) = none ∧
      (∀ q, q ≠ [pathName p] → q ≠ tempPath [pathName p] →
        fsLookup s2.fs q = fsLookup fs q) ∧
      s2.events.getLast? = some (Ev.finished true "") ∧
      (env.srcDelOk = true → s2.removedSrcs = [p]) ∧
      (env.srcDelOk = false → s2.removedSrcs = []) := by
  have henum : enumerate [{ path := p, tree := some (.file c) }]
      = [(p, SrcTree.file c)] := rfl
  obtain ⟨s2, heq, ha, hb, hc2, hd, he⟩ := runPairs_single_file env p c
    (runInit [{ path := p, tree := some (.file c) }] (initSt fs))
    hnc hnf rfl hnex htmp rfl hmv
  rw [run, henum, heq]
  refine ⟨_, rfl, ha, hb, ?_, ?_, hd, he⟩
  · intro q h1 h2
    exact hc2 q h1 h2
  · show (s2.events ++ [Ev.finished true ""]).getLast? = _
    rw [List.getLast?_concat]

theorem claim_C7_witness :
    ({ benignEnv with move := true } : Env).move = true ∧
    ∃ s2, run { benignEnv with move := true }
        [{ path := ["s", "a"], tree := some (.file [[1, 2]]) }]
        (initSt []) = s2 ∧
      fsLookup s2.fs ["a"] = some (.file [[1, 2]]) ∧
      s2.events.getLast? = some (Ev.finished true "") ∧
      s2.removedSrcs = [["s", "a"]] := by
  refine ⟨rfl, ?_⟩
  obtain ⟨s2, heq, ha, _, _, hd, he, hf⟩ :=
    claim_C7_move_copy_then_delete { benignEnv with move := true }
      ["s", "a"] [[1, 2]] [] rfl (fun t => rfl) (fun t => rfl)
      (by decide) (by decide)
  exact ⟨s2, heq, ha, hd, he rfl⟩


/-! ## Conflict-count bookkeeping for directory copies

`_copy_dir_with_conflicts` queries the callback once per entry that
already exists at the destination (and `_run` once for the top-level
destination).  The bookkeeping below predicts this count from the
filesystem at entry: `conflictCount` counts presently-existing entry
paths, `treeOk` states the kind-compatibility the walk needs to
complete, `treeFree` that a subtree's destination paths are all absent,
and `underTree` bounds the paths the walk may touch. -/

/-- The entry names of a directory listing spine. -/
def spineNames : SrcTree → List String
  | .file _ => []
  | .dnil => []
  | .dcons name _ rest => name :: spineNames rest

/-- `iterdir()` lists each name once, at every level. -/
def treeNodup : SrcTree → Prop
  | .file _ => True
  | .dnil => True
  | .dcons name child rest =>
      name ∉ spineNames rest ∧ treeNodup child ∧ treeNodup rest

/-- Is `q` equal to or below one of the listing's entry paths? -/
def underTree (dest : Path) : SrcTree → Path → Bool
  | .file _, _ => false
  | .dnil, _ => false
  | .dcons name _ rest, q =>
      (dest ++ [name]).isPrefixOf q || underTree dest rest q

/-- No destination path of the subtree below `dest` is present. -/
def treeFree (fs : FS) (dest : Path) : SrcTree → Prop
  | .file _ => True
  | .dnil => True
  | .dcons name child rest =>
      fsLookup fs (dest ++ [name]) = none ∧
      treeFree fs (dest ++ [name]) child ∧
      treeFree fs dest rest

/-- Kind-compatibility of the listing with the destination's occupants:
a file entry may meet anything but a directory, a directory entry may
meet a directory (recursing into it) or nothing (its subtree is then
absent as well). -/
def treeOk (fs : FS) (dest : Path) : SrcTree → Prop
  | .file _ => True
  | .dnil => True
  | .dcons name child rest =>
      (match child, fsLookup fs (dest ++ [name]) with
       | .file _, e => e ≠ some Entry.dir
       | _, some Entry.dir => treeOk fs (dest ++ [name]) child
       | _, some (Entry.file _) => False
       | _, none => treeFree fs (dest ++ [name]) child) ∧
      treeOk fs dest rest

/-- How many conflict queries the walk of the listing will raise: one
per entry that presently exists, plus the inner conflicts of directory
entries. -/
def conflictCount (fs : FS) (dest : Path) : SrcTree → Nat
  | .file _ => 0
  | .dnil => 0
  | .dcons name child rest =>
      (if fsExists fs (dest ++ [name]) then
        1 + conflictCount fs (dest ++ [name]) child
      else 0) + conflictCount fs dest rest

theorem isPrefixOf_self (p : Path) : p.isPrefixOf p = true :=
  List.isPrefixOf_iff_prefix.mpr (List.prefix_refl p)

theorem isPrefixOf_trans {a b c : Path} (h1 : a.isPrefixOf b = true)
    (h2 : b.isPrefixOf c = true) : a.isPrefixOf c = true :=
  List.isPrefixOf_iff_prefix.mpr
    ((List.isPrefixOf_iff_prefix.mp h1).trans (List.isPrefixOf_iff_prefix.mp h2))

theorem isPrefixOf_append_right (p q : Path) : p.isPrefixOf (p ++ q) = true :=
  List.isPrefixOf_iff_prefix.mpr (List.prefix_append p q)

theorem underTree_prefixOf (p : Path) :
    ∀ (d : SrcTree) (q : Path), underTree p d q = true →
      p.isPrefixOf q = true := by
  intro d
  induction d with
  | file c => intro q h; cases h
  | dnil => intro q h; cases h
  | dcons name child rest ihc ihr =>
    intro q h
    rw [underTree] at h
    rcases Bool.or_eq_true_iff.mp h with h1 | h2
    · exact isPrefixOf_trans (isPrefixOf_append_right p [name]) h1
    · exact ihr q h2

theorem underTree_self (dest : Path) (name : String) (child rest : SrcTree) :
    underTree dest (.dcons name child rest) (dest ++ [name]) = true := by
  rw [underTree, isPrefixOf_self]
  rfl

theorem underTree_child {dest : Path} {name : String} {child rest : SrcTree}
    {q : Path} (h : underTree (dest ++ [name]) child q = true) :
    underTree dest (.dcons name child rest) q = true := by
  rw [underTree, underTree_prefixOf (dest ++ [name]) child q h]
  rfl

theorem underTree_rest {dest : Path} {name : String} {child rest : SrcTree}
    {q : Path} (h : underTree dest rest q = true) :
    underTree dest (.dcons name child rest) q = true := by
  rw [underTree, h]
  simp

theorem treeFree_congr (fs fs2 : FS) :
    ∀ (d : SrcTree) (dest : Path), treeClean d →
      (∀ q, underTree dest d q = true → isTempName (pathName q) = false →
        fsLookup fs2 q = fsLookup fs q) →
      treeFree fs dest d → treeFree fs2 dest d := by
  intro d
  induction d with
  | file c => intro dest _ _ _; trivial
  | dnil => intro dest _ _ _; trivial
  | dcons name child rest ihc ihr =>
    intro dest hc hag hf
    have hc2 : isTempName name = false ∧ treeClean child ∧ treeClean rest := by
      simp only [treeClean] at hc
      exact hc
    obtain ⟨hn, hcc, hcr⟩ := hc2
    have hf2 : fsLookup fs (dest ++ [name]) = none ∧
        treeFree fs (dest ++ [name]) child ∧ treeFree fs dest rest := by
      simp only [treeFree] at hf
      exact hf
    obtain ⟨h1, h2, h3⟩ := hf2
    have hcleanN : isTempName (pathName (dest ++ [name])) = false := by
      rw [pathName_concat]
      exact hn
    have goal2 : fsLookup fs2 (dest ++ [name]) = none ∧
        treeFree fs2 (dest ++ [name]) child ∧ treeFree fs2 dest rest := by
      refine ⟨?_, ?_, ?_⟩
      · rw [hag _ (underTree_self dest name child rest) hcleanN, h1]
      · exact ihc (dest ++ [name]) hcc
          (fun q hq hcq => hag q (underTree_child hq) hcq) h2
      · exact ihr dest hcr (fun q hq hcq => hag q (underTree_rest hq) hcq) h3
    simp only [treeFree]
    exact goal2

theorem treeOk_congr (fs fs2 : FS) :
    ∀ (d : SrcTree) (dest : Path), treeClean d →
      (∀ q, underTree dest d q = true → isTempName (pathName q) = false →
        fsLookup fs2 q = fsLookup fs q) →
      treeOk fs dest d → treeOk fs2 dest d := by
  intro d
  induction d with
  | file c => intro dest _ _ _; trivial
  | dnil => intro dest _ _ _; trivial
  | dcons name child rest ihc ihr =>
    intro dest hc hag hok
    have hc2 : isTempName name = false ∧ treeClean child ∧ treeClean rest := by
      simp only [treeClean] at hc
      exact hc
    obtain ⟨hn, hcc, hcr⟩ := hc2
    simp only [treeOk] at hok ⊢
    obtain ⟨h1, h2⟩ := hok
    have hcleanN : isTempName (pathName (dest ++ [name])) = false := by
      rw [pathName_concat]
      exact hn
    have hlk : fsLookup fs2 (dest ++ [name]) = fsLookup fs (dest ++ [name]) :=
      hag _ (underTree_self dest name child rest) hcleanN
    refine ⟨?_, ihr dest hcr (fun q hq hcq => hag q (underTree_rest hq) hcq) h2⟩
    rw [hlk]
    cases child with
    | file c => exact h1
    | dnil =>
      cases hl : fsLookup fs (dest ++ [name]) with
      | none =>
        rw [hl] at h1
        exact treeFree_congr fs fs2 .dnil (dest ++ [name]) hcc
          (fun q hq hcq => hag q (underTree_child hq) hcq) h1
      | some e =>
        cases e with
        | file c2 =>
          rw [hl] at h1
          exact h1.elim
        | dir =>
          rw [hl] at h1
          exact ihc (dest ++ [name]) hcc
            (fun q hq hcq => hag q (underTree_child hq) hcq) h1
    | dcons n2 c2 r2 =>
      cases hl : fsLookup fs (dest ++ [name]) with
      | none =>
        rw [hl] at h1
        exact treeFree_congr fs fs2 (.dcons n2 c2 r2) (dest ++ [name]) hcc
          (fun q hq hcq => hag q (underTree_child hq) hcq) h1
      | some e =>
        cases e with
        | file c3 =>
          rw [hl] at h1
          exact h1.elim
        | dir =>
          rw [hl] at h1
          exact ihc (dest ++ [name]) hcc
            (fun q hq hcq => hag q (underTree_child hq) hcq) h1

theorem conflictCount_congr (fs fs2 : FS) :
    ∀ (d : SrcTree) (dest : Path), treeClean d →
      (∀ q, underTree dest d q = true → isTempName (pathName q) = false →
        fsLookup fs2 q = fsLookup fs q) →
      conflictCount fs2 dest d = conflictCount fs dest d := by
  intro d
  induction d with
  | file c => intro dest _ _; rfl
  | dnil => intro dest _ _; rfl
  | dcons name child rest ihc ihr =>
    intro dest hc hag
    have hc2 : isTempName name = false ∧ treeClean child ∧ treeClean rest := by
      simp only [treeClean] at hc
      exact hc
    obtain ⟨hn, hcc, hcr⟩ := hc2
    have hcleanN : isTempName (pathName (dest ++ [name])) = false := by
      rw [pathName_concat]
      exact hn
    have hlk : fsLookup fs2 (dest ++ [name]) = fsLookup fs (dest ++ [name]) :=
      hag _ (underTree_self dest name child rest) hcleanN
    simp only [conflictCount]
    rw [ihr dest hcr (fun q hq hcq => hag q (underTree_rest hq) hcq),
      ihc (dest ++ [name]) hcc (fun q hq hcq => hag q (underTree_child hq) hcq)]
    have hex : fsExists fs2 (dest ++ [name]) = fsExists fs (dest ++ [name]) := by
      rw [fsExists, fsExists, hlk]
    rw [hex]

theorem treeOk_of_treeFree (fs : FS) :
    ∀ (d : SrcTree) (dest : Path), treeFree fs dest d → treeOk fs dest d := by
  intro d
  induction d with
  | file c => intro dest _; trivial
  | dnil => intro dest _; trivial
  | dcons name child rest ihc ihr =>
    intro dest hf
    have hf2 : fsLookup fs (dest ++ [name]) = none ∧
        treeFree fs (dest ++ [name]) child ∧ treeFree fs dest rest := by
      simp only [treeFree] at hf
      exact hf
    obtain ⟨h1, h2, h3⟩ := hf2
    simp only [treeOk]
    refine ⟨?_, ihr dest h3⟩
    rw [h1]
    cases child with
    | file c => simp
    | dnil => exact h2
    | dcons n2 c2 r2 => exact h2

theorem conflictCount_of_treeFree (fs : FS) :
    ∀ (d : SrcTree) (dest : Path), treeFree fs dest d →
      conflictCount fs dest d = 0 := by
  intro d
  induction d with
  | file c => intro dest _; rfl
  | dnil => intro dest _; rfl
  | dcons name child rest ihc ihr =>
    intro dest hf
    have hf2 : fsLookup fs (dest ++ [name]) = none ∧
        treeFree fs (dest ++ [name]) child ∧ treeFree fs dest rest := by
      simp only [treeFree] at hf
      exact hf
    obtain ⟨h1, h2, h3⟩ := hf2
    simp only [conflictCount]
    rw [ihr dest h3]
    have hex : fsExists fs (dest ++ [name]) = false := by
      rw [fsExists, h1]
      rfl
    rw [hex]
    rfl


/-- Once task-wide apply-all overwrite is latched, it stays latched and
no further conflict queries happen. -/
def aaOk (s s2 : St) : Prop :=
  s.apply_all_overwrite = true →
    s2.apply_all_overwrite = true ∧ queryCount s2.events = queryCount s.events

theorem aaOk_of_eq {s s2 : St}
    (haa : s2.apply_all_overwrite = s.apply_all_overwrite)
    (hev : s2.events = s.events) : aaOk s s2 :=
  fun ha => ⟨by rw [haa, ha], by rw [hev]⟩

theorem aaOk_rfl (s : St) : aaOk s s := aaOk_of_eq rfl rfl

theorem aaOk_trans {s₁ s₂ s₃ : St} (h₁ : aaOk s₁ s₂) (h₂ : aaOk s₂ s₃) :
    aaOk s₁ s₃ := by
  intro ha
  obtain ⟨ha2, he2⟩ := h₁ ha
  obtain ⟨ha3, he3⟩ := h₂ ha2
  exact ⟨ha3, he3.trans he2⟩

theorem andThen_aaOk {s : St} {x : Except Err Unit × St}
    {k : St → Except Err Unit × St} (hx : aaOk s x.2)
    (hk : ∀ ss, aaOk ss (k ss).2) : aaOk s (andThen x k).2 := by
  obtain ⟨r, s₂⟩ := x
  cases r with
  | error e => exact hx
  | ok _ => exact aaOk_trans hx (hk s₂)

theorem cancelCheck_aaOk (env : Env) (s : St) :
    aaOk s (cancelCheck env s).2 := by
  rw [cancelCheck]
  split <;> exact aaOk_of_eq rfl rfl

theorem chunkStep_aaOk (env : Env) (dest temp : Path)
    (written : List (List Nat)) (c : List Nat) (s : St) :
    aaOk s (chunkStep env dest temp written c s) := by
  rw [chunkStep_eq]
  by_cases h : emitInterval ≤ env.clock (s.tick + 1) - s.last_emit
  · rw [if_pos h]
    intro ha
    refine ⟨ha, ?_⟩
    rw [queryCount_append]
    rfl
  · rw [if_neg h]
    intro ha
    refine ⟨ha, ?_⟩
    rw [queryCount_append]
    rfl

theorem writeChunks_aaOk (env : Env) (dest temp : Path) :
    ∀ (chunks written : List (List Nat)) (s : St),
      aaOk s (writeChunks env dest temp written chunks s).2 := by
  intro chunks
  induction chunks with
  | nil =>
    intro written s
    exact andThen_aaOk (cancelCheck_aaOk env s) (fun ss => aaOk_rfl ss)
  | cons c rest ih =>
    intro written s
    refine andThen_aaOk (cancelCheck_aaOk env s) (fun ss => ?_)
    by_cases hio : env.ioFail ss.tick = true
    · rw [if_pos hio]
      exact aaOk_of_eq rfl rfl
    · rw [if_neg hio]
      exact aaOk_trans (chunkStep_aaOk env dest temp written c ss)
        (ih (written ++ [c]) _)

theorem copy_file_stream_aaOk (env : Env) (content : Content) (dest : Path)
    (s : St) : aaOk s (copy_file_stream env content dest s).2 := by
  rw [copy_file_stream]
  by_cases h1 : fsLookup s.fs (tempPath dest) = some .dir
  · rw [if_pos h1]
    exact aaOk_rfl s
  · rw [if_neg h1]
    simp only []
    rcases hw : writeChunks env dest (tempPath dest) [] content
      { s with fs := fsInsert s.fs (tempPath dest) (.file []) } with ⟨r, s₂⟩
    have hwa := writeChunks_aaOk env dest (tempPath dest) content []
      { s with fs := fsInsert s.fs (tempPath dest) (.file []) }
    rw [hw] at hwa
    simp only [tryCleanup]
    cases r with
    | error e =>
      simp only []
      exact hwa
    | ok _ =>
      simp only []
      by_cases hio : env.ioFail s₂.tick = true
      · rw [if_pos hio]
        exact hwa
      · rw [if_neg hio]
        by_cases hdd : fsLookup s₂.fs dest = some .dir
        · rw [if_pos hdd]
          exact hwa
        · rw [if_neg hdd]
          refine aaOk_trans hwa ?_
          intro ha
          refine ⟨ha, ?_⟩
          show queryCount (s₂.events ++ [Ev.fileProg dest]) = _
          rw [queryCount_append]
          rfl

theorem copy_file_aaOk (env : Env) (srcPath : Path) (content : Content)
    (dest : Path) (s : St) : aaOk s (copy_file env srcPath content dest s).2 := by
  rw [copy_file]
  by_cases hc : (fsExists s.fs dest && !s.apply_all_overwrite) = true
  · rw [if_pos hc]
    intro ha
    rw [ha] at hc
    simp at hc
  · rw [if_neg hc]
    exact copy_file_stream_aaOk env content dest s

theorem handle_conflict_aaOk (env : Env) (src dest : Path) (s : St) :
    aaOk s (handle_conflict env src dest s).2 := by
  intro ha
  rw [handle_conflict]
  by_cases h1 : fsExists s.fs dest = false
  · rw [if_pos h1]
    exact ⟨ha, rfl⟩
  · rw [if_neg h1, if_pos ha]
    exact ⟨ha, rfl⟩

theorem mkdirThen_aaOk {walk : Path → St → Except Err Unit × St}
    (hwalk : ∀ d ss, aaOk ss (walk d ss).2) (d : Path) (s : St) :
    aaOk s (mkdirThen d walk s).2 := by
  rw [mkdirThen]
  rcases hl : fsLookup s.fs d with _ | e
  · refine aaOk_trans ?_ (hwalk d _)
    exact aaOk_of_eq rfl rfl
  · cases e with
    | file c => exact aaOk_rfl s
    | dir => exact hwalk d s

theorem dir_step_aaOk (env : Env) (srcPath dest : Path) (isRoot : Bool)
    (walk : Path → St → Except Err Unit × St)
    (hwalk : ∀ d ss, aaOk ss (walk d ss).2) (s : St) :
    aaOk s (dir_step env srcPath dest isRoot walk s).2 := by
  rw [dir_step]
  by_cases hroot : isRoot = true
  · rw [if_pos hroot]
    simp only [resolveCase]
    exact mkdirThen_aaOk hwalk dest s
  · rw [if_neg hroot]
    by_cases hex : fsExists s.fs dest = true
    · rw [if_pos hex]
      rcases hh : handle_conflict env srcPath dest s with ⟨r, s₂⟩
      have haa := handle_conflict_aaOk env srcPath dest s
      rw [hh] at haa
      cases r with
      | none =>
        simp only [resolveCase]
        exact haa
      | some d2 =>
        simp only [resolveCase]
        exact aaOk_trans haa (mkdirThen_aaOk hwalk d2 s₂)
    · rw [if_neg hex]
      simp only [resolveCase]
      exact mkdirThen_aaOk hwalk dest s

theorem copy_entries_aaOk (env : Env) :
    ∀ (d : SrcTree) (srcPath dest : Path) (s : St),
      aaOk s (copy_entries env srcPath d dest s).2 := by
  intro d
  induction d with
  | file c => intro srcPath dest s; exact aaOk_rfl s
  | dnil => intro srcPath dest s; exact aaOk_rfl s
  | dcons name child rest ihc ihr =>
    intro srcPath dest s
    rw [copy_entries]
    refine andThen_aaOk (cancelCheck_aaOk env s) (fun s₁ => ?_)
    refine andThen_aaOk ?_ (fun s₂ => ihr srcPath dest s₂)
    cases child with
    | file c =>
      simp only [copy_entry_child]
      exact copy_file_aaOk env (srcPath ++ [name]) c (dest ++ [name]) s₁
    | dnil =>
      simp only [copy_entry_child]
      exact dir_step_aaOk env (srcPath ++ [name]) (dest ++ [name]) false _
        (fun dd ss => ihc (srcPath ++ [name]) dd ss) s₁
    | dcons n2 c2 r2 =>
      simp only [copy_entry_child]
      exact dir_step_aaOk env (srcPath ++ [name]) (dest ++ [name]) false _
        (fun dd ss => ihc (srcPath ++ [name]) dd ss) s₁

theorem copy_dir_with_conflicts_aaOk (env : Env) (srcPath : Path)
    (d : SrcTree) (dest : Path) (isRoot : Bool) (s : St) :
    aaOk s (copy_dir_with_conflicts env srcPath d dest isRoot s).2 := by
  rw [copy_dir_with_conflicts]
  exact dir_step_aaOk env srcPath dest isRoot _
    (fun dd ss => copy_entries_aaOk env d srcPath dd ss) s

theorem moveCleanup_aaOk (env : Env) (srcPath : Path) (s : St) :
    aaOk s (moveCleanup env srcPath s) := by
  rw [moveCleanup]
  split
  · split
    · exact aaOk_of_eq rfl rfl
    · exact aaOk_rfl s
  · exact aaOk_rfl s

theorem runPairs_aaOk (env : Env) :
    ∀ (pairs : List (Path × SrcTree)) (s : St),
      aaOk s (runPairs env pairs s).2 := by
  intro pairs
  induction pairs with
  | nil => intro s; exact aaOk_rfl s
  | cons pr rest ih =>
    obtain ⟨srcPath, t⟩ := pr
    intro s
    rw [runPairs]
    refine andThen_aaOk (cancelCheck_aaOk env s) (fun s₁ => ?_)
    rcases hh : handle_conflict env srcPath [pathName srcPath] s₁ with ⟨r, s₂⟩
    have haa := handle_conflict_aaOk env srcPath [pathName srcPath] s₁
    rw [hh] at haa
    cases r with
    | none =>
      simp only [resolveCase]
      refine aaOk_trans haa ?_
      exact andThen_aaOk (cancelCheck_aaOk env s₂) (fun s₃ => ih s₃)
    | some finalDest =>
      simp only [resolveCase]
      refine aaOk_trans haa ?_
      refine andThen_aaOk ?_ (fun s₃ =>
        aaOk_trans (moveCleanup_aaOk env srcPath s₃) (ih _))
      cases t with
      | file c => exact copy_file_aaOk env srcPath c finalDest s₂
      | dnil => exact copy_dir_with_conflicts_aaOk env srcPath .dnil finalDest true s₂
      | dcons n2 c2 r2 =>
        exact copy_dir_with_conflicts_aaOk env srcPath (.dcons n2 c2 r2)
          finalDest true s₂


theorem prefix_concat_unique {dest q : Path} {m name : String}
    (h1 : (dest ++ [m]).isPrefixOf q = true)
    (h2 : (dest ++ [name]).isPrefixOf q = true) : m = name := by
  have p1 := List.prefix_iff_eq_take.mp (List.isPrefixOf_iff_prefix.mp h1)
  have p2 := List.prefix_iff_eq_take.mp (List.isPrefixOf_iff_prefix.mp h2)
  have hlen : (dest ++ [m]).length = (dest ++ [name]).length := by simp
  rw [hlen] at p1
  have h3 : dest ++ [m] = dest ++ [name] := p1.trans p2.symm
  have h4 := List.append_cancel_left h3
  injection h4 with h5

theorem underTree_exists (dest : Path) :
    ∀ (d : SrcTree) (q : Path), underTree dest d q = true →
      ∃ m ∈ spineNames d, (dest ++ [m]).isPrefixOf q = true := by
  intro d
  induction d with
  | file c => intro q h; cases h
  | dnil => intro q h; cases h
  | dcons name child rest ihc ihr =>
    intro q h
    rw [underTree] at h
    rcases Bool.or_eq_true_iff.mp h with h1 | h2
    · exact ⟨name, List.mem_cons_self _ _, h1⟩
    · obtain ⟨m, hm, hp⟩ := ihr q h2
      exact ⟨m, List.mem_cons_of_mem _ hm, hp⟩

/-- A path below one of `rest`'s entries is distinct from the entry
path of a name that `rest` does not list. -/
theorem underTree_rest_ne {dest q : Path} {name : String} {rest : SrcTree}
    (hnn : name ∉ spineNames rest) (h : underTree dest rest q = true) :
    q ≠ dest ++ [name] := by
  intro he
  obtain ⟨m, hm, hp⟩ := underTree_exists dest rest q h
  rw [he] at hp
  rw [prefix_concat_unique hp (isPrefixOf_self (dest ++ [name]))] at hm
  exact hnn hm

/-- A path below one of `rest`'s entries is not below the entry of a
name that `rest` does not list. -/
theorem underTree_rest_not_under {dest q : Path} {name : String}
    {rest : SrcTree} (hnn : name ∉ spineNames rest)
    (h : underTree dest rest q = true) :
    (dest ++ [name]).isPrefixOf q = false := by
  by_contra hcon
  have hcon2 : (dest ++ [name]).isPrefixOf q = true := by
    revert hcon
    cases (dest ++ [name]).isPrefixOf q <;> simp
  obtain ⟨m, hm, hp⟩ := underTree_exists dest rest q h
  rw [prefix_concat_unique hp hcon2] at hm
  exact hnn hm

/-- `_handle_conflict` under an overwrite-answering callback: one
query, proceed at the original destination, latch apply-all exactly
when the decision asks for it. -/
theorem handle_conflict_overwrite {env : Env}
    {cb : Path → Path → Option ConflictDecision} (hcbv : env.callback = some cb)
    {dec : ConflictDecision} (src dest : Path) (s : St)
    (hdec : cb dest src = some dec) (hact : dec.action = "overwrite")
    (hex : fsExists s.fs dest = true) (haa : s.apply_all_overwrite = false) :
    handle_conflict env src dest s =
      (some dest,
        if dec.apply_all = true then
          { s with apply_all_overwrite := true,
                   events := s.events ++ [Ev.conflictQuery dest src] }
        else { s with events := s.events ++ [Ev.conflictQuery dest src] }) := by
  rw [handle_conflict, if_neg (by rw [hex]; simp), if_neg (by rw [haa]; simp),
    hcbv]
  simp only [hdec, Option.getD_some]
  rw [if_pos hact]

/-- `_copy_file` under an overwrite-answering callback and a compatible
destination: the copy succeeds, querying once exactly when the
destination existed. -/
theorem copy_file_count (env : Env)
    {cb : Path → Path → Option ConflictDecision} (hcbv : env.callback = some cb)
    (hcb : ∀ a b, cb a b = some { action := "overwrite" })
    (hnc : ∀ t, env.cancelReq t = false) (hnf : ∀ t, env.ioFail t = false)
    (srcP p : Path) (c : Content) (s : St)
    (hcf : s.cancelFlag = false) (haa : s.apply_all_overwrite = false)
    (hnt : noTemps s.fs)
    (hkind : fsLookup s.fs p ≠ some Entry.dir) :
    ∃ s2, copy_file env srcP c p s = (.ok (), s2) ∧
      s2.cancelFlag = false ∧ s2.apply_all_overwrite = false ∧
      (∀ q, fsLookup s2.fs q =
        if q = p then some (.file c)
        else if q = tempPath p then none
        else fsLookup s.fs q) ∧
      queryCount s2.events = queryCount s.events +
        (if fsExists s.fs p then 1 else 0) := by
  have htmp : fsLookup s.fs (tempPath p) ≠ some Entry.dir := by
    rw [hnt (tempPath p) (isTempName_tempPath p)]
    simp
  by_cases hex : fsExists s.fs p = true
  · rw [copy_file, if_pos (by rw [hex, haa]; rfl)]
    rw [handle_conflict_overwrite hcbv srcP p s (hcb p srcP) rfl hex haa]
    rw [if_neg (by decide)]
    simp only [resolveCase]
    obtain ⟨s2, heq, h2cf, h2aa, h2t, h2rs, h2fs, Δ, h2ev, h2p, h2q, h2f⟩ :=
      copy_file_stream_ok env hnc hnf c p
        { s with events := s.events ++ [Ev.conflictQuery p srcP] } hcf htmp hkind
    rw [heq]
    refine ⟨s2, rfl, h2cf, by rw [h2aa]; exact haa, h2fs, ?_⟩
    rw [h2ev, hex]
    show queryCount ((s.events ++ [Ev.conflictQuery p srcP]) ++ Δ
      ++ [Ev.fileProg p]) = queryCount s.events + 1
    rw [queryCount_append, queryCount_append, queryCount_append, h2q]
    rfl
  · have hexf : fsExists s.fs p = false := by
      revert hex
      cases fsExists s.fs p <;> simp
    rw [copy_file, if_neg (by rw [hexf]; simp)]
    obtain ⟨s2, heq, h2cf, h2aa, h2t, h2rs, h2fs, Δ, h2ev, h2p, h2q, h2f⟩ :=
      copy_file_stream_ok env hnc hnf c p s hcf htmp hkind
    rw [heq]
    refine ⟨s2, rfl, h2cf, by rw [h2aa]; exact haa, h2fs, ?_⟩
    rw [h2ev, hexf]
    show queryCount (s.events ++ Δ ++ [Ev.fileProg p]) = queryCount s.events + 0
    rw [queryCount_append, queryCount_append, h2q]
    rfl


theorem underTree_ne_base (p : Path) (d : SrcTree) (q : Path)
    (h : underTree p d q = true) : q ≠ p := by
  intro he
  obtain ⟨m, hm, hp⟩ := underTree_exists p d q h
  rw [he] at hp
  have hle := (List.isPrefixOf_iff_prefix.mp hp).length_le
  simp at hle

theorem underTree_false_of_not_prefixOf {p : Path} {d : SrcTree} {q : Path}
    (h : p.isPrefixOf q = false) : underTree p d q = false := by
  cases hu : underTree p d q with
  | false => rfl
  | true =>
    rw [underTree_prefixOf p d q hu] at h
    cases h

theorem ne_temp_of_clean {q p : Path} (hcq : isTempName (pathName q) = false) :
    q ≠ tempPath p := by
  intro he
  rw [he, isTempName_tempPath p] at hcq
  cases hcq

/-- The conclusion of the per-entry walk, shared by every entry kind:
success with flags intact, temp-freeness kept, changes confined to the
entry's subtree, and the predicted number of queries. -/
def entryCount (dest : Path) (name : String)
    (child : SrcTree) (x : St → Except Err Unit × St) (s : St) : Prop :=
  ∃ s2, x s = (.ok (), s2) ∧
    s2.cancelFlag = false ∧ s2.apply_all_overwrite = false ∧
    noTemps s2.fs ∧
    (∀ q, (dest ++ [name]).isPrefixOf q = false →
      isTempName (pathName q) = false →
      fsLookup s2.fs q = fsLookup s.fs q) ∧
    queryCount s2.events = queryCount s.events +
      (if fsExists s.fs (dest ++ [name]) then
        1 + conflictCount s.fs (dest ++ [name]) child
      else 0)

/-- A directory entry of the walk: one query if its destination exists
(recursing into the directory), none if it does not (its fresh subtree
raises no conflicts). -/
theorem dir_entry_count (env : Env)
    {cb : Path → Path → Option ConflictDecision} (hcbv : env.callback = some cb)
    (hcb : ∀ a b, cb a b = some { action := "overwrite" })
    (name : String) (child : SrcTree)
    (ihc : ∀ (srcP dest : Path) (s : St),
      s.cancelFlag = false → s.apply_all_overwrite = false →
      noTemps s.fs → treeOk s.fs dest child →
      ∃ s2, copy_entries env srcP child dest s = (.ok (), s2) ∧
        s2.cancelFlag = false ∧ s2.apply_all_overwrite = false ∧
        noTemps s2.fs ∧
        (∀ q, underTree dest child q = false → isTempName (pathName q) = false →
          fsLookup s2.fs q = fsLookup s.fs q) ∧
        queryCount s2.events = queryCount s.events + conflictCount s.fs dest child)
    (hn : isTempName name = false) (hcc : treeClean child)
    (srcP dest : Path) (s : St)
    (hcf : s.cancelFlag = false) (haa : s.apply_all_overwrite = false)
    (hnt : noTemps s.fs)
    (hok1 : match fsLookup s.fs (dest ++ [name]) with
            | some Entry.dir => treeOk s.fs (dest ++ [name]) child
            | some (Entry.file _) => False
            | none => treeFree s.fs (dest ++ [name]) child) :
    entryCount dest name child
      (dir_step env (srcP ++ [name]) (dest ++ [name]) false
        (fun dd ss => copy_entries env (srcP ++ [name]) child dd ss)) s := by
  cases hl : fsLookup s.fs (dest ++ [name]) with
  | none =>
    rw [hl] at hok1
    have hex : fsExists s.fs (dest ++ [name]) = false := by
      rw [fsExists, hl]
      rfl
    rw [entryCount, dir_step, if_neg (by decide), if_neg (by rw [hex]; simp)]
    simp only [resolveCase]
    have hmk : mkdirThen (dest ++ [name])
        (fun dd ss => copy_entries env (srcP ++ [name]) child dd ss) s
        = copy_entries env (srcP ++ [name]) child (dest ++ [name])
            { s with fs := fsInsert s.fs (dest ++ [name]) Entry.dir } := by
      rw [mkdirThen, hl]
    rw [hmk]
    have hnts : noTemps (fsInsert s.fs (dest ++ [name]) Entry.dir) := by
      intro q hq
      rw [fsLookup_insert,
        if_neg (fun he => by rw [← he, pathName_concat, hn] at hq; cases hq)]
      exact hnt q hq
    have hfree2 : treeFree (fsInsert s.fs (dest ++ [name]) Entry.dir)
        (dest ++ [name]) child := by
      refine treeFree_congr s.fs _ child (dest ++ [name]) hcc ?_ hok1
      intro q hq hcq
      rw [fsLookup_insert,
        if_neg (fun he => (underTree_ne_base _ _ _ hq) he.symm)]
    obtain ⟨s₂, heqC, h2cf, h2aa, h2nt, h2ag, h2q⟩ :=
      ihc (srcP ++ [name]) (dest ++ [name])
        { s with fs := fsInsert s.fs (dest ++ [name]) Entry.dir }
        hcf haa hnts (treeOk_of_treeFree _ child _ hfree2)
    rw [heqC]
    refine ⟨s₂, rfl, h2cf, h2aa, h2nt, ?_, ?_⟩
    · intro q hq hcq
      rw [h2ag q (underTree_false_of_not_prefixOf hq) hcq]
      show fsLookup (fsInsert s.fs (dest ++ [name]) Entry.dir) q = fsLookup s.fs q
      rw [fsLookup_insert,
        if_neg (fun he => by rw [← he, isPrefixOf_self] at hq; cases hq)]
    · rw [h2q, if_neg (by rw [hex]; simp)]
      have hc0 : conflictCount (fsInsert s.fs (dest ++ [name]) Entry.dir)
          (dest ++ [name]) child = 0 := conflictCount_of_treeFree _ child _ hfree2
      rw [hc0]
  | some e =>
    cases e with
    | file c2 =>
      rw [hl] at hok1
      exact hok1.elim
    | dir =>
      rw [hl] at hok1
      have hex : fsExists s.fs (dest ++ [name]) = true := by
        rw [fsExists, hl]
        rfl
      rw [entryCount, dir_step, if_neg (by decide), if_pos hex]
      rw [handle_conflict_overwrite hcbv (srcP ++ [name]) (dest ++ [name]) s
        (hcb _ _) rfl hex haa]
      rw [if_neg (by decide)]
      simp only [resolveCase]
      have hl2 : fsLookup ({ s with events := s.events ++
          [Ev.conflictQuery (dest ++ [name]) (srcP ++ [name])] } : St).fs
          (dest ++ [name]) = some Entry.dir := hl
      have hmk : mkdirThen (dest ++ [name])
          (fun dd ss => copy_entries env (srcP ++ [name]) child dd ss)
          { s with events := s.events ++
            [Ev.conflictQuery (dest ++ [name]) (srcP ++ [name])] }
          = copy_entries env (srcP ++ [name]) child (dest ++ [name])
              { s with events := s.events ++
                [Ev.conflictQuery (dest ++ [name]) (srcP ++ [name])] } := by
        rw [mkdirThen, hl2]
      rw [hmk]
      obtain ⟨s₂, heqC, h2cf, h2aa, h2nt, h2ag, h2q⟩ :=
        ihc (srcP ++ [name]) (dest ++ [name])
          { s with events := s.events ++
            [Ev.conflictQuery (dest ++ [name]) (srcP ++ [name])] }
          hcf haa hnt hok1
      rw [heqC]
      refine ⟨s₂, rfl, h2cf, h2aa, h2nt, ?_, ?_⟩
      · intro q hq hcq
        rw [h2ag q (underTree_false_of_not_prefixOf hq) hcq]
      · rw [if_pos hex]
        have h2q2 : queryCount s₂.events =
            (queryCount s.events + 1) +
              conflictCount s.fs (dest ++ [name]) child := by
          rw [h2q]
          have h1q : queryCount ({ s with events := s.events ++
              [Ev.conflictQuery (dest ++ [name]) (srcP ++ [name])] } : St).events
              = queryCount s.events + 1 := by
            show queryCount (s.events ++
              [Ev.conflictQuery (dest ++ [name]) (srcP ++ [name])]) = _
            rw [queryCount_append]
            rfl
          rw [h1q]
        rw [h2q2]
        omega

/-- A file entry of the walk: the copy goes through `_copy_file`,
querying once exactly when its destination exists. -/
theorem file_entry_count (env : Env)
    {cb : Path → Path → Option ConflictDecision} (hcbv : env.callback = some cb)
    (hcb : ∀ a b, cb a b = some { action := "overwrite" })
    (hnc : ∀ t, env.cancelReq t = false) (hnf : ∀ t, env.ioFail t = false)
    (name : String) (c : Content) (hn : isTempName name = false)
    (srcP dest : Path) (s : St)
    (hcf : s.cancelFlag = false) (haa : s.apply_all_overwrite = false)
    (hnt : noTemps s.fs)
    (hkind : fsLookup s.fs (dest ++ [name]) ≠ some Entry.dir) :
    entryCount dest name (.file c)
      (copy_file env (srcP ++ [name]) c (dest ++ [name])) s := by
  obtain ⟨s₂, heq, h2cf, h2aa, h2fs, h2q⟩ :=
    copy_file_count env hcbv hcb hnc hnf (srcP ++ [name]) (dest ++ [name]) c s
      hcf haa hnt hkind
  rw [entryCount, heq]
  have hnc2 : isTempName (pathName (dest ++ [name])) = false := by
    rw [pathName_concat]
    exact hn
  refine ⟨s₂, rfl, h2cf, h2aa, ?_, ?_, ?_⟩
  · intro q hq
    rw [h2fs q]
    by_cases h1 : q = dest ++ [name]
    · rw [← h1] at hnc2
      rw [hnc2] at hq
      cases hq
    · rw [if_neg h1]
      by_cases h2 : q = tempPath (dest ++ [name])
      · rw [if_pos h2]
      · rw [if_neg h2]
        exact hnt q hq
  · intro q hq hcq
    rw [h2fs q,
      if_neg (fun he => by rw [← he, isPrefixOf_self] at hq; cases hq),
      if_neg (ne_temp_of_clean hcq)]
  · rw [h2q]
    by_cases hex : fsExists s.fs (dest ++ [name]) = true
    · rw [hex]
      simp [conflictCount]
    · have hexf : fsExists s.fs (dest ++ [name]) = false := by
        revert hex
        cases fsExists s.fs (dest ++ [name]) <;> simp
      rw [hexf]
      simp


/-- The entry loop of `_copy_dir_with_conflicts` under an
overwrite-answering callback (apply-all never latched): it completes,
keeps the filesystem temp-free, confines its changes to the listing's
subtrees, and queries the callback exactly once per entry whose
destination already existed at entry. -/
theorem copy_entries_count (env : Env)
    {cb : Path → Path → Option ConflictDecision} (hcbv : env.callback = some cb)
    (hcb : ∀ a b, cb a b = some { action := "overwrite" })
    (hnc : ∀ t, env.cancelReq t = false) (hnf : ∀ t, env.ioFail t = false) :
    ∀ (d : SrcTree), treeClean d → treeNodup d →
      ∀ (srcP dest : Path) (s : St),
        s.cancelFlag = false → s.apply_all_overwrite = false →
        noTemps s.fs → treeOk s.fs dest d →
        ∃ s2, copy_entries env srcP d dest s = (.ok (), s2) ∧
          s2.cancelFlag = false ∧ s2.apply_all_overwrite = false ∧
          noTemps s2.fs ∧
          (∀ q, underTree dest d q = false → isTempName (pathName q) = false →
            fsLookup s2.fs q = fsLookup s.fs q) ∧
          queryCount s2.events = queryCount s.events +
            conflictCount s.fs dest d := by
  intro d
  induction d with
  | file c =>
    intro _ _ srcP dest s hcf haa hnt _
    exact ⟨s, rfl, hcf, haa, hnt, fun q _ _ => rfl, rfl⟩
  | dnil =>
    intro _ _ srcP dest s hcf haa hnt _
    exact ⟨s, rfl, hcf, haa, hnt, fun q _ _ => rfl, rfl⟩
  | dcons name child rest ihc ihr =>
    intro hcl hnd srcP dest s hcf haa hnt hok
    have hcl2 : isTempName name = false ∧ treeClean child ∧ treeClean rest := by
      simp only [treeClean] at hcl
      exact hcl
    obtain ⟨hn, hcc, hcr⟩ := hcl2
    have hnd2 : name ∉ spineNames rest ∧ treeNodup child ∧ treeNodup rest := by
      simp only [treeNodup] at hnd
      exact hnd
    obtain ⟨hnn, hndc, hndr⟩ := hnd2
    simp only [treeOk] at hok
    obtain ⟨hok1, hok2⟩ := hok
    rw [copy_entries, andThen_cancelCheck, if_neg (by rw [hcf, hnc]; simp)]
    have hentry : entryCount dest name child
        (copy_entry_child env (srcP ++ [name]) (dest ++ [name]) child
          (fun dd ss => copy_entries env (srcP ++ [name]) child dd ss))
        (cancelBump env s) := by
      cases child with
      | file c =>
        have hok1f : fsLookup s.fs (dest ++ [name]) ≠ some Entry.dir := by
          cases hl : fsLookup s.fs (dest ++ [name]) with
          | none => simp
          | some e =>
            rw [hl] at hok1
            cases e with
            | file c2 => simp
            | dir => exact hok1
        exact file_entry_count env hcbv hcb hnc hnf name c hn srcP dest
          (cancelBump env s) (cancelBump_flag_false hnc hcf) haa hnt hok1f
      | dnil =>
        have hok1d : (match fsLookup s.fs (dest ++ [name]) with
            | some Entry.dir => treeOk s.fs (dest ++ [name]) SrcTree.dnil
            | some (Entry.file _) => False
            | none => treeFree s.fs (dest ++ [name]) SrcTree.dnil) := by
          cases hl : fsLookup s.fs (dest ++ [name]) with
          | none =>
            rw [hl] at hok1
            exact hok1
          | some e =>
            rw [hl] at hok1
            cases e with
            | file c2 => exact hok1
            | dir => exact hok1
        exact dir_entry_count env hcbv hcb name .dnil (ihc hcc hndc)
          hn hcc srcP dest (cancelBump env s) (cancelBump_flag_false hnc hcf)
          haa hnt hok1d
      | dcons n2 c2 r2 =>
        have hok1d : (match fsLookup s.fs (dest ++ [name]) with
            | some Entry.dir => treeOk s.fs (dest ++ [name]) (SrcTree.dcons n2 c2 r2)
            | some (Entry.file _) => False
            | none => treeFree s.fs (dest ++ [name]) (SrcTree.dcons n2 c2 r2)) := by
          cases hl : fsLookup s.fs (dest ++ [name]) with
          | none =>
            rw [hl] at hok1
            exact hok1
          | some e =>
            rw [hl] at hok1
            cases e with
            | file c2 => exact hok1
            | dir => exact hok1
        exact dir_entry_count env hcbv hcb name (.dcons n2 c2 r2) (ihc hcc hndc)
          hn hcc srcP dest (cancelBump env s) (cancelBump_flag_false hnc hcf)
          haa hnt hok1d
    obtain ⟨s₂, heqE, h2cf, h2aa, h2nt, h2ag, h2q⟩ := hentry
    rw [heqE]
    simp only [andThen]
    have hokr : treeOk s₂.fs dest rest := by
      refine treeOk_congr s.fs s₂.fs rest dest hcr ?_ hok2
      intro q hq hcq
      exact h2ag q (underTree_rest_not_under hnn hq) hcq
    have hccr : conflictCount s₂.fs dest rest = conflictCount s.fs dest rest := by
      refine conflictCount_congr s.fs s₂.fs rest dest hcr ?_
      intro q hq hcq
      exact h2ag q (underTree_rest_not_under hnn hq) hcq
    obtain ⟨s₃, heqR, h3cf, h3aa, h3nt, h3ag, h3q⟩ :=
      ihr hcr hndr srcP dest s₂ h2cf h2aa h2nt hokr
    rw [heqR]
    refine ⟨s₃, rfl, h3cf, h3aa, h3nt, ?_, ?_⟩
    · intro q hq hcq
      rw [underTree] at hq
      have hq2 := Bool.or_eq_false_iff.mp hq
      rw [h3ag q hq2.2 hcq]
      exact h2ag q hq2.1 hcq
    · rw [h3q, hccr, h2q]
      simp only [cancelBump_events, cancelBump_fs]
      simp only [conflictCount]
      omega


theorem moveCleanup_events (env : Env) (srcPath : Path) (s : St) :
    (moveCleanup env srcPath s).events = s.events := by
  rw [moveCleanup]
  split
  · split <;> rfl
  · rfl

/-- Claim C1: for a task copying one source onto an existing
destination with a conflict callback that always answers overwrite,
(a) if the callback sets apply_all, exactly one query happens for the
whole task regardless of how many nested conflicting entries exist;
(b) if it does not set apply_all, the walk of a directory source
queries once for the top-level destination plus once per entry of the
tree whose destination path already existed - one query per conflicting
file or directory node. -/
theorem claim_C1_overwrite_apply_all_one_query (env : Env)
    (cb : Path → Path → Option ConflictDecision) (p : Path) (d : SrcTree)
    (fs : FS) (hcbv : env.callback = some cb)
    (hnc : ∀ t, env.cancelReq t = false)
    (hex : fsExists fs [pathName p] = true) :
    ((∀ a b, cb a b = some { action := "overwrite", apply_all := true }) →
      queryCount (run env [{ path := p, tree := some d }] (initSt fs)).events
        = 1) ∧
    ((∀ a b, cb a b = some { action := "overwrite" }) →
      (∀ t, env.ioFail t = false) →
      SrcTree.isDirNode d = true →
      fsLookup fs [pathName p] = some Entry.dir →
      treeClean d → treeNodup d → noTemps fs →
      treeOk fs [pathName p] d →
      queryCount (run env [{ path := p, tree := some d }] (initSt fs)).events
        = 1 + conflictCount fs [pathName p] d) := by
  have henum : enumerate [{ path := p, tree := some d }] = [(p, d)] := rfl
  have hcc1 : ¬ (((runInit [{ path := p, tree := some d }]
      (initSt fs)).cancelFlag ||
      env.cancelReq (runInit [{ path := p, tree := some d }]
        (initSt fs)).tick) = true) := by
    show ¬ ((false || env.cancelReq 0) = true)
    rw [hnc]
    simp
  have hexA : fsExists (cancelBump env (runInit
      [{ path := p, tree := some d }] (initSt fs))).fs [pathName p]
      = true := hex
  have haaA : (cancelBump env (runInit [{ path := p, tree := some d }]
      (initSt fs))).apply_all_overwrite = false := rfl
  constructor
  · intro hA
    have hrq : ∀ r sF, runPairs env [(p, d)]
        (runInit [{ path := p, tree := some d }] (initSt fs)) = (r, sF) →
        queryCount sF.events = 1 := by
      intro r sF hrp
      rw [runPairs, andThen_cancelCheck, if_neg hcc1] at hrp
      rw [handle_conflict_overwrite hcbv p [pathName p]
        (cancelBump env (runInit [{ path := p, tree := some d }] (initSt fs)))
        (hA [pathName p] p) rfl hexA haaA] at hrp
      rw [if_pos (show ({ action := "overwrite", apply_all := true } :
        ConflictDecision).apply_all = true from rfl)] at hrp
      simp only [resolveCase] at hrp
      set sq : St := { cancelBump env (runInit [{ path := p, tree := some d }]
          (initSt fs)) with
        apply_all_overwrite := true
        events := (cancelBump env (runInit [{ path := p, tree := some d }]
          (initSt fs))).events ++ [Ev.conflictQuery [pathName p] p] }
        with hsq
      have hsqa : sq.apply_all_overwrite = true := rfl
      have hsqe : queryCount sq.events = 1 := rfl
      cases d with
      | file c =>
        simp only [] at hrp
        have haaX := @andThen_aaOk sq (copy_file env p c [pathName p] sq)
          (fun s3 => runPairs env [] (moveCleanup env p s3))
          (copy_file_aaOk env p c [pathName p] sq)
          (fun ss => moveCleanup_aaOk env p ss)
        rw [hrp] at haaX
        obtain ⟨_, hq⟩ := haaX hsqa
        rw [hq, hsqe]
      | dnil =>
        simp only [] at hrp
        have haaX := @andThen_aaOk sq
          (copy_dir_with_conflicts env p .dnil [pathName p] true sq)
          (fun s3 => runPairs env [] (moveCleanup env p s3))
          (copy_dir_with_conflicts_aaOk env p .dnil [pathName p] true sq)
          (fun ss => moveCleanup_aaOk env p ss)
        rw [hrp] at haaX
        obtain ⟨_, hq⟩ := haaX hsqa
        rw [hq, hsqe]
      | dcons n2 c2 r2 =>
        simp only [] at hrp
        have haaX := @andThen_aaOk sq
          (copy_dir_with_conflicts env p (.dcons n2 c2 r2) [pathName p] true sq)
          (fun s3 => runPairs env [] (moveCleanup env p s3))
          (copy_dir_with_conflicts_aaOk env p (.dcons n2 c2 r2) [pathName p]
            true sq)
          (fun ss => moveCleanup_aaOk env p ss)
        rw [hrp] at haaX
        obtain ⟨_, hq⟩ := haaX hsqa
        rw [hq, hsqe]
    rw [run, henum]
    rcases hrp : runPairs env [(p, d)]
      (runInit [{ path := p, tree := some d }] (initSt fs)) with ⟨r, sF⟩
    cases r with
    | ok _ =>
      show queryCount (sF.events ++ [Ev.finished true ""]) = 1
      rw [queryCount_append, hrq _ _ hrp]
      rfl
    | error e =>
      show queryCount (sF.events ++ [Ev.finished false (errMsg e)]) = 1
      rw [queryCount_append, hrq _ _ hrp]
      rfl
  · intro hB hnf hdirn hdir hclean hnodup hnt hok
    have hrq : ∀ r sF, runPairs env [(p, d)]
        (runInit [{ path := p, tree := some d }] (initSt fs)) = (r, sF) →
        queryCount sF.events = 1 + conflictCount fs [pathName p] d := by
      intro r sF hrp
      rw [runPairs, andThen_cancelCheck, if_neg hcc1] at hrp
      rw [handle_conflict_overwrite hcbv p [pathName p]
        (cancelBump env (runInit [{ path := p, tree := some d }] (initSt fs)))
        (hB [pathName p] p) rfl hexA haaA] at hrp
      rw [if_neg (show ¬ ({ action := "overwrite" } :
        ConflictDecision).apply_all = true by decide)] at hrp
      simp only [resolveCase] at hrp
      set sq : St := { cancelBump env (runInit [{ path := p, tree := some d }]
          (initSt fs)) with
        events := (cancelBump env (runInit [{ path := p, tree := some d }]
          (initSt fs))).events ++ [Ev.conflictQuery [pathName p] p] }
        with hsq
      have hsqcf : sq.cancelFlag = false := by
        show (false || env.cancelReq 0) = false
        rw [hnc]
        rfl
      have hsqaa : sq.apply_all_overwrite = false := rfl
      have hsqe : queryCount sq.events = 1 := rfl
      have hsqfs : sq.fs = fs := rfl
      have hdir2 : fsLookup sq.fs [pathName p] = some Entry.dir := by
        rw [hsqfs]
        exact hdir
      have hnt2 : noTemps sq.fs := by
        rw [hsqfs]
        exact hnt
      have hok2 : treeOk sq.fs [pathName p] d := by
        rw [hsqfs]
        exact hok
      cases d with
      | file c => cases hdirn
      | dnil =>
        simp only [] at hrp
        rw [copy_dir_with_conflicts, dir_step, if_pos rfl] at hrp
        simp only [resolveCase] at hrp
        rw [mkdirThen, hdir2] at hrp
        obtain ⟨s₂, heqW, h2cf, h2aa, h2nt, h2ag, h2q⟩ :=
          copy_entries_count env hcbv hB hnc hnf .dnil hclean hnodup p
            [pathName p] sq hsqcf hsqaa hnt2 hok2
        rw [heqW] at hrp
        simp only [andThen] at hrp
        rw [runPairs] at hrp
        cases hrp
        rw [moveCleanup_events, h2q, hsqe]
        have hcc2 : conflictCount sq.fs [pathName p] SrcTree.dnil
            = conflictCount fs [pathName p] SrcTree.dnil := rfl
        rw [hcc2]
      | dcons n2 c2 r2 =>
        simp only [] at hrp
        rw [copy_dir_with_conflicts, dir_step, if_pos rfl] at hrp
        simp only [resolveCase] at hrp
        rw [mkdirThen, hdir2] at hrp
        obtain ⟨s₂, heqW, h2cf, h2aa, h2nt, h2ag, h2q⟩ :=
          copy_entries_count env hcbv hB hnc hnf (.dcons n2 c2 r2) hclean
            hnodup p [pathName p] sq hsqcf hsqaa hnt2 hok2
        rw [heqW] at hrp
        simp only [andThen] at hrp
        rw [runPairs] at hrp
        cases hrp
        rw [moveCleanup_events, h2q, hsqe]
        have hcc2 : conflictCount sq.fs [pathName p] (SrcTree.dcons n2 c2 r2)
            = conflictCount fs [pathName p] (SrcTree.dcons n2 c2 r2) := rfl
        rw [hcc2]
    rw [run, henum]
    rcases hrp : runPairs env [(p, d)]
      (runInit [{ path := p, tree := some d }] (initSt fs)) with ⟨r, sF⟩
    cases r with
    | ok _ =>
      show queryCount (sF.events ++ [Ev.finished true ""])
        = 1 + conflictCount fs [pathName p] d
      rw [queryCount_append, hrq _ _ hrp]
      rfl
    | error e =>
      show queryCount (sF.events ++ [Ev.finished false (errMsg e)])
        = 1 + conflictCount fs [pathName p] d
      rw [queryCount_append, hrq _ _ hrp]
      rfl


/-- A callback that always answers Overwrite(apply_all=True). -/
def overwriteAllCb : Path → Path → Option ConflictDecision :=
  fun _ _ => some { action := "overwrite", apply_all := true }

/-- A callback that always answers Overwrite(apply_all=False). -/
def overwriteCb : Path → Path → Option ConflictDecision :=
  fun _ _ => some { action := "overwrite" }

/-- A two-level source listing: a file `a`, and a directory `sub`
holding a file `b`. -/
def demoTree : SrcTree :=
  .dcons "a" (.file [[1]]) (.dcons "sub" (.dcons "b" (.file [[2]]) .dnil) .dnil)

/-- A destination where `docs`, `docs/a` and `docs/sub` already exist
but `docs/sub/b` does not: three conflicting nodes (the root counts
once in `_run`, both existing entries once each in the walk). -/
def demoFs : FS :=
  [(["docs"], Entry.dir), (["docs", "a"], Entry.file [[9]]),
   (["docs", "sub"], Entry.dir)]

theorem claim_C1_witness :
    fsExists demoFs [pathName ["s", "docs"]] = true ∧
    queryCount (run { benignEnv with callback := some overwriteAllCb }
      [{ path := ["s", "docs"], tree := some demoTree }]
      (initSt demoFs)).events = 1 ∧
    queryCount (run { benignEnv with callback := some overwriteCb }
      [{ path := ["s", "docs"], tree := some demoTree }]
      (initSt demoFs)).events
      = 1 + conflictCount demoFs [pathName ["s", "docs"]] demoTree := by
  refine ⟨by decide, ?_, ?_⟩
  · exact (claim_C1_overwrite_apply_all_one_query
      { benignEnv with callback := some overwriteAllCb } overwriteAllCb
      ["s", "docs"] demoTree demoFs rfl (fun t => rfl) (by decide)).1
      (fun a b => rfl)
  · refine (claim_C1_overwrite_apply_all_one_query
      { benignEnv with callback := some overwriteCb } overwriteCb
      ["s", "docs"] demoTree demoFs rfl (fun t => rfl) (by decide)).2
      (fun a b => rfl) (fun t => rfl) rfl (by decide) ?_ ?_ ?_ ?_
    · exact ⟨by decide, trivial, by decide, ⟨by decide, trivial, trivial⟩,
        trivial⟩
    · exact ⟨by decide, trivial, by decide, ⟨by decide, trivial, trivial⟩,
        trivial⟩
    · intro q hq
      have h1 : ¬ (["docs"] : Path) = q := fun he =>
        absurd hq (by rw [← he]; decide)
      have h2 : ¬ (["docs", "a"] : Path) = q := fun he =>
        absurd hq (by rw [← he]; decide)
      have h3 : ¬ (["docs", "sub"] : Path) = q := fun he =>
        absurd hq (by rw [← he]; decide)
      show fsLookup demoFs q = none
      rw [demoFs, fsLookup_cons, if_neg h1, fsLookup_cons, if_neg h2,
        fsLookup_cons, if_neg h3]
      rfl
    · refine ⟨?_, ?_, trivial⟩
      · show fsLookup demoFs ([pathName ["s", "docs"]] ++ ["a"])
          ≠ some Entry.dir
        decide
      · show treeOk demoFs ([pathName ["s", "docs"]] ++ ["sub"])
          (SrcTree.dcons "b" (SrcTree.file [[2]]) SrcTree.dnil)
        refine ⟨?_, trivial⟩
        show fsLookup demoFs ([pathName ["s", "docs"]] ++ ["sub"] ++ ["b"])
          ≠ some Entry.dir
        decide

end FileTransfer
